import Mathlib

/-! # Red-black tree set (`jvn::RBTree`, src/RBTree.h)

A shallow embedding of the pointer program.  Nodes live in a store indexed by
addresses (`Nat`); a pointer is an `Option Nat` with `none` for `nullptr`.
Every dereference is checked: following `nullptr` or a released address is the
fault `undefined_behaviour`.  Loops and recursive member functions take a fuel
argument and stop with the fault `out_of_fuel` when it is used up.

The element type is any linearly ordered type: `value_compare` is the default
`std::less<T>` (`<`), and `operator!=` on values is decidable equality.
`m_size` is a natural number: the store would be exhausted long before a
`size_t` counter wraps, and allocation itself is assumed to succeed.
-/

namespace jvn

/-- The colour tag `enum m_RB { m_red, m_black }`. -/
inductive m_RB where
  | m_red
  | m_black
deriving DecidableEq, Repr

/-- The record `struct RBTreeNode`. -/
structure RBTreeNode (α : Type) where
  m_data : α
  m_color : m_RB
  m_left : Option Nat
  m_right : Option Nat
  m_parent : Option Nat
deriving DecidableEq, Repr

/-- Ways in which a run does not return normally. -/
inductive Fault where
  | undefined_behaviour
  | out_of_fuel
  | end_of_iteration_reached
  | exceeded_boundary
  | value_has_not_been_inserted
deriving DecidableEq, Repr

/-- The object `class RBTree` together with the node store it allocates from.
`mem a = none` means that address `a` holds no live node; `brk` is the next
address the allocator hands out. -/
structure RBTree (α : Type) where
  mem : Nat → Option (RBTreeNode α)
  brk : Nat
  m_root : Option Nat
  m_size : Nat

/-- The iterator `class RBTreeIterator`: one node pointer. -/
structure RBTreeIterator where
  m_pointer : Option Nat
deriving DecidableEq, Repr

variable {α : Type}

/-- Reading through a pointer (`p->...`). -/
def RBTree.deref (t : RBTree α) (p : Option Nat) : Except Fault (RBTreeNode α) :=
  match p with
  | none => .error .undefined_behaviour
  | some a =>
    match t.mem a with
    | none => .error .undefined_behaviour
    | some n => .ok n

/-- Writing through a pointer (`p->field = ...`). -/
def RBTree.modify (t : RBTree α) (p : Option Nat) (f : RBTreeNode α → RBTreeNode α) :
    Except Fault (RBTree α) :=
  match p with
  | none => .error .undefined_behaviour
  | some a =>
    match t.mem a with
    | none => .error .undefined_behaviour
    | some n => .ok { t with mem := Function.update t.mem a (some (f n)) }

/-- Assignment `p->m_data = v`. -/
def RBTree.set_data (t : RBTree α) (p : Option Nat) (v : α) : Except Fault (RBTree α) :=
  t.modify p (fun n => { n with m_data := v })

/-- Assignment `p->m_color = c`. -/
def RBTree.set_color (t : RBTree α) (p : Option Nat) (c : m_RB) : Except Fault (RBTree α) :=
  t.modify p (fun n => { n with m_color := c })

/-- Assignment `p->m_left = q`. -/
def RBTree.set_left (t : RBTree α) (p q : Option Nat) : Except Fault (RBTree α) :=
  t.modify p (fun n => { n with m_left := q })

/-- Assignment `p->m_right = q`. -/
def RBTree.set_right (t : RBTree α) (p q : Option Nat) : Except Fault (RBTree α) :=
  t.modify p (fun n => { n with m_right := q })

/-- Assignment `p->m_parent = q`. -/
def RBTree.set_parent (t : RBTree α) (p q : Option Nat) : Except Fault (RBTree α) :=
  t.modify p (fun n => { n with m_parent := q })

/-- `RBTreeNode::sibling` (RBTree.h 28-35). -/
def RBTree.sibling (t : RBTree α) (this : Option Nat) : Except Fault (Option Nat) := do
  let n ← t.deref this
  if n.m_parent = none then
    return none
  let p ← t.deref n.m_parent
  if this = p.m_left then
    return p.m_right
  return p.m_left

/-- `RBTreeNode::buy_head_node` (RBTree.h 39-50): a fresh value-initialised node,
black, all links null. -/
def RBTree.buy_head_node [Inhabited α] (t : RBTree α) : RBTree α × Option Nat :=
  ({ t with
      mem := Function.update t.mem t.brk
        (some { m_data := default, m_color := .m_black, m_left := none, m_right := none,
                m_parent := none })
      brk := t.brk + 1 },
   some t.brk)

/-- `RBTreeNode::buy_node` (RBTree.h 52-63): a fresh value-initialised node, red,
child links null, parent link as given. -/
def RBTree.buy_node [Inhabited α] (t : RBTree α) (parent : Option Nat) : RBTree α × Option Nat :=
  ({ t with
      mem := Function.update t.mem t.brk
        (some { m_data := default, m_color := .m_red, m_left := none, m_right := none,
                m_parent := parent })
      brk := t.brk + 1 },
   some t.brk)

/-- `RBTreeNode::destroy_node` (RBTree.h 65-70): release the node's storage. -/
def RBTree.destroy_node (t : RBTree α) (this : Option Nat) : Except Fault (RBTree α) :=
  match this with
  | none => .error .undefined_behaviour
  | some a =>
    match t.mem a with
    | none => .error .undefined_behaviour
    | some _ => .ok { t with mem := Function.update t.mem a none }

/-- `RBTree::size`. -/
def RBTree.size (t : RBTree α) : Nat := t.m_size

/-- `RBTree::empty`: `!m_size`. -/
def RBTree.empty (t : RBTree α) : Bool := t.m_size == 0

/-- The default-constructed tree `RBTree()` over an unused store. -/
def RBTree.new : RBTree α :=
  { mem := fun _ => none, brk := 0, m_root := none, m_size := 0 }

section ordered
variable [LinearOrder α]

/-- The loop of `RBTree::find_node` (RBTree.h 199-200). -/
def RBTree.find_node_loop (t : RBTree α) (val : α) : Nat → Option Nat → Except Fault (Option Nat)
  | 0, _ => .error .out_of_fuel
  | _ + 1, none => .ok none
  | fuel + 1, some a => do
    let n ← t.deref (some a)
    if n.m_data ≠ val then
      t.find_node_loop val fuel (if val < n.m_data then n.m_left else n.m_right)
    else
      .ok (some a)

/-- `RBTree::find_node` (RBTree.h 196-202). -/
def RBTree.find_node (fuel : Nat) (t : RBTree α) (val : α) : Except Fault (Option Nat) :=
  t.find_node_loop val fuel t.m_root

/-- `RBTree::find` (RBTree.h 158). -/
def RBTree.find (fuel : Nat) (t : RBTree α) (val : α) : Except Fault RBTreeIterator := do
  let p ← t.find_node fuel val
  return ⟨p⟩

end ordered

/-- `RBTree::left_rotate` (RBTree.h 435-450). -/
def RBTree.left_rotate (t : RBTree α) (node : Option Nat) : Except Fault (RBTree α) := do
  let right := (← t.deref node).m_right
  let t ← t.set_right node (← t.deref right).m_left
  let n ← t.deref node
  let t ← (if n.m_right ≠ none then t.set_parent n.m_right node else pure t)
  let t ← t.set_parent right (← t.deref node).m_parent
  let n ← t.deref node
  let t ← (if n.m_parent = none then
      pure { t with m_root := right }
    else do
      let p ← t.deref n.m_parent
      if node = p.m_left then t.set_left n.m_parent right
      else t.set_right n.m_parent right)
  let t ← t.set_left right node
  t.set_parent node right

/-- `RBTree::right_rotate` (RBTree.h 452-467). -/
def RBTree.right_rotate (t : RBTree α) (node : Option Nat) : Except Fault (RBTree α) := do
  let left := (← t.deref node).m_left
  let t ← t.set_left node (← t.deref left).m_right
  let n ← t.deref node
  let t ← (if n.m_left ≠ none then t.set_parent n.m_left node else pure t)
  let t ← t.set_parent left (← t.deref node).m_parent
  let n ← t.deref node
  let t ← (if n.m_parent = none then
      pure { t with m_root := left }
    else do
      let p ← t.deref n.m_parent
      if node = p.m_left then t.set_left n.m_parent left
      else t.set_right n.m_parent left)
  let t ← t.set_right left node
  t.set_parent node left

/-- The test `p != nullptr && p->m_color == Node::m_red` with its short circuit. -/
def RBTree.is_red (t : RBTree α) (p : Option Nat) : Except Fault Bool := do
  if p = none then return false
  let n ← t.deref p
  return decide (n.m_color = .m_red)

section ordered
variable [LinearOrder α] [Inhabited α]

/-- The descent loop of `RBTree::BST_insert` (RBTree.h 358-362); returns the
final `(parent, search)`. -/
def RBTree.BST_insert_loop (t : RBTree α) (val : α) :
    Nat → Option Nat → Option Nat → Except Fault (Option Nat × Option Nat)
  | 0, _, _ => .error .out_of_fuel
  | _ + 1, parent, none => .ok (parent, none)
  | fuel + 1, parent, some a => do
    let n ← t.deref (some a)
    if n.m_data ≠ val then
      t.BST_insert_loop val fuel (some a) (if val < n.m_data then n.m_left else n.m_right)
    else
      .ok (parent, some a)

/-- `RBTree::BST_insert` (RBTree.h 345-375); returns the new state and the
node pointer `search`. -/
def RBTree.BST_insert (fuel : Nat) (t : RBTree α) (val : α) :
    Except Fault (RBTree α × Option Nat) := do
  if t.empty then
    let (t, head) := t.buy_head_node
    let t := { t with m_root := head }
    let t ← t.set_data t.m_root val
    let search := t.m_root
    let t := { t with m_size := t.m_size + 1 }
    return (t, search)
  else
    let (parent, search) ← t.BST_insert_loop val fuel none t.m_root
    if search = none then
      let (t, search) := t.buy_node parent
      let t ← t.set_data search val
      let p ← t.deref parent
      let t ← (if val < p.m_data then t.set_left parent search
               else t.set_right parent search)
      let t := { t with m_size := t.m_size + 1 }
      return (t, search)
    else
      return (t, search)

/-- The loop condition of `RBTree::insert_fix` (RBTree.h 379-380), with the
short-circuit evaluation of `&&`. -/
def RBTree.insert_fix_cond (t : RBTree α) (node : Option Nat) : Except Fault Bool := do
  if node = t.m_root then return false
  let n ← t.deref node
  if n.m_color = .m_black then return false
  let p ← t.deref n.m_parent
  return decide (p.m_color = .m_red)

/-- One pass through the loop body of `RBTree::insert_fix` (RBTree.h 382-428);
returns the new state and the new value of `node`. -/
def RBTree.insert_fix_body (t : RBTree α) (node : Option Nat) :
    Except Fault (RBTree α × Option Nat) := do
  let parent := (← t.deref node).m_parent
  let grand_parent := (← t.deref parent).m_parent
  let uncle ← t.sibling parent
  let g ← t.deref grand_parent
  if parent = g.m_left then
    let uncle_red ← t.is_red uncle
    if uncle_red then
      let t ← t.set_color grand_parent .m_red
      let t ← t.set_color parent .m_black
      let t ← t.set_color uncle .m_black
      return (t, grand_parent)
    else
      let p ← t.deref parent
      let (t, _, parent) ← (if node = p.m_right then do
          let t ← t.left_rotate parent
          let node := parent
          let parent := (← t.deref node).m_parent
          pure (t, node, parent)
        else pure (t, node, parent))
      let t ← t.right_rotate grand_parent
      let pc := (← t.deref parent).m_color
      let gc := (← t.deref grand_parent).m_color
      let t ← t.set_color parent gc
      let t ← t.set_color grand_parent pc
      return (t, parent)
  else
    let uncle_red ← t.is_red uncle
    if uncle_red then
      let t ← t.set_color grand_parent .m_red
      let t ← t.set_color parent .m_black
      let t ← t.set_color uncle .m_black
      return (t, grand_parent)
    else
      let p ← t.deref parent
      let (t, _, parent) ← (if node = p.m_left then do
          let t ← t.right_rotate parent
          let node := parent
          let parent := (← t.deref node).m_parent
          pure (t, node, parent)
        else pure (t, node, parent))
      let t ← t.left_rotate grand_parent
      let pc := (← t.deref parent).m_color
      let gc := (← t.deref grand_parent).m_color
      let t ← t.set_color parent gc
      let t ← t.set_color grand_parent pc
      return (t, parent)

/-- `RBTree::insert_fix` (RBTree.h 377-431). -/
def RBTree.insert_fix : Nat → RBTree α → Option Nat → Except Fault (RBTree α)
  | 0, _, _ => .error .out_of_fuel
  | fuel + 1, t, node => do
    if (← t.insert_fix_cond node) then
      let (t, node) ← t.insert_fix_body node
      RBTree.insert_fix fuel t node
    else
      t.set_color t.m_root .m_black

/-- `RBTree::insert` (RBTree.h 470-475). -/
def RBTree.insert (fuel : Nat) (t : RBTree α) (val : α) : Except Fault (RBTree α) := do
  let (t, added) ← t.BST_insert fuel val
  RBTree.insert_fix fuel t added

end ordered

/-- The loop `while (tmp->m_left != nullptr) tmp = tmp->m_left;` used by
`BST_replace`, `begin` and `operator++`. -/
def RBTree.leftmost_loop (t : RBTree α) : Nat → Option Nat → Except Fault (Option Nat)
  | 0, _ => .error .out_of_fuel
  | fuel + 1, tmp => do
    let n ← t.deref tmp
    if n.m_left ≠ none then
      t.leftmost_loop fuel n.m_left
    else
      .ok tmp

/-- `RBTree::BST_replace` (RBTree.h 325-339). -/
def RBTree.BST_replace (fuel : Nat) (t : RBTree α) (node : Option Nat) :
    Except Fault (Option Nat) := do
  let n ← t.deref node
  if n.m_left ≠ none ∧ n.m_right ≠ none then
    t.leftmost_loop fuel n.m_right
  else if n.m_left = none ∧ n.m_right = none then
    return none
  else if n.m_left ≠ none then
    return n.m_left
  else
    return n.m_right

/-- `RBTree::double_black_fix` (RBTree.h 261-323). -/
def RBTree.double_black_fix : Nat → RBTree α → Option Nat → Except Fault (RBTree α)
  | 0, _, _ => .error .out_of_fuel
  | fuel + 1, t, node => do
    if node = t.m_root then
      return t
    let sibling ← t.sibling node
    let parent := (← t.deref node).m_parent
    if sibling = none then
      RBTree.double_black_fix fuel t parent
    else
      let s ← t.deref sibling
      if s.m_color = .m_red then
        let t ← t.set_color parent .m_red
        let t ← t.set_color sibling .m_black
        let sp ← t.deref (← t.deref sibling).m_parent
        let t ← (if sp.m_left = sibling then t.right_rotate parent else t.left_rotate parent)
        RBTree.double_black_fix fuel t node
      else
        let left_red ← t.is_red s.m_left
        let some_red ← (if left_red then pure true else t.is_red s.m_right)
        if some_red then
          let sp ← t.deref s.m_parent
          let t ← (if left_red then
              if sp.m_left = sibling then do
                let t ← t.set_color s.m_left s.m_color
                let t ← t.set_color sibling (← t.deref parent).m_color
                t.right_rotate parent
              else do
                let t ← t.set_color s.m_left (← t.deref parent).m_color
                let t ← t.right_rotate sibling
                t.left_rotate parent
            else
              if sp.m_left = sibling then do
                let t ← t.set_color s.m_right (← t.deref parent).m_color
                let t ← t.left_rotate sibling
                t.right_rotate parent
              else do
                let t ← t.set_color s.m_right s.m_color
                let t ← t.set_color sibling (← t.deref parent).m_color
                t.left_rotate parent)
          t.set_color parent .m_black
        else
          let t ← t.set_color sibling .m_red
          if (← t.deref parent).m_color = .m_black then
            RBTree.double_black_fix fuel t parent
          else
            t.set_color parent .m_black

/-- `RBTree::delete_node` (RBTree.h 206-259). -/
def RBTree.delete_node : Nat → RBTree α → Option Nat → Except Fault (RBTree α)
  | 0, _, _ => .error .out_of_fuel
  | fuel + 1, t, node => do
    let y ← t.BST_replace fuel node
    let y_black ← (if y = none then pure true else do
        let yn ← t.deref y
        pure (decide (yn.m_color = .m_black)))
    let double_black ← (if y_black then do
        let n ← t.deref node
        pure (decide (n.m_color = .m_black))
      else pure false)
    let parent := (← t.deref node).m_parent
    if y = none then
      let t ← (if node = t.m_root then
          pure { t with m_root := none }
        else do
          let t ← (if double_black then
              t.double_black_fix fuel node
            else do
              if (← t.sibling node) ≠ none then
                t.set_color (← t.sibling node) .m_red
              else pure t)
          let np ← t.deref (← t.deref node).m_parent
          if np.m_left = node then t.set_left parent none
          else t.set_right parent none)
      let t ← t.destroy_node node
      return { t with m_size := t.m_size - 1 }
    let n ← t.deref node
    if n.m_left = none ∨ n.m_right = none then
      let t ← (if node = t.m_root then do
          let t ← t.set_data node (← t.deref y).m_data
          let t ← t.set_right node none
          let t ← t.set_left node none
          t.destroy_node y
        else do
          let np ← t.deref n.m_parent
          let t ← (if np.m_left = node then t.set_left parent y
                   else t.set_right parent y)
          let t ← t.destroy_node node
          let t ← t.set_parent y parent
          if double_black then
            t.double_black_fix fuel y
          else
            t.set_color y .m_black)
      return { t with m_size := t.m_size - 1 }
    let yd := (← t.deref y).m_data
    let nd := (← t.deref node).m_data
    let t ← t.set_data y nd
    let t ← t.set_data node yd
    RBTree.delete_node fuel t y

section ordered
variable [LinearOrder α]

/-- `RBTree::erase` (RBTree.h 477-485).  The result pairs the outcome with the
state the object is left in; when the outcome is the thrown
`value_has_not_been_inserted` that is the state at the `throw`. -/
def RBTree.erase (fuel : Nat) (t : RBTree α) (val : α) : Except Fault Unit × RBTree α :=
  match t.find_node fuel val with
  | .error e => (.error e, t)
  | .ok search =>
    if search = none then
      (.error .value_has_not_been_inserted, t)
    else
      match t.delete_node fuel search with
      | .error e => (.error e, t)
      | .ok t' => (.ok (), t')

end ordered

/-- `RBTree::end` (RBTree.h 498-502). -/
def RBTree.end_ (_t : RBTree α) : RBTreeIterator := ⟨none⟩

/-- `RBTree::begin` (RBTree.h 487-496). -/
def RBTree.begin (fuel : Nat) (t : RBTree α) : Except Fault RBTreeIterator := do
  if t.m_root = none then
    return t.end_
  let leftmost_node ← t.leftmost_loop fuel t.m_root
  return ⟨leftmost_node⟩

/-- The climbing loop of `operator++` (RBTree.h 114-115). -/
def RBTree.climb_loop (t : RBTree α) : Nat → Option Nat → Except Fault (Option Nat)
  | 0, _ => .error .out_of_fuel
  | fuel + 1, p => do
    let n ← t.deref p
    if n.m_parent = none then
      return p
    let q ← t.deref n.m_parent
    if q.m_right = p then
      t.climb_loop fuel n.m_parent
    else
      return p

/-- `RBTreeIterator::operator++` (RBTree.h 93-119), reading nodes from the store
of `t`. -/
def RBTreeIterator.incr (fuel : Nat) (t : RBTree α) (it : RBTreeIterator) :
    Except Fault RBTreeIterator := do
  if it.m_pointer = none then
    throw .end_of_iteration_reached
  let n ← t.deref it.m_pointer
  if n.m_parent = none then
    if n.m_right = none then
      return ⟨n.m_right⟩
    let p ← t.leftmost_loop fuel n.m_right
    return ⟨p⟩
  else if n.m_right ≠ none then
    let p ← t.leftmost_loop fuel n.m_right
    return ⟨p⟩
  else
    let p ← t.climb_loop fuel it.m_pointer
    return ⟨(← t.deref p).m_parent⟩

/-- `RBTreeIterator::operator*` (RBTree.h 122). -/
def RBTreeIterator.star (t : RBTree α) (it : RBTreeIterator) : Except Fault α := do
  if it.m_pointer = none then
    throw .exceeded_boundary
  return (← t.deref it.m_pointer).m_data

/-- `operator==` on iterators (RBTree.h 87-91). -/
def RBTreeIterator.eq [DecidableEq α] (t : RBTree α) (lhs rhs : RBTreeIterator) :
    Except Fault Bool := do
  if lhs.m_pointer = rhs.m_pointer then return true
  if lhs.m_pointer = none then return false
  if rhs.m_pointer = none then return false
  return decide ((← t.deref lhs.m_pointer).m_data = (← t.deref rhs.m_pointer).m_data)

/-- `operator!=` on iterators (RBTree.h 92). -/
def RBTreeIterator.ne [DecidableEq α] (t : RBTree α) (lhs rhs : RBTreeIterator) :
    Except Fault Bool := do
  return !(← RBTreeIterator.eq t lhs rhs)

end jvn

/-! ## The linked structure as a tree

The store is related to an inductive tree that records, for every node, its
address, colour and value.  All properties of the pointer structure are stated
on that tree.
-/

namespace jvn

variable {α : Type}

/-- The linked structure below a pointer, with the address of every node. -/
inductive Tree (α : Type) where
  | nil
  | node (a : Nat) (c : m_RB) (v : α) (l r : Tree α)
deriving DecidableEq, Repr

namespace Tree

/-- The pointer to the root node of the structure. -/
def ptr : Tree α → Option Nat
  | nil => none
  | node a _ _ _ _ => some a

/-- Addresses of the nodes, in in-order. -/
def addrs : Tree α → List Nat
  | nil => []
  | node a _ _ l r => l.addrs ++ a :: r.addrs

/-- Values of the nodes, in in-order (left subtree, node, right subtree). -/
def inorder : Tree α → List α
  | nil => []
  | node _ _ v l r => l.inorder ++ v :: r.inorder

/-- Number of nodes. -/
def size : Tree α → Nat
  | nil => 0
  | node _ _ _ l r => l.size + 1 + r.size

/-- Number of nodes on the longest path from the root to a leaf. -/
def height : Tree α → Nat
  | nil => 0
  | node _ _ _ l r => max l.height r.height + 1

/-- The root is a red node (an absent child counts as black). -/
def isRed : Tree α → Bool
  | node _ .m_red _ _ _ => true
  | _ => false

/-- Number of black nodes on the leftmost path to an absent child. -/
def bh : Tree α → Nat
  | nil => 0
  | node _ .m_black _ l _ => l.bh + 1
  | node _ .m_red _ l _ => l.bh

/-- At every node both subtrees have the same black height. -/
def Bal : Tree α → Prop
  | nil => True
  | node _ _ _ l r => l.bh = r.bh ∧ l.Bal ∧ r.Bal

/-- No red node has a red child. -/
def NoRR : Tree α → Prop
  | nil => True
  | node _ c _ l r => (c = .m_red → l.isRed = false ∧ r.isRed = false) ∧ l.NoRR ∧ r.NoRR

/-- For every path from the root to an absent child, the number of black nodes
on it. -/
def blackCounts : Tree α → List Nat
  | nil => [0]
  | node _ .m_black _ l r => (l.blackCounts ++ r.blackCounts).map (· + 1)
  | node _ .m_red _ l r => l.blackCounts ++ r.blackCounts

/-- Every path from the root to an absent child has the same number of black
nodes. -/
def UniformBlack (t : Tree α) : Prop :=
  ∀ m ∈ t.blackCounts, ∀ n ∈ t.blackCounts, m = n

/-- The three colour invariants: no red node has a red child, the root is
black, and all root-to-absent-child paths have the same number of black
nodes. -/
def RedBlack (t : Tree α) : Prop :=
  t.NoRR ∧ t.isRed = false ∧ t.UniformBlack

/-- Binary-search-tree order: every value in the left subtree is less than the
node's value and every value in the right subtree is greater. -/
def BST [LT α] : Tree α → Prop
  | nil => True
  | node _ _ v l r =>
    (∀ x ∈ l.inorder, x < v) ∧ (∀ x ∈ r.inorder, v < x) ∧ l.BST ∧ r.BST

/-- The root recoloured black (`m_root->m_color = Node::m_black`). -/
def blacken : Tree α → Tree α
  | nil => nil
  | node a _ v l r => node a .m_black v l r

end Tree

/-- The way from a subtree up to the root: each step records the node above,
the side the subtree hangs on, and the subtree on the other side. -/
inductive Path (α : Type) where
  | top
  | left (a : Nat) (c : m_RB) (v : α) (up : Path α) (r : Tree α)
  | right (a : Nat) (c : m_RB) (v : α) (l : Tree α) (up : Path α)
deriving DecidableEq, Repr

namespace Path

/-- The pointer to the node just above the hole. -/
def ptr : Path α → Option Nat
  | top => none
  | left a _ _ _ _ => some a
  | right a _ _ _ _ => some a

/-- Addresses of all nodes on and beside the path. -/
def addrs : Path α → List Nat
  | top => []
  | left a _ _ up r => a :: r.addrs ++ up.addrs
  | right a _ _ l up => a :: l.addrs ++ up.addrs

/-- The whole tree obtained by filling the hole with `t`. -/
def plug : Path α → Tree α → Tree α
  | top, t => t
  | left a c v up r, t => up.plug (.node a c v t r)
  | right a c v l up, t => up.plug (.node a c v l t)

/-- Number of nodes between the hole and the root. -/
def depth : Path α → Nat
  | top => 0
  | left _ _ _ up _ => up.depth + 1
  | right _ _ _ _ up => up.depth + 1

/-- Values that precede the hole in in-order. -/
def before : Path α → List α
  | top => []
  | left _ _ _ up _ => up.before
  | right _ _ v l up => up.before ++ l.inorder ++ [v]

/-- Values that follow the hole in in-order. -/
def after : Path α → List α
  | top => []
  | left _ _ v up r => v :: r.inorder ++ up.after
  | right _ _ _ _ up => up.after

/-- Addresses that precede the hole in in-order. -/
def addrsBefore : Path α → List Nat
  | top => []
  | left _ _ _ up _ => up.addrsBefore
  | right a _ _ l up => up.addrsBefore ++ l.addrs ++ [a]

/-- Addresses that follow the hole in in-order. -/
def addrsAfter : Path α → List Nat
  | top => []
  | left a _ _ up r => a :: r.addrs ++ up.addrsAfter
  | right _ _ _ _ up => up.addrsAfter

/-- The node just above the hole is red. -/
def isRed : Path α → Bool
  | left _ .m_red _ _ _ => true
  | right _ .m_red _ _ _ => true
  | _ => false

/-- Black heights agree everywhere on and beside the path when the hole is
filled with a subtree of black height `h`. -/
def Bal : Path α → Nat → Prop
  | top, _ => True
  | left _ .m_black _ up r, h => r.bh = h ∧ r.Bal ∧ up.Bal (h + 1)
  | left _ .m_red _ up r, h => r.bh = h ∧ r.Bal ∧ up.Bal h
  | right _ .m_black _ l up, h => l.bh = h ∧ l.Bal ∧ up.Bal (h + 1)
  | right _ .m_red _ l up, h => l.bh = h ∧ l.Bal ∧ up.Bal h

/-- No red node on or beside the path has a red child, the child in the hole
not counted. -/
def NoRR : Path α → Prop
  | top => True
  | left _ c _ up r => r.NoRR ∧ (c = .m_red → r.isRed = false ∧ up.isRed = false) ∧ up.NoRR
  | right _ c _ l up => l.NoRR ∧ (c = .m_red → l.isRed = false ∧ up.isRed = false) ∧ up.NoRR

end Path

/-- The store holds the structure `tr` below a pointer, the parent link of its
root being `par`: every node has the value, colour, child pointers and parent
pointer that `tr` gives it. -/
def Rep (mem : Nat → Option (RBTreeNode α)) : Option Nat → Tree α → Prop
  | _, .nil => True
  | par, .node a c v l r =>
    mem a = some ⟨v, c, l.ptr, r.ptr, par⟩ ∧ Rep mem (some a) l ∧ Rep mem (some a) r

/-- The store holds the part of the tree on and beside the path, with the
pointer `h` in the hole, and `root` points to the topmost node. -/
def RepPath (mem : Nat → Option (RBTreeNode α)) (root : Option Nat) :
    Path α → Option Nat → Prop
  | .top, h => root = h
  | .left a c v up r, h =>
    mem a = some ⟨v, c, h, r.ptr, up.ptr⟩ ∧ Rep mem (some a) r ∧ RepPath mem root up (some a)
  | .right a c v l up, h =>
    mem a = some ⟨v, c, l.ptr, h, up.ptr⟩ ∧ Rep mem (some a) l ∧ RepPath mem root up (some a)

/-- The store of `t` holds the tree `p.plug tr`, seen from the subtree `tr`:
all links (children and parents) are as in the tree, `m_root` points to its
root, and no two nodes of it share an address. -/
def Foc (t : RBTree α) (p : Path α) (tr : Tree α) : Prop :=
  Rep t.mem p.ptr tr ∧ RepPath t.mem t.m_root p tr.ptr ∧ (tr.addrs ++ p.addrs).Nodup

/-- The store of `t` holds the well-formed linked tree `tr`: each child's
parent link points back to its parent, the root has no parent, `m_root` points
to the root, and every node is owned by exactly one child slot. -/
def RBTree.Holds (t : RBTree α) (tr : Tree α) : Prop :=
  Foc t .top tr

/-- A valid object: it holds `tr`, all its nodes were handed out by the
allocator, and `m_size` counts them. -/
def RBTree.Valid (t : RBTree α) (tr : Tree α) : Prop :=
  t.Holds tr ∧ (∀ a ∈ tr.addrs, a < t.brk) ∧ t.m_size = tr.size

/-- The path `q` inside a subtree, continued by the path `p` of that subtree. -/
def Path.append : Path α → Path α → Path α
  | .top, p => p
  | .left a c v up r, p => .left a c v (up.append p) r
  | .right a c v l up, p => .right a c v l (up.append p)

/-- The client loop `for (...; it != end(); ++it)`: the node pointers the
iterator passes through until it compares equal to `end()`.  The inner loops of
`operator++` run on fuel `k`. -/
def RBTree.traverse_loop [DecidableEq α] (t : RBTree α) (k : Nat) :
    Nat → RBTreeIterator → Except Fault (List (Option Nat))
  | 0, _ => .error .out_of_fuel
  | fuel + 1, it => do
    if (← RBTreeIterator.ne t it t.end_) then
      let next ← it.incr k t
      let rest ← t.traverse_loop k fuel next
      return it.m_pointer :: rest
    else
      return []

/-- The client loop `for (it = begin(); it != end(); ++it)`. -/
def RBTree.traverse [DecidableEq α] (k fuel : Nat) (t : RBTree α) :
    Except Fault (List (Option Nat)) := do
  let it ← t.begin k
  t.traverse_loop k fuel it

/-- A call on the container: `insert(v)` or `erase(v)`. -/
inductive Op (α : Type) where
  | insert (v : α)
  | erase (v : α)
deriving DecidableEq, Repr

section ordered
variable [LinearOrder α] [Inhabited α]

/-- One call made by a client.  When `erase` throws "Value has not been
inserted" the client catches it and goes on with the object as `erase` left
it; every other fault ends the run. -/
def RBTree.apply (fuel : Nat) (t : RBTree α) : Op α → Except Fault (RBTree α)
  | .insert v => t.insert fuel v
  | .erase v =>
    match t.erase fuel v with
    | (.ok _, t') => .ok t'
    | (.error .value_has_not_been_inserted, t') => .ok t'
    | (.error e, _) => .error e

/-- A sequence of calls, made one after the other. -/
def RBTree.run (fuel : Nat) : List (Op α) → RBTree α → Except Fault (RBTree α)
  | [], t => .ok t
  | op :: ops, t => do
    let t ← t.apply fuel op
    RBTree.run fuel ops t

end ordered

/-- A sample store: the tree with root 20 (black) and children 10 and 30 (red). -/
def sample : RBTree Nat where
  mem := fun a =>
    if a = 0 then some ⟨20, .m_black, some 1, some 2, none⟩
    else if a = 1 then some ⟨10, .m_red, none, none, some 0⟩
    else if a = 2 then some ⟨30, .m_red, none, none, some 0⟩
    else none
  brk := 3
  m_root := some 0
  m_size := 3

/-- The tree held by `sample`. -/
def sampleTree : Tree Nat :=
  .node 0 .m_black 20 (.node 1 .m_red 10 .nil .nil) (.node 2 .m_red 30 .nil .nil)

end jvn

/-! ## Copy, swap and move; two objects in one store -/

namespace jvn

variable {α : Type}

/-- The data members `m_root` and `m_size` of an `RBTree` object.  The member
`m_node_allocator` is a `std::allocator`, which has no state: all objects draw
their nodes from one store. -/
structure Members where
  m_root : Option Nat
  m_size : Nat
deriving DecidableEq, Repr

/-- The object with the members `o`, seen in the store of `t`. -/
def RBTree.view (t : RBTree α) (o : Members) : RBTree α :=
  { t with m_root := o.m_root, m_size := o.m_size }

/-- The data members of the object `t`. -/
def RBTree.members (t : RBTree α) : Members :=
  ⟨t.m_root, t.m_size⟩

/-- `RBTree::destroy_tree` (RBTree.h 172-180). -/
def RBTree.destroy_tree : Nat → RBTree α → Option Nat → Except Fault (RBTree α)
  | 0, _, _ => .error .out_of_fuel
  | _ + 1, t, none => .ok t
  | fuel + 1, t, some a => do
    let n ← t.deref (some a)
    let t ← RBTree.destroy_tree fuel t n.m_left
    let n ← t.deref (some a)
    let t ← RBTree.destroy_tree fuel t n.m_right
    t.destroy_node (some a)

/-- A pointer variable handed over by reference (`Node_ptr&`): the member
`m_root` of the object, or the `m_left` or `m_right` field of a node. -/
inductive Node_ptr_ref where
  | m_root
  | m_left (node : Option Nat)
  | m_right (node : Option Nat)
deriving DecidableEq, Repr

/-- Reading the pointer variable behind a reference. -/
def RBTree.load (t : RBTree α) : Node_ptr_ref → Except Fault (Option Nat)
  | .m_root => .ok t.m_root
  | .m_left node => do return (← t.deref node).m_left
  | .m_right node => do return (← t.deref node).m_right

/-- Assigning to the pointer variable behind a reference. -/
def RBTree.store (t : RBTree α) (dst : Node_ptr_ref) (q : Option Nat) : Except Fault (RBTree α) :=
  match dst with
  | .m_root => .ok { t with m_root := q }
  | .m_left node => t.set_left node q
  | .m_right node => t.set_right node q

/-- `RBTree::copy_tree` (RBTree.h 182-194). -/
def RBTree.copy_tree [Inhabited α] :
    Nat → RBTree α → Node_ptr_ref → Option Nat → Option Nat → Except Fault (RBTree α)
  | 0, _, _, _, _ => .error .out_of_fuel
  | fuel + 1, t, root_dst, root_src, parent =>
    if root_src = none then
      t.store root_dst none
    else do
      let (t, node) := t.buy_node parent
      let t ← t.store root_dst node
      let dst ← t.load root_dst
      let src ← t.deref root_src
      let t ← t.set_data dst src.m_data
      let dst ← t.load root_dst
      let src ← t.deref root_src
      let t ← t.set_color dst src.m_color
      let dst ← t.load root_dst
      let src ← t.deref root_src
      let t ← RBTree.copy_tree fuel t (.m_left dst) src.m_left dst
      let dst ← t.load root_dst
      let src ← t.deref root_src
      RBTree.copy_tree fuel t (.m_right dst) src.m_right dst

/-- The copy assignment `operator=(const RBTree& t)` (RBTree.h 504-511); `t`
lives in the same store as `this`. -/
def RBTree.copy_assign [Inhabited α] (fuel : Nat) (this : RBTree α) (t : Members) :
    Except Fault (RBTree α) := do
  let this := { this with m_size := t.m_size }
  let this ← this.destroy_tree fuel this.m_root
  this.copy_tree fuel .m_root t.m_root none

/-- The copy constructor `RBTree(const RBTree& t)` (RBTree.h 148): a
default-constructed object in the store `heap`, then `operator=(t)`. -/
def RBTree.copy_construct [Inhabited α] (fuel : Nat) (heap : RBTree α) (t : Members) :
    Except Fault (RBTree α) :=
  (heap.view ⟨none, 0⟩).copy_assign fuel t

/-- `swap(RBTree& lhs, RBTree& rhs)` (RBTree.h 513-520).  Exchanging the two
allocators changes nothing, for they have no state.  The last exchange is
written between `lhs.m_size` and `rhs.m_root`, a `size_type` and a `Node_ptr`:
`as_size` reads the word of a pointer as a size and `as_ptr` the word of a size
as a pointer. -/
def swap (as_size : Option Nat → Nat) (as_ptr : Nat → Option Nat) (lhs rhs : Members) :
    Members × Members :=
  let lhs1 : Members := { lhs with m_root := rhs.m_root }
  let rhs1 : Members := { rhs with m_root := lhs.m_root }
  ({ lhs1 with m_size := as_size rhs1.m_root }, { rhs1 with m_root := as_ptr lhs1.m_size })

/-- The move constructor `RBTree(RBTree&& t)` (RBTree.h 149): a
default-constructed object swapped with `t`. -/
def move_construct (as_size : Option Nat → Nat) (as_ptr : Nat → Option Nat) (t : Members) :
    Members × Members :=
  swap as_size as_ptr ⟨none, 0⟩ t

/-- The move assignment `operator=(RBTree&& t)` (RBTree.h 151). -/
def move_assign (as_size : Option Nat → Nat) (as_ptr : Nat → Option Nat) (this t : Members) :
    Members × Members :=
  swap as_size as_ptr this t

/-- The values read through the iterators in `ps`, one `operator*` each. -/
def RBTree.read_all (t : RBTree α) : List (Option Nat) → Except Fault (List α)
  | [] => .ok []
  | p :: ps => do
    let v ← RBTreeIterator.star t ⟨p⟩
    let vs ← t.read_all ps
    return v :: vs

/-- The client loop `for (it = begin(); it != end(); ++it) out.push_back(*it)`:
the values in the order the iteration yields them. -/
def RBTree.values [DecidableEq α] (k fuel : Nat) (t : RBTree α) : Except Fault (List α) := do
  let ps ← t.traverse k fuel
  t.read_all ps

/-- The tree without the addresses of its nodes: shape, colours and values. -/
def Tree.strip : Tree α → Tree α
  | .nil => .nil
  | .node _ c v l r => .node 0 c v l.strip r.strip

/-- The reference designates the member `m_root` or a field of a live node
below `brk`. -/
def Node_ptr_ref.Writable (dst : Node_ptr_ref) (t : RBTree α) : Prop :=
  match dst with
  | .m_root => True
  | .m_left p => ∃ a n, p = some a ∧ a < t.brk ∧ t.mem a = some n
  | .m_right p => ∃ a n, p = some a ∧ a < t.brk ∧ t.mem a = some n

/-- The node the reference points into (`none` for the member `m_root`). -/
def Node_ptr_ref.cell : Node_ptr_ref → Option Nat
  | .m_root => none
  | .m_left p => p
  | .m_right p => p

/-- The content `x` of address `b` after `q` has been assigned to the variable
behind the reference. -/
def Node_ptr_ref.upd (dst : Node_ptr_ref) (q : Option Nat) (b : Nat)
    (x : Option (RBTreeNode α)) : Option (RBTreeNode α) :=
  match dst with
  | .m_root => x
  | .m_left p => if p = some b then x.map (fun n => { n with m_left := q }) else x
  | .m_right p => if p = some b then x.map (fun n => { n with m_right := q }) else x

/-- As far as `m_root` and the addresses below `t.brk` go, `t'` is `t` with `q`
assigned to the variable behind the reference. -/
def Node_ptr_ref.Stored (dst : Node_ptr_ref) (t t' : RBTree α) (q : Option Nat) : Prop :=
  (match dst with
   | .m_root => t'.m_root = q
   | .m_left _ => t'.m_root = t.m_root
   | .m_right _ => t'.m_root = t.m_root) ∧
  ∀ b, b < t.brk → t'.mem b = dst.upd q b (t.mem b)

/-- A second sample store: the tree with root 20 and children 10 and 30, all
three black. -/
def sampleBlack : RBTree Nat where
  mem := fun a =>
    if a = 0 then some ⟨20, .m_black, some 1, some 2, none⟩
    else if a = 1 then some ⟨10, .m_black, none, none, some 0⟩
    else if a = 2 then some ⟨30, .m_black, none, none, some 0⟩
    else none
  brk := 3
  m_root := some 0
  m_size := 3

end jvn

/-! ## Reading and writing the store
-/

namespace jvn

variable {α : Type}

theorem ok_bind {ε β γ : Type} (a : β) (f : β → Except ε γ) :
    (Except.ok a >>= f) = f a := rfl

theorem error_bind {ε β γ : Type} (e : ε) (f : β → Except ε γ) :
    ((Except.error e : Except ε β) >>= f) = Except.error e := rfl

@[simp] theorem Tree.ptr_nil : (Tree.nil : Tree α).ptr = none := rfl

@[simp] theorem Tree.ptr_node (a : Nat) (c : m_RB) (v : α) (l r : Tree α) :
    (Tree.node a c v l r).ptr = some a := rfl

@[simp] theorem Path.ptr_top : (Path.top : Path α).ptr = none := rfl

@[simp] theorem Path.ptr_left (a : Nat) (c : m_RB) (v : α) (up : Path α) (r : Tree α) :
    (Path.left a c v up r).ptr = some a := rfl

@[simp] theorem Path.ptr_right (a : Nat) (c : m_RB) (v : α) (l : Tree α) (up : Path α) :
    (Path.right a c v l up).ptr = some a := rfl

theorem update_noteq' {β : Type} {f : Nat → β} {a b : Nat} {x : β} (h : ¬ a = b) :
    Function.update f a x b = f b :=
  Function.update_noteq (fun e => h e.symm) _ _

theorem ptr_ne_of_not_mem {a : Nat} {tr : Tree α} (h : a ∉ tr.addrs) : tr.ptr ≠ some a := by
  cases tr with
  | nil => simp
  | node b c v l r =>
    simp only [Tree.addrs, List.mem_append, List.mem_cons, not_or] at h
    simp only [Tree.ptr_node, ne_eq, Option.some.injEq]
    exact fun e => h.2.1 e.symm

theorem ptr_eq_false {a : Nat} {tr : Tree α} (h : a ∉ tr.addrs) : (tr.ptr = some a) = False :=
  eq_false (ptr_ne_of_not_mem h)

theorem eq_ptr_false {a : Nat} {tr : Tree α} (h : a ∉ tr.addrs) : (some a = tr.ptr) = False :=
  eq_false (fun e => ptr_ne_of_not_mem h e.symm)

theorem ptr_mem_addrs {a : Nat} {tr : Tree α} (h : tr.ptr = some a) : a ∈ tr.addrs := by
  cases tr with
  | nil => simp at h
  | node b c v l r =>
    simp only [Tree.ptr_node, Option.some.injEq] at h
    simp [Tree.addrs, h]

theorem Rep_update {mem : Nat → Option (RBTreeNode α)} {a : Nat} {x : Option (RBTreeNode α)}
    {par : Option Nat} {tr : Tree α} (h : a ∉ tr.addrs) :
    Rep (Function.update mem a x) par tr ↔ Rep mem par tr := by
  induction tr generalizing par with
  | nil => simp [Rep]
  | node b c v l r ihl ihr =>
    simp only [Tree.addrs, List.mem_append, List.mem_cons, not_or] at h
    have hb : b ≠ a := fun e => h.2.1 e.symm
    simp [Rep, ihl h.1, ihr h.2.2, Function.update_noteq hb]

theorem RepPath_update {mem : Nat → Option (RBTreeNode α)} {a : Nat} {x : Option (RBTreeNode α)}
    {root : Option Nat} {p : Path α} {h : Option Nat} (ha : a ∉ p.addrs) :
    RepPath (Function.update mem a x) root p h ↔ RepPath mem root p h := by
  induction p generalizing h with
  | top => simp [RepPath]
  | left b c v up r ih =>
    simp only [Path.addrs, List.mem_append, List.mem_cons, not_or, List.cons_append] at ha
    have hb : b ≠ a := fun e => ha.1 e.symm
    simp [RepPath, ih ha.2.2, Rep_update ha.2.1, Function.update_noteq hb]
  | right b c v l up ih =>
    simp only [Path.addrs, List.mem_append, List.mem_cons, not_or, List.cons_append] at ha
    have hb : b ≠ a := fun e => ha.1 e.symm
    simp [RepPath, ih ha.2.2, Rep_update ha.2.1, Function.update_noteq hb]

/-- The focus can be moved from a left child to its parent and back. -/
theorem Foc_left {t : RBTree α} {a : Nat} {c : m_RB} {v : α} {up : Path α} {l r : Tree α} :
    Foc t (.left a c v up r) l ↔ Foc t up (.node a c v l r) := by
  simp only [Foc, Rep, RepPath, Tree.ptr_node, Path.ptr_left, Tree.addrs, Path.addrs,
    List.append_assoc, List.cons_append]
  tauto

/-- The focus can be moved from a right child to its parent and back. -/
theorem Foc_right {t : RBTree α} {a : Nat} {c : m_RB} {v : α} {up : Path α} {l r : Tree α} :
    Foc t (.right a c v l up) r ↔ Foc t up (.node a c v l r) := by
  have hperm : (r.addrs ++ (a :: l.addrs ++ up.addrs)).Perm ((l.addrs ++ a :: r.addrs) ++ up.addrs) := by
    rw [List.perm_iff_count]
    intro x
    simp only [List.count_append, List.count_cons]
    omega
  simp only [Foc, Rep, RepPath, Tree.ptr_node, Path.ptr_right, Tree.addrs, Path.addrs,
    hperm.nodup_iff]
  tauto

/-- Seen from the root, a focused store holds the plugged tree. -/
theorem Foc_plug {t : RBTree α} {p : Path α} {tr : Tree α} :
    Foc t p tr ↔ t.Holds (p.plug tr) := by
  induction p generalizing tr with
  | top => rfl
  | left a c v up r ih => rw [Foc_left, ih]; rfl
  | right a c v l up ih => rw [Foc_right, ih]; rfl

theorem Foc.mem_root {t : RBTree α} {p : Path α} {a : Nat} {c : m_RB} {v : α} {l r : Tree α}
    (h : Foc t p (.node a c v l r)) :
    t.mem a = some ⟨v, c, l.ptr, r.ptr, p.ptr⟩ := h.1.1

theorem Foc.deref_root {t : RBTree α} {p : Path α} {a : Nat} {c : m_RB} {v : α} {l r : Tree α}
    (h : Foc t p (.node a c v l r)) :
    t.deref (some a) = .ok ⟨v, c, l.ptr, r.ptr, p.ptr⟩ := by
  simp [RBTree.deref, h.mem_root]

end jvn

/-! ## Rotations and single assignments on a focused store
-/

namespace jvn

variable {α : Type}

/-- Effect of `left_rotate` on the tree held by the store. -/
theorem left_rotate_spec {t : RBTree α} {p : Path α} {a b : Nat} {c cb : m_RB} {v vb : α}
    {l bl br : Tree α} (h : Foc t p (.node a c v l (.node b cb vb bl br))) :
    ∃ t', t.left_rotate (some a) = .ok t' ∧ Foc t' p (.node b cb vb (.node a c v l bl) br)
      ∧ t'.brk = t.brk ∧ t'.m_size = t.m_size := by
  obtain ⟨hr, hp, hnd⟩ := h
  have hnd0 := hnd
  rcases p with _ | ⟨pa, pc, pv, up, pr⟩ | ⟨pa, pc, pv, pl, up⟩ <;>
  rcases bl with _ | ⟨x, cx, vx, xl, xr⟩ <;>
  simp only [Rep, RepPath, Tree.ptr_node, Tree.ptr_nil, Path.ptr_top, Path.ptr_left,
    Path.ptr_right] at hr hp <;>
  simp only [Tree.addrs, Path.addrs, List.nodup_append, List.nodup_cons, List.mem_append,
    List.mem_cons, List.disjoint_cons_left, List.disjoint_cons_right, List.disjoint_append_left,
    List.disjoint_append_right, not_or, List.cons_append, List.nil_append, List.append_nil,
    List.nodup_nil, List.not_mem_nil, not_false_eq_true, true_and, and_true,
    List.disjoint_nil_left, List.disjoint_nil_right] at hnd <;>
  simp [RBTree.left_rotate, RBTree.deref, RBTree.modify, RBTree.set_left, RBTree.set_right,
      RBTree.set_parent, ok_bind, pure, Except.pure, Function.update_same, Function.update_noteq,
      update_noteq', hr, hp, hnd, ptr_eq_false, eq_ptr_false] <;>
  refine ⟨?_, ?_, ?_⟩ <;>
  first
  | (simpa [Tree.addrs] using hnd0)
  | simp [Rep, RepPath, Function.update_same, Function.update_noteq,
      update_noteq', hr, hp, hnd, Rep_update, RepPath_update, Path.addrs, Tree.addrs]

/-- Effect of `right_rotate` on the tree held by the store. -/
theorem right_rotate_spec {t : RBTree α} {p : Path α} {a b : Nat} {c cb : m_RB} {v vb : α}
    {bl br r : Tree α} (h : Foc t p (.node a c v (.node b cb vb bl br) r)) :
    ∃ t', t.right_rotate (some a) = .ok t' ∧ Foc t' p (.node b cb vb bl (.node a c v br r))
      ∧ t'.brk = t.brk ∧ t'.m_size = t.m_size := by
  obtain ⟨hr, hp, hnd⟩ := h
  have hnd0 := hnd
  rcases p with _ | ⟨pa, pc, pv, up, pr⟩ | ⟨pa, pc, pv, pl, up⟩ <;>
  rcases br with _ | ⟨x, cx, vx, xl, xr⟩ <;>
  simp only [Rep, RepPath, Tree.ptr_node, Tree.ptr_nil, Path.ptr_top, Path.ptr_left,
    Path.ptr_right] at hr hp <;>
  simp only [Tree.addrs, Path.addrs, List.nodup_append, List.nodup_cons, List.mem_append,
    List.mem_cons, List.disjoint_cons_left, List.disjoint_cons_right, List.disjoint_append_left,
    List.disjoint_append_right, not_or, List.cons_append, List.nil_append, List.append_nil,
    List.nodup_nil, List.not_mem_nil, not_false_eq_true, true_and, and_true,
    List.disjoint_nil_left, List.disjoint_nil_right] at hnd <;>
  simp [RBTree.right_rotate, RBTree.deref, RBTree.modify, RBTree.set_left, RBTree.set_right,
      RBTree.set_parent, ok_bind, pure, Except.pure, Function.update_same, Function.update_noteq,
      update_noteq', hr, hp, hnd, ptr_eq_false, eq_ptr_false] <;>
  refine ⟨?_, ?_, ?_⟩ <;>
  first
  | (simpa [Tree.addrs] using hnd0)
  | simp [Rep, RepPath, Function.update_same, Function.update_noteq,
      update_noteq', hr, hp, hnd, Rep_update, RepPath_update, Path.addrs, Tree.addrs]

theorem Foc.not_mem_left {t : RBTree α} {p : Path α} {a : Nat} {c : m_RB} {v : α} {l r : Tree α}
    (h : Foc t p (.node a c v l r)) : a ∉ l.addrs := by
  have := h.2.2
  simp only [Tree.addrs, List.append_assoc, List.cons_append, List.nodup_append,
    List.nodup_cons, List.mem_append, not_or, List.disjoint_cons_right] at this
  exact this.2.2.1

theorem Foc.not_mem_right {t : RBTree α} {p : Path α} {a : Nat} {c : m_RB} {v : α}
    {l r : Tree α} (h : Foc t p (.node a c v l r)) : a ∉ r.addrs := by
  have := h.2.2
  simp only [Tree.addrs, List.append_assoc, List.cons_append, List.nodup_append,
    List.nodup_cons, List.mem_append, not_or, List.disjoint_cons_right] at this
  exact this.2.1.1.1

theorem Foc.not_mem_path {t : RBTree α} {p : Path α} {a : Nat} {c : m_RB} {v : α}
    {l r : Tree α} (h : Foc t p (.node a c v l r)) : a ∉ p.addrs := by
  have := h.2.2
  simp only [Tree.addrs, List.append_assoc, List.cons_append, List.nodup_append,
    List.nodup_cons, List.mem_append, not_or, List.disjoint_cons_right] at this
  exact this.2.1.1.2

/-- Effect of `node->m_color = c'` on the tree held by the store. -/
theorem set_color_spec {t : RBTree α} {p : Path α} {a : Nat} {c : m_RB} {v : α}
    {l r : Tree α} (h : Foc t p (.node a c v l r)) (c' : m_RB) :
    ∃ t', t.set_color (some a) c' = .ok t' ∧ Foc t' p (.node a c' v l r)
      ∧ t'.brk = t.brk ∧ t'.m_size = t.m_size ∧ t'.m_root = t.m_root := by
  have h1 := h.not_mem_left
  have h2 := h.not_mem_right
  have h3 := h.not_mem_path
  obtain ⟨hr, hp, hnd⟩ := h
  simp only [Rep] at hr
  simp [RBTree.set_color, RBTree.modify, hr, Foc, Rep, Rep_update, RepPath_update, h1, h2, h3]
  exact ⟨hp, by simpa [Tree.addrs] using hnd⟩

/-- Effect of `node->m_data = v'` on the tree held by the store. -/
theorem set_data_spec {t : RBTree α} {p : Path α} {a : Nat} {c : m_RB} {v : α}
    {l r : Tree α} (h : Foc t p (.node a c v l r)) (v' : α) :
    ∃ t', t.set_data (some a) v' = .ok t' ∧ Foc t' p (.node a c v' l r)
      ∧ t'.brk = t.brk ∧ t'.m_size = t.m_size ∧ t'.m_root = t.m_root := by
  have h1 := h.not_mem_left
  have h2 := h.not_mem_right
  have h3 := h.not_mem_path
  obtain ⟨hr, hp, hnd⟩ := h
  simp only [Rep] at hr
  simp [RBTree.set_data, RBTree.modify, hr, Foc, Rep, Rep_update, RepPath_update, h1, h2, h3]
  exact ⟨hp, by simpa [Tree.addrs] using hnd⟩

/-- `sibling()` of the left child of a node is the node's right child. -/
theorem sibling_left {t : RBTree α} {up : Path α} {pa x : Nat} {pc c : m_RB} {pv v : α}
    {l r pr : Tree α} (h : Foc t (.left pa pc pv up pr) (.node x c v l r)) :
    t.sibling (some x) = .ok pr.ptr := by
  obtain ⟨hr, hp, hnd⟩ := h
  simp only [Rep, RepPath, Tree.ptr_node, Path.ptr_left] at hr hp
  simp [RBTree.sibling, RBTree.deref, hr, hp, ok_bind, pure, Except.pure]

/-- `sibling()` of the right child of a node is the node's left child. -/
theorem sibling_right {t : RBTree α} {up : Path α} {pa x : Nat} {pc c : m_RB} {pv v : α}
    {l r pl : Tree α} (h : Foc t (.right pa pc pv pl up) (.node x c v l r)) :
    t.sibling (some x) = .ok pl.ptr := by
  obtain ⟨hr, hp, hnd⟩ := h
  simp only [Rep, RepPath, Tree.ptr_node, Path.ptr_right] at hr hp
  simp only [Tree.addrs, Path.addrs, List.nodup_append, List.nodup_cons, List.mem_append,
    List.mem_cons, List.disjoint_cons_left, List.disjoint_cons_right, List.disjoint_append_left,
    List.disjoint_append_right, not_or, List.cons_append] at hnd
  simp [RBTree.sibling, RBTree.deref, hr, hp, hnd, ok_bind, pure, Except.pure, eq_ptr_false]

end jvn

/-! ## Search
-/

namespace jvn

variable {α : Type}

theorem Tree.height_pos_left {a : Nat} {c : m_RB} {v : α} {l r : Tree α} {n : Nat}
    (h : (Tree.node a c v l r).height < n + 1) : l.height < n := by
  simp only [Tree.height] at h
  omega

theorem Tree.height_pos_right {a : Nat} {c : m_RB} {v : α} {l r : Tree α} {n : Nat}
    (h : (Tree.node a c v l r).height < n + 1) : r.height < n := by
  simp only [Tree.height] at h
  omega

theorem Path.inorder_plug (p : Path α) (t : Tree α) :
    (p.plug t).inorder = p.before ++ t.inorder ++ p.after := by
  induction p generalizing t with
  | top => simp [Path.plug, Path.before, Path.after]
  | left a c v up r ih => simp [Path.plug, Path.before, Path.after, ih, Tree.inorder]
  | right a c v l up ih => simp [Path.plug, Path.before, Path.after, ih, Tree.inorder]

theorem Path.addrs_plug (p : Path α) (t : Tree α) :
    (p.plug t).addrs = p.addrsBefore ++ t.addrs ++ p.addrsAfter := by
  induction p generalizing t with
  | top => simp [Path.plug, Path.addrsBefore, Path.addrsAfter]
  | left a c v up r ih => simp [Path.plug, Path.addrsBefore, Path.addrsAfter, ih, Tree.addrs]
  | right a c v l up ih => simp [Path.plug, Path.addrsBefore, Path.addrsAfter, ih, Tree.addrs]

theorem Path.addrs_perm (p : Path α) : (p.addrsBefore ++ p.addrsAfter).Perm p.addrs := by
  induction p with
  | top => simp [Path.addrsBefore, Path.addrsAfter, Path.addrs]
  | left a c v up r ih =>
    simp only [Path.addrsBefore, Path.addrsAfter, Path.addrs]
    rw [List.perm_iff_count] at ih ⊢
    intro x
    have := ih x
    simp only [List.count_append, List.count_cons] at this ⊢
    omega
  | right a c v l up ih =>
    simp only [Path.addrsBefore, Path.addrsAfter, Path.addrs]
    rw [List.perm_iff_count] at ih ⊢
    intro x
    have := ih x
    simp only [List.count_append, List.count_cons, List.count_nil] at this ⊢
    omega

theorem Path.mem_addrs_plug {p : Path α} {t : Tree α} {x : Nat} :
    x ∈ (p.plug t).addrs ↔ x ∈ t.addrs ∨ x ∈ p.addrs := by
  rw [Path.addrs_plug, ← p.addrs_perm.mem_iff]
  simp only [List.mem_append]
  tauto

theorem Path.size_plug (p : Path α) (t s : Tree α) (h : t.size = s.size) :
    (p.plug t).size = (p.plug s).size := by
  induction p generalizing t s with
  | top => simpa [Path.plug] using h
  | left a c v up r ih => exact ih _ _ (by simp [Tree.size, h])
  | right a c v l up ih => exact ih _ _ (by simp [Tree.size, h])

theorem Tree.length_inorder (t : Tree α) : t.inorder.length = t.size := by
  induction t with
  | nil => rfl
  | node a c v l r ihl ihr => simp [Tree.inorder, Tree.size, ihl, ihr]; omega

theorem Tree.length_addrs (t : Tree α) : t.addrs.length = t.size := by
  induction t with
  | nil => rfl
  | node a c v l r ihl ihr => simp [Tree.addrs, Tree.size, ihl, ihr]; omega

theorem Tree.height_le_size (t : Tree α) : t.height ≤ t.size := by
  induction t with
  | nil => simp [Tree.height, Tree.size]
  | node a c v l r ihl ihr => simp only [Tree.height, Tree.size]; omega

section ordered
variable [LinearOrder α]

/-- The descent of `find_node` from a subtree in BST order: it stops at the node
holding `val` when the subtree has one, and at `nullptr` otherwise. -/
theorem find_node_loop_spec (t : RBTree α) (val : α) :
    ∀ (sub : Tree α) (p : Path α) (fuel : Nat), Foc t p sub → sub.BST → sub.height < fuel →
      (val ∈ sub.inorder → ∃ p' a c l r, t.find_node_loop val fuel sub.ptr = .ok (some a) ∧
          Foc t p' (.node a c val l r) ∧ p'.plug (.node a c val l r) = p.plug sub) ∧
      (val ∉ sub.inorder → t.find_node_loop val fuel sub.ptr = .ok none) := by
  intro sub
  induction sub with
  | nil =>
    intro p fuel _ _ hf
    obtain ⟨f, rfl⟩ : ∃ f, fuel = f + 1 := ⟨fuel - 1, by omega⟩
    simp [RBTree.find_node_loop, Tree.inorder]
  | node a c w l r ihl ihr =>
    intro p fuel hfoc hbst hf
    obtain ⟨f, rfl⟩ : ∃ f, fuel = f + 1 := ⟨fuel - 1, by omega⟩
    obtain ⟨hlt, hgt, hbl, hbr⟩ := hbst
    simp only [Tree.ptr_node, RBTree.find_node_loop, hfoc.deref_root, ok_bind]
    by_cases hw : w = val
    · subst hw
      simp only [ne_eq, not_true_eq_false, ↓reduceIte, Tree.inorder, List.mem_append,
        List.mem_cons, true_or, or_true, not_true_eq_false, false_implies, and_true]
      intro _
      exact ⟨p, a, c, l, r, rfl, hfoc, rfl⟩
    · simp only [ne_eq, hw, not_false_eq_true, ↓reduceIte]
      by_cases hv : val < w
      · simp only [hv, ↓reduceIte]
        have hnr : val ∉ r.inorder := fun hx => lt_asymm hv (hgt _ hx)
        have hmem : val ∈ (Tree.node a c w l r).inorder ↔ val ∈ l.inorder := by
          simp [Tree.inorder, hnr, Ne.symm hw]
        rw [hmem]
        have := ihl (.left a c w p r) f (Foc_left.mpr hfoc) hbl (Tree.height_pos_left hf)
        simpa [Path.plug] using this
      · simp only [hv, ↓reduceIte]
        have hnl : val ∉ l.inorder := fun hx => hv (hlt _ hx)
        have hmem : val ∈ (Tree.node a c w l r).inorder ↔ val ∈ r.inorder := by
          simp [Tree.inorder, hnl, Ne.symm hw]
        rw [hmem]
        have := ihr (.right a c w l p) f (Foc_right.mpr hfoc) hbr (Tree.height_pos_right hf)
        simpa [Path.plug] using this

end ordered

end jvn

/-! ## Iteration
-/

namespace jvn

variable {α : Type}

theorem Path.plug_append (q p : Path α) (s : Tree α) :
    (q.append p).plug s = p.plug (q.plug s) := by
  induction q generalizing s with
  | top => rfl
  | left a c v up r ih => simp [Path.append, Path.plug, ih]
  | right a c v l up ih => simp [Path.append, Path.plug, ih]

theorem Foc_append {t : RBTree α} {q p : Path α} {s : Tree α} :
    Foc t (q.append p) s ↔ Foc t p (q.plug s) := by
  rw [Foc_plug, Foc_plug, Path.plug_append]

theorem Path.addrsAfter_append (q p : Path α) :
    (q.append p).addrsAfter = q.addrsAfter ++ p.addrsAfter := by
  induction q with
  | top => simp [Path.append, Path.addrsAfter]
  | left a c v up r ih => simp [Path.append, Path.addrsAfter, ih]
  | right a c v l up ih => simp [Path.append, Path.addrsAfter, ih]

theorem Path.after_append (q p : Path α) :
    (q.append p).after = q.after ++ p.after := by
  induction q with
  | top => simp [Path.append, Path.after]
  | left a c v up r ih => simp [Path.append, Path.after, ih]
  | right a c v l up ih => simp [Path.append, Path.after, ih]

theorem Path.before_append (q p : Path α) :
    (q.append p).before = p.before ++ q.before := by
  induction q with
  | top => simp [Path.append, Path.before]
  | left a c v up r ih => simp [Path.append, Path.before, ih]
  | right a c v l up ih => simp [Path.append, Path.before, ih]

theorem Path.addrsBefore_append (q p : Path α) :
    (q.append p).addrsBefore = p.addrsBefore ++ q.addrsBefore := by
  induction q with
  | top => simp [Path.append, Path.addrsBefore]
  | left a c v up r ih => simp [Path.append, Path.addrsBefore, ih]
  | right a c v l up ih => simp [Path.append, Path.addrsBefore, ih]

theorem Path.depth_append (q p : Path α) :
    (q.append p).depth = q.depth + p.depth := by
  induction q with
  | top => simp [Path.append, Path.depth]
  | left a c v up r ih => simp [Path.append, Path.depth, ih]; omega
  | right a c v l up ih => simp [Path.append, Path.depth, ih]; omega

/-- The loop that walks to the leftmost node of a subtree ends at the node
without left child that comes first in the in-order of the subtree. -/
theorem leftmost_loop_spec (t : RBTree α) :
    ∀ (sub : Tree α) (p : Path α) (fuel : Nat), Foc t p sub → sub ≠ .nil → sub.height ≤ fuel →
      ∃ (q : Path α) (y : Nat) (cy : m_RB) (vy : α) (yr : Tree α),
        t.leftmost_loop fuel sub.ptr = .ok (some y) ∧
        q.plug (.node y cy vy .nil yr) = sub ∧ q.before = [] ∧ q.addrsBefore = [] := by
  intro sub
  induction sub with
  | nil => intro p fuel _ h; exact absurd rfl h
  | node a c w l r ihl _ =>
    intro p fuel hfoc _ hf
    obtain ⟨f, rfl⟩ : ∃ f, fuel = f + 1 := ⟨fuel - 1, by simp [Tree.height] at hf; omega⟩
    simp only [Tree.ptr_node, RBTree.leftmost_loop, hfoc.deref_root, ok_bind]
    cases l with
    | nil =>
      exact ⟨.top, a, c, w, r, by simp, rfl, rfl, rfl⟩
    | node b cb vb bl br =>
      have hl : (Tree.node b cb vb bl br).height ≤ f := by
        simp only [Tree.height] at hf ⊢; omega
      obtain ⟨q, y, cy, vy, yr, h1, h2, h3, h4⟩ :=
        ihl (.left a c w p r) f (Foc_left.mpr hfoc) (by simp) hl
      refine ⟨q.append (.left a c w .top r), y, cy, vy, yr, ?_, ?_, ?_, ?_⟩
      · simpa using h1
      · simp [Path.plug_append, h2, Path.plug]
      · simp [Path.before_append, h3, Path.before]
      · simp [Path.addrsBefore_append, h4, Path.addrsBefore]

theorem Foc.nodup_facts_left {t : RBTree α} {up : Path α} {pa a : Nat} {pc c : m_RB} {pv v : α}
    {l r pr : Tree α} (h : Foc t (.left pa pc pv up pr) (.node a c v l r)) :
    a ∉ pr.addrs ∧ a ≠ pa ∧ pa ∉ pr.addrs := by
  have := h.2.2
  simp only [Tree.addrs, Path.addrs, List.nodup_append, List.nodup_cons, List.mem_append,
    List.mem_cons, List.disjoint_cons_left, List.disjoint_cons_right, List.disjoint_append_left,
    List.disjoint_append_right, not_or, List.cons_append] at this
  tauto

theorem Foc.nodup_facts_right {t : RBTree α} {up : Path α} {pa a : Nat} {pc c : m_RB} {pv v : α}
    {l r pl : Tree α} (h : Foc t (.right pa pc pv pl up) (.node a c v l r)) :
    a ∉ pl.addrs ∧ a ≠ pa ∧ pa ∉ pl.addrs := by
  have := h.2.2
  simp only [Tree.addrs, Path.addrs, List.nodup_append, List.nodup_cons, List.mem_append,
    List.mem_cons, List.disjoint_cons_left, List.disjoint_cons_right, List.disjoint_append_left,
    List.disjoint_append_right, not_or, List.cons_append] at this
  tauto

/-- The climbing loop of `operator++` stops at the node whose parent is next in
in-order, or at the root when nothing follows. -/
theorem climb_loop_spec (t : RBTree α) :
    ∀ (p : Path α) (a : Nat) (c : m_RB) (v : α) (l r : Tree α) (fuel : Nat),
      Foc t p (.node a c v l r) → p.depth < fuel →
      ∃ z nz, t.climb_loop fuel (some a) = .ok (some z) ∧ t.deref (some z) = .ok nz ∧
        ((nz.m_parent = none ∧ p.addrsAfter = []) ∨
         ∃ (p' : Path α) (a' : Nat) (c' : m_RB) (v' : α) (l' r' : Tree α),
           nz.m_parent = some a' ∧ Foc t p' (.node a' c' v' l' r') ∧
           p'.plug (.node a' c' v' l' r') = p.plug (.node a c v l r) ∧
           a' :: r'.addrs ++ p'.addrsAfter = p.addrsAfter) := by
  intro p
  induction p with
  | top =>
    intro a c v l r fuel hfoc hf
    obtain ⟨f, rfl⟩ : ∃ f, fuel = f + 1 := ⟨fuel - 1, by omega⟩
    refine ⟨a, _, ?_, hfoc.deref_root, Or.inl ⟨rfl, rfl⟩⟩
    simp [RBTree.climb_loop, hfoc.deref_root, ok_bind, pure, Except.pure]
  | left pa pc pv up pr _ =>
    intro a c v l r fuel hfoc hf
    obtain ⟨f, rfl⟩ : ∃ f, fuel = f + 1 := ⟨fuel - 1, by omega⟩
    have hup := Foc_left.mp hfoc
    have hn := hfoc.nodup_facts_left
    refine ⟨a, _, ?_, hfoc.deref_root, Or.inr ⟨up, pa, pc, pv, _, pr, rfl, hup, rfl, rfl⟩⟩
    simp [RBTree.climb_loop, hfoc.deref_root, hup.deref_root, ok_bind, pure, Except.pure,
      ptr_eq_false hn.1]
  | right pa pc pv pl up ih =>
    intro a c v l r fuel hfoc hf
    obtain ⟨f, rfl⟩ : ∃ f, fuel = f + 1 := ⟨fuel - 1, by omega⟩
    have hup := Foc_right.mp hfoc
    obtain ⟨z, nz, h1, h2, h3⟩ := ih pa pc pv pl _ f hup (by simp [Path.depth] at hf; omega)
    refine ⟨z, nz, ?_, h2, ?_⟩
    · simp [RBTree.climb_loop, hfoc.deref_root, hup.deref_root, ok_bind, pure, Except.pure, h1]
    · simpa [Path.addrsAfter, Path.plug] using h3

theorem Path.height_plug (p : Path α) (s : Tree α) :
    p.depth + s.height ≤ (p.plug s).height := by
  induction p generalizing s with
  | top => simp [Path.depth, Path.plug]
  | left a c v up r ih =>
    have := ih (.node a c v s r)
    simp only [Path.depth, Path.plug, Tree.height] at this ⊢
    omega
  | right a c v l up ih =>
    have := ih (.node a c v l s)
    simp only [Path.depth, Path.plug, Tree.height] at this ⊢
    omega

theorem incr_leftmost (t : RBTree α) (p : Path α) (a : Nat) (c : m_RB) (v : α) (l r : Tree α)
    (k : Nat) (hfoc : Foc t p (.node a c v l r)) (hr : r.height ≤ k) (hne : r ≠ .nil) :
    ∃ (y : Nat), t.leftmost_loop k r.ptr = .ok (some y) ∧
       ∃ (p' : Path α) (c' : m_RB) (v' : α) (l' r' : Tree α),
         Foc t p' (.node y c' v' l' r') ∧
         p'.plug (.node y c' v' l' r') = p.plug (.node a c v l r) ∧
         y :: r'.addrs ++ p'.addrsAfter = r.addrs ++ p.addrsAfter := by
  obtain ⟨q, y, cy, vy, yr, h1, h2, _, h4⟩ :=
    leftmost_loop_spec t r (.right a c v l p) k (Foc_right.mpr hfoc) hne hr
  refine ⟨y, h1, q.append (.right a c v l p), cy, vy, .nil, yr, ?_, ?_, ?_⟩
  · rw [Foc_append, h2]; exact Foc_right.mpr hfoc
  · rw [Path.plug_append, h2]; rfl
  · have := Path.addrs_plug q (.node y cy vy .nil yr)
    rw [h2, h4] at this
    simp [Path.addrsAfter_append, Path.addrsAfter, this, Tree.addrs]

/-- One step of `operator++` from a node: the iterator moves to the node that
follows in in-order, or to `end()` when there is none. -/
theorem incr_spec (t : RBTree α) (p : Path α) (a : Nat) (c : m_RB) (v : α) (l r : Tree α)
    (k : Nat) (hfoc : Foc t p (.node a c v l r)) (hr : r.height ≤ k) (hp : p.depth < k) :
    ∃ it, RBTreeIterator.incr k t ⟨some a⟩ = .ok it ∧
      ((it.m_pointer = none ∧ r.addrs ++ p.addrsAfter = []) ∨
       ∃ (p' : Path α) (a' : Nat) (c' : m_RB) (v' : α) (l' r' : Tree α),
         it.m_pointer = some a' ∧ Foc t p' (.node a' c' v' l' r') ∧
         p'.plug (.node a' c' v' l' r') = p.plug (.node a c v l r) ∧
         a' :: r'.addrs ++ p'.addrsAfter = r.addrs ++ p.addrsAfter) := by
  by_cases hne : r = .nil
  · subst hne
    by_cases htop : p.ptr = none
    · cases p with
      | top =>
        refine ⟨⟨none⟩, ?_, Or.inl ⟨rfl, rfl⟩⟩
        simp [RBTreeIterator.incr, hfoc.deref_root, ok_bind, pure, Except.pure]
      | left _ _ _ _ _ => simp at htop
      | right _ _ _ _ _ => simp at htop
    · obtain ⟨z, nz, h1, h2, h3⟩ := climb_loop_spec t p a c v l .nil k hfoc hp
      refine ⟨⟨nz.m_parent⟩, ?_, ?_⟩
      · simp [RBTreeIterator.incr, hfoc.deref_root, ok_bind, pure, Except.pure, htop, h1, h2]
      · rcases h3 with ⟨h3, h4⟩ | ⟨p', a', c', v', l', r', h3, h4, h5, h6⟩
        · exact Or.inl ⟨h3, by simpa [Tree.addrs] using h4⟩
        · exact Or.inr ⟨p', a', c', v', l', r', h3, h4, h5, by simpa [Tree.addrs] using h6⟩
  · obtain ⟨y, h1, p', c', v', l', r', h2, h3, h4⟩ := incr_leftmost t p a c v l r k hfoc hr hne
    have hrp : r.ptr ≠ none := by cases r <;> simp_all
    refine ⟨⟨some y⟩, ?_, Or.inr ⟨p', y, c', v', l', r', rfl, h2, h3, h4⟩⟩
    by_cases htop : p.ptr = none <;>
    simp [RBTreeIterator.incr, hfoc.deref_root, ok_bind, pure, Except.pure, htop, hrp, h1]

theorem ne_end_some [DecidableEq α] (t : RBTree α) (a : Nat) :
    RBTreeIterator.ne t ⟨some a⟩ t.end_ = .ok true := by
  simp [RBTreeIterator.ne, RBTreeIterator.eq, RBTree.end_, ok_bind, pure, Except.pure,
    bind, Except.bind]

theorem ne_end_end [DecidableEq α] (t : RBTree α) :
    RBTreeIterator.ne t t.end_ t.end_ = .ok false := by
  simp [RBTreeIterator.ne, RBTreeIterator.eq, RBTree.end_, ok_bind, pure, Except.pure,
    bind, Except.bind]

theorem ne_end_none [DecidableEq α] (t : RBTree α) :
    RBTreeIterator.ne t ⟨none⟩ t.end_ = .ok false := by
  simp [RBTreeIterator.ne, RBTreeIterator.eq, RBTree.end_, ok_bind, pure, Except.pure,
    bind, Except.bind]

/-- From any node the client loop passes through that node and then through
everything that follows it in in-order, and stops. -/
theorem traverse_loop_spec [DecidableEq α] (t : RBTree α) (tr : Tree α) (k : Nat)
    (hk : tr.height ≤ k) :
    ∀ (fuel : Nat) (p : Path α) (a : Nat) (c : m_RB) (v : α) (l r : Tree α),
      Foc t p (.node a c v l r) → p.plug (.node a c v l r) = tr →
      (r.addrs ++ p.addrsAfter).length + 1 < fuel →
      t.traverse_loop k fuel ⟨some a⟩ = .ok (some a :: (r.addrs ++ p.addrsAfter).map some) := by
  intro fuel
  induction fuel with
  | zero => intro p a c v l r _ _ hf; omega
  | succ f ih =>
    intro p a c v l r hfoc hpl hf
    have hh := Path.height_plug p (.node a c v l r)
    rw [hpl] at hh
    simp only [Tree.height] at hh
    obtain ⟨it, h1, h2⟩ := incr_spec t p a c v l r k hfoc (by omega) (by omega)
    simp only [RBTree.traverse_loop, ne_end_some, ok_bind, ↓reduceIte, h1]
    rcases h2 with ⟨h2, h3⟩ | ⟨p', a', c', v', l', r', h2, h3, h4, h5⟩
    · obtain ⟨g, rfl⟩ : ∃ g, f = g + 1 := ⟨f - 1, by omega⟩
      obtain ⟨q⟩ := it
      simp only at h2
      subst h2
      simp [RBTree.traverse_loop, ne_end_none, ok_bind, h3, pure, Except.pure]
    · obtain ⟨q⟩ := it
      simp only at h2
      subst h2
      have hlen : (r'.addrs ++ p'.addrsAfter).length + 1 < f := by
        rw [← h5] at hf
        simp only [List.length_cons, List.length_append] at hf ⊢
        omega
      rw [ih p' a' c' v' l' r' h3 (h4.trans hpl) hlen, ← h5]
      simp [ok_bind, pure, Except.pure]

/-- `begin()` is `end()` on the empty tree and otherwise the node that comes
first in in-order. -/
theorem begin_spec (t : RBTree α) (tr : Tree α) (k : Nat) (hh : t.Holds tr)
    (hk : tr.height ≤ k) :
    ∃ it, t.begin k = .ok it ∧ it.m_pointer = tr.addrs.head? ∧
      ((tr = .nil ∧ it = t.end_) ∨
       ∃ (p : Path α) (a : Nat) (c : m_RB) (v : α) (r : Tree α),
         it.m_pointer = some a ∧ Foc t p (.node a c v .nil r) ∧ p.plug (.node a c v .nil r) = tr ∧
         a :: (r.addrs ++ p.addrsAfter) = tr.addrs) := by
  cases tr with
  | nil =>
    have : t.m_root = none := hh.2.1
    exact ⟨⟨none⟩, by simp [RBTree.begin, this, RBTree.end_, pure, Except.pure], rfl,
      Or.inl ⟨rfl, rfl⟩⟩
  | node b cb vb bl br =>
    have hroot : t.m_root = some b := hh.2.1
    obtain ⟨q, y, cy, vy, yr, h1, h2, _, h4⟩ :=
      leftmost_loop_spec t (.node b cb vb bl br) .top k hh (by simp) hk
    have ha := Path.addrs_plug q (.node y cy vy .nil yr)
    rw [h2, h4] at ha
    simp only [Tree.addrs, List.nil_append, List.append_assoc, List.cons_append] at ha
    refine ⟨⟨some y⟩, ?_, ?_, Or.inr ⟨q, y, cy, vy, yr, rfl, ?_, h2, ?_⟩⟩
    · simp only [Tree.ptr_node] at h1
      simp [RBTree.begin, hroot, h1, ok_bind, pure, Except.pure]
    · simp only [Tree.addrs]
      rw [ha]; rfl
    · have := (Foc_append (t := t) (q := q) (p := .top) (s := .node y cy vy .nil yr))
      have e : q.append .top = q := by
        clear * -
        induction q with
        | top => rfl
        | left a c v up r ih => simp [Path.append, ih]
        | right a c v l up ih => simp [Path.append, ih]
      rw [e, h2] at this
      exact this.mpr hh
    · simp only [Tree.addrs]
      rw [ha]

end jvn

/-! ## Colour invariants on trees and paths
-/

namespace jvn

variable {α : Type}

theorem Tree.bh_mem_blackCounts (t : Tree α) : t.bh ∈ t.blackCounts := by
  induction t with
  | nil => simp [Tree.bh, Tree.blackCounts]
  | node a c v l r ihl _ =>
    cases c
    · simp only [Tree.bh, Tree.blackCounts, List.mem_append]; exact Or.inl ihl
    · simp only [Tree.bh, Tree.blackCounts, List.map_append, List.mem_append, List.mem_map]
      exact Or.inl ⟨_, ihl, rfl⟩

theorem Tree.Bal.blackCounts_eq {t : Tree α} (h : t.Bal) : ∀ m ∈ t.blackCounts, m = t.bh := by
  induction t with
  | nil => simp [Tree.bh, Tree.blackCounts]
  | node a c v l r ihl ihr =>
    obtain ⟨h1, h2, h3⟩ := h
    cases c
    · simp only [Tree.bh, Tree.blackCounts, List.mem_append]
      rintro m (hm | hm)
      · exact ihl h2 m hm
      · rw [h1]; exact ihr h3 m hm
    · simp only [Tree.bh, Tree.blackCounts, List.map_append, List.mem_append, List.mem_map]
      rintro m (⟨k, hk, rfl⟩ | ⟨k, hk, rfl⟩)
      · rw [ihl h2 k hk]
      · rw [h1, ihr h3 k hk]

/-- Equal black heights at every node is the same as an equal number of black
nodes on every path from the root to an absent child. -/
theorem Tree.bal_iff_uniformBlack (t : Tree α) : t.Bal ↔ t.UniformBlack := by
  constructor
  · intro h m hm n hn
    rw [h.blackCounts_eq m hm, h.blackCounts_eq n hn]
  · induction t with
    | nil => intro _; trivial
    | node a c v l r ihl ihr =>
      intro h
      have key : ∀ m ∈ l.blackCounts ++ r.blackCounts, ∀ n ∈ l.blackCounts ++ r.blackCounts,
          m = n := by
        intro m hm n hn
        cases c
        · exact h m (by simpa [Tree.blackCounts] using hm) n (by simpa [Tree.blackCounts] using hn)
        · have := h (m + 1) (by simp only [Tree.blackCounts, List.mem_map]; exact ⟨m, hm, rfl⟩)
            (n + 1) (by simp only [Tree.blackCounts, List.mem_map]; exact ⟨n, hn, rfl⟩)
          omega
      refine ⟨?_, ihl ?_, ihr ?_⟩
      · exact key _ (List.mem_append_left _ l.bh_mem_blackCounts) _
          (List.mem_append_right _ r.bh_mem_blackCounts)
      · intro m hm n hn
        exact key m (List.mem_append_left _ hm) n (List.mem_append_left _ hn)
      · intro m hm n hn
        exact key m (List.mem_append_right _ hm) n (List.mem_append_right _ hn)

theorem Path.bal_plug (p : Path α) (s : Tree α) :
    (p.plug s).Bal ↔ s.Bal ∧ p.Bal s.bh := by
  induction p generalizing s with
  | top => simp [Path.plug, Path.Bal]
  | left a c v up r ih =>
    cases c <;> simp only [Path.plug, ih, Tree.Bal, Tree.bh, Path.Bal] <;>
      constructor
    · rintro ⟨⟨h1, h2, h3⟩, h4⟩; exact ⟨h2, h1.symm, h3, h4⟩
    · rintro ⟨h2, h1, h3, h4⟩; exact ⟨⟨h1.symm, h2, h3⟩, h4⟩
    · rintro ⟨⟨h1, h2, h3⟩, h4⟩; exact ⟨h2, h1.symm, h3, h4⟩
    · rintro ⟨h2, h1, h3, h4⟩; exact ⟨⟨h1.symm, h2, h3⟩, h4⟩
  | right a c v l up ih =>
    cases c <;> simp only [Path.plug, ih, Tree.Bal, Tree.bh, Path.Bal] <;>
      constructor
    · rintro ⟨⟨h1, h2, h3⟩, h4⟩; rw [h1] at h4; exact ⟨h3, h1, h2, h4⟩
    · rintro ⟨h3, h1, h2, h4⟩; rw [← h1] at h4; exact ⟨⟨h1, h2, h3⟩, h4⟩
    · rintro ⟨⟨h1, h2, h3⟩, h4⟩; rw [h1] at h4; exact ⟨h3, h1, h2, h4⟩
    · rintro ⟨h3, h1, h2, h4⟩; rw [← h1] at h4; exact ⟨⟨h1, h2, h3⟩, h4⟩

theorem Tree.isRed_node (a : Nat) (c : m_RB) (v : α) (l r : Tree α) :
    (Tree.node a c v l r).isRed = decide (c = .m_red) := by
  cases c <;> rfl

theorem Path.isRed_left (a : Nat) (c : m_RB) (v : α) (up : Path α) (r : Tree α) :
    (Path.left a c v up r).isRed = decide (c = .m_red) := by
  cases c <;> rfl

theorem Path.isRed_right (a : Nat) (c : m_RB) (v : α) (l : Tree α) (up : Path α) :
    (Path.right a c v l up).isRed = decide (c = .m_red) := by
  cases c <;> rfl

theorem Path.noRR_plug (p : Path α) (s : Tree α) :
    (p.plug s).NoRR ↔ s.NoRR ∧ p.NoRR ∧ (p.isRed = true → s.isRed = false) := by
  induction p generalizing s with
  | top => simp [Path.plug, Path.NoRR, Path.isRed]
  | left a c v up r ih =>
    simp only [Path.plug, ih, Tree.NoRR, Path.NoRR, Tree.isRed_node, Path.isRed_left,
      decide_eq_true_eq, decide_eq_false_iff_not]
    cases c <;> simp <;> tauto
  | right a c v l up ih =>
    simp only [Path.plug, ih, Tree.NoRR, Path.NoRR, Tree.isRed_node, Path.isRed_right,
      decide_eq_true_eq, decide_eq_false_iff_not]
    cases c <;> simp <;> tauto

/-- Above a non-empty path the colour of the root does not depend on what
fills the hole. -/
theorem Path.isRed_plug_of_ne_top (p : Path α) (hp : p ≠ .top) (s s' : Tree α) :
    (p.plug s).isRed = (p.plug s').isRed := by
  induction p generalizing s s' with
  | top => exact absurd rfl hp
  | left a c v up r ih =>
    simp only [Path.plug]
    by_cases hu : up = .top
    · subst hu; simp [Path.plug, Tree.isRed_node]
    · exact ih hu _ _
  | right a c v l up ih =>
    simp only [Path.plug]
    by_cases hu : up = .top
    · subst hu; simp [Path.plug, Tree.isRed_node]
    · exact ih hu _ _

theorem Path.isRed_plug_congr (p : Path α) (s s' : Tree α) (h : s.isRed = s'.isRed) :
    (p.plug s).isRed = (p.plug s').isRed := by
  by_cases hp : p = .top
  · subst hp; exact h
  · exact p.isRed_plug_of_ne_top hp s s'

theorem Tree.blacken_bal {t : Tree α} (h : t.Bal) : t.blacken.Bal := by
  cases t with
  | nil => trivial
  | node a c v l r => exact h

theorem Tree.blacken_noRR {t : Tree α} (h : ∀ a c v l r, t = .node a c v l r → l.NoRR ∧ r.NoRR) :
    t.blacken.NoRR := by
  cases t with
  | nil => trivial
  | node a c v l r => simpa [Tree.blacken, Tree.NoRR] using h a c v l r rfl

theorem Tree.NoRR.blacken {t : Tree α} (h : t.NoRR) : t.blacken.NoRR := by
  cases t with
  | nil => trivial
  | node a c v l r => exact ⟨by simp, h.2⟩

theorem Tree.blacken_isRed (t : Tree α) : t.blacken.isRed = false := by
  cases t <;> rfl

theorem Tree.blacken_inorder (t : Tree α) : t.blacken.inorder = t.inorder := by
  cases t <;> rfl

theorem Tree.blacken_addrs (t : Tree α) : t.blacken.addrs = t.addrs := by
  cases t <;> rfl

theorem Tree.blacken_size (t : Tree α) : t.blacken.size = t.size := by
  cases t <;> rfl

theorem Tree.blacken_eq_self {t : Tree α} (h : t.isRed = false) : t.blacken = t := by
  cases t with
  | nil => rfl
  | node a c v l r => cases c <;> simp_all [Tree.blacken, Tree.isRed]

theorem Tree.size_eq_of_addrs {s t : Tree α} (h : s.addrs = t.addrs) : s.size = t.size := by
  rw [← Tree.length_addrs, ← Tree.length_addrs, h]

end jvn

/-! ## Insertion fix-up
-/

namespace jvn

set_option linter.unusedTactic false
set_option linter.unreachableTactic false
set_option linter.unnecessarySeqFocus false

variable {α : Type}

theorem deref_of_mem {t : RBTree α} {a : Nat} {n : RBTreeNode α} (h : t.mem a = some n) :
    t.deref (some a) = .ok n := by
  simp [RBTree.deref, h]

theorem RepPath.root_mem {mem : Nat → Option (RBTreeNode α)} {root : Option Nat} {p : Path α}
    {h : Option Nat} (hr : RepPath mem root p h) (hp : p ≠ .top) :
    ∃ b, root = some b ∧ b ∈ p.addrs := by
  induction p generalizing h with
  | top => exact absurd rfl hp
  | left a c v up r ih =>
    obtain ⟨_, _, h3⟩ := hr
    by_cases hu : up = .top
    · subst hu
      exact ⟨a, h3, by simp [Path.addrs]⟩
    · obtain ⟨b, hb, hm⟩ := ih h3 hu
      exact ⟨b, hb, by simp [Path.addrs, hm]⟩
  | right a c v l up ih =>
    obtain ⟨_, _, h3⟩ := hr
    by_cases hu : up = .top
    · subst hu
      exact ⟨a, h3, by simp [Path.addrs]⟩
    · obtain ⟨b, hb, hm⟩ := ih h3 hu
      exact ⟨b, hb, by simp [Path.addrs, hm]⟩

theorem Foc.root_ne {t : RBTree α} {p : Path α} {x : Nat} {c : m_RB} {v : α} {l r : Tree α}
    (h : Foc t p (.node x c v l r)) (hp : p ≠ .top) : (some x = t.m_root) = False := by
  obtain ⟨b, hb, hm⟩ := h.2.1.root_mem hp
  have := h.not_mem_path
  rw [hb]
  simp only [Option.some.injEq, eq_iff_iff, iff_false]
  rintro rfl
  exact this hm

theorem Foc.root_eq {t : RBTree α} {tr : Tree α} (h : Foc t .top tr) : t.m_root = tr.ptr :=
  h.2.1

theorem is_red_spec {t : RBTree α} {p : Path α} {u : Tree α} (h : Foc t p u) :
    t.is_red u.ptr = .ok u.isRed := by
  cases u with
  | nil => simp [RBTree.is_red, pure, Except.pure, Tree.isRed]
  | node a c v l r =>
    cases c <;> simp [RBTree.is_red, pure, Except.pure, Tree.isRed, h.deref_root, ok_bind]

/-- The final assignment `m_root->m_color = Node::m_black`. -/
theorem set_root_black {t : RBTree α} {tr : Tree α} (h : t.Holds tr) (hne : tr ≠ .nil) :
    ∃ t', t.set_color t.m_root .m_black = .ok t' ∧ t'.Holds tr.blacken ∧
      t'.brk = t.brk ∧ t'.m_size = t.m_size := by
  cases tr with
  | nil => exact absurd rfl hne
  | node a c v l r =>
    obtain ⟨t', h1, h2, h3, h4, _⟩ := set_color_spec h .m_black
    have : t.m_root = some a := h.root_eq
    exact ⟨t', by rw [this]; exact h1, h2, h3, h4⟩

theorem Path.plug_ne_nil (p : Path α) (a : Nat) (c : m_RB) (v : α) (l r : Tree α) :
    p.plug (.node a c v l r) ≠ .nil := by
  induction p generalizing a c v l r with
  | top => simp [Path.plug]
  | left _ _ _ up _ ih => exact ih _ _ _ _ _
  | right _ _ _ _ up ih => exact ih _ _ _ _ _

/-- The loop of `insert_fix` is left at once when the node is the root, is
black, or has a black parent. -/
theorem insert_fix_cond_false {t : RBTree α} {p : Path α} {x : Nat} {c : m_RB} {v : α}
    {l r : Tree α} (h : Foc t p (.node x c v l r)) (hc : c = .m_black ∨ p.isRed = false) :
    t.insert_fix_cond (some x) = .ok false := by
  rcases p with _ | ⟨pa, pc, pv, up, pr⟩ | ⟨pa, pc, pv, pl, up⟩
  · simp [RBTree.insert_fix_cond, h.root_eq, pure, Except.pure]
  · have hup := (Foc_left.mp h).deref_root
    cases c <;> cases pc <;>
      simp_all [RBTree.insert_fix_cond, h.root_ne, h.deref_root, ok_bind, pure, Except.pure,
        Path.isRed]
  · have hup := (Foc_right.mp h).deref_root
    cases c <;> cases pc <;>
      simp_all [RBTree.insert_fix_cond, h.root_ne, h.deref_root, ok_bind, pure, Except.pure,
        Path.isRed]

/-- The loop of `insert_fix` is entered when a red node has a red parent. -/
theorem insert_fix_cond_true {t : RBTree α} {p : Path α} {x : Nat} {v : α}
    {l r : Tree α} (h : Foc t p (.node x .m_red v l r)) (hc : p.isRed = true) :
    t.insert_fix_cond (some x) = .ok true := by
  rcases p with _ | ⟨pa, pc, pv, up, pr⟩ | ⟨pa, pc, pv, pl, up⟩
  · simp [Path.isRed] at hc
  · have hup := (Foc_left.mp h).deref_root
    cases pc <;>
      simp_all [RBTree.insert_fix_cond, h.root_ne, h.deref_root, ok_bind, pure, Except.pure,
        Path.isRed]
  · have hup := (Foc_right.mp h).deref_root
    cases pc <;>
      simp_all [RBTree.insert_fix_cond, h.root_ne, h.deref_root, ok_bind, pure, Except.pure,
        Path.isRed]

/-- Loop body, parent is a left child and the uncle is red: recolour and move
to the grandparent. -/
theorem insert_fix_body_red_uncle_left {t : RBTree α} {up : Path α} {x pa g ua : Nat}
    {nx : RBTreeNode α} {pc gc : m_RB} {pv gv uv : α} {a b ul ur : Tree α}
    (hx : t.mem x = some nx) (hpar : nx.m_parent = some pa)
    (h : Foc t (.left g gc gv up (.node ua .m_red uv ul ur)) (.node pa pc pv a b)) :
    ∃ t', t.insert_fix_body (some x) = .ok (t', some g) ∧
      Foc t' up (.node g .m_red gv (.node pa .m_black pv a b) (.node ua .m_black uv ul ur)) ∧
      t'.brk = t.brk ∧ t'.m_size = t.m_size := by
  have hg := Foc_left.mp h
  have hu : t.is_red (some ua) = .ok true := is_red_spec (Foc_right.mpr hg)
  obtain ⟨t1, e1, f1, b1, s1, _⟩ := set_color_spec hg .m_red
  obtain ⟨t2, e2, f2, b2, s2, _⟩ := set_color_spec (Foc_left.mpr f1) .m_black
  obtain ⟨t3, e3, f3, b3, s3, _⟩ := set_color_spec (Foc_right.mpr (Foc_left.mp f2)) .m_black
  refine ⟨t3, ?_, Foc_right.mp f3, by omega, by omega⟩
  simp [RBTree.insert_fix_body, deref_of_mem hx, hpar, h.deref_root, sibling_left h,
    hg.deref_root, hu, e1, e2, e3, ok_bind, pure, Except.pure]

/-- Loop body, parent is a right child and the uncle is red: recolour and move
to the grandparent. -/
theorem insert_fix_body_red_uncle_right {t : RBTree α} {up : Path α} {x pa g ua : Nat}
    {nx : RBTreeNode α} {pc gc : m_RB} {pv gv uv : α} {a b ul ur : Tree α}
    (hx : t.mem x = some nx) (hpar : nx.m_parent = some pa)
    (h : Foc t (.right g gc gv (.node ua .m_red uv ul ur) up) (.node pa pc pv a b)) :
    ∃ t', t.insert_fix_body (some x) = .ok (t', some g) ∧
      Foc t' up (.node g .m_red gv (.node ua .m_black uv ul ur) (.node pa .m_black pv a b)) ∧
      t'.brk = t.brk ∧ t'.m_size = t.m_size := by
  have hg := Foc_right.mp h
  have hu : t.is_red (some ua) = .ok true := is_red_spec (Foc_left.mpr hg)
  have hn := h.nodup_facts_right
  have hne : (some pa = some ua) = False := by
    simp only [Option.some.injEq, eq_iff_iff, iff_false]
    rintro rfl
    exact hn.1 (by simp [Tree.addrs])
  obtain ⟨t1, e1, f1, b1, s1, _⟩ := set_color_spec hg .m_red
  obtain ⟨t2, e2, f2, b2, s2, _⟩ := set_color_spec (Foc_right.mpr f1) .m_black
  obtain ⟨t3, e3, f3, b3, s3, _⟩ := set_color_spec (Foc_left.mpr (Foc_right.mp f2)) .m_black
  refine ⟨t3, ?_, Foc_left.mp f3, by omega, by omega⟩
  simp [RBTree.insert_fix_body, deref_of_mem hx, hpar, h.deref_root, sibling_right h,
    hg.deref_root, hu, e1, e2, e3, ok_bind, pure, Except.pure, hne]

/-- Loop body, uncle black, node and parent both left children: one right
rotation at the grandparent and a colour swap. -/
theorem insert_fix_body_LL {t : RBTree α} {up : Path α} {x pa g : Nat}
    {c pc gc : m_RB} {v pv gv : α} {l r pr u : Tree α}
    (h : Foc t (.left pa pc pv (.left g gc gv up u) pr) (.node x c v l r))
    (hu : u.isRed = false) :
    ∃ t', t.insert_fix_body (some x) = .ok (t', some pa) ∧
      Foc t' up (.node pa gc pv (.node x c v l r) (.node g pc gv pr u)) ∧
      t'.brk = t.brk ∧ t'.m_size = t.m_size := by
  have hp := Foc_left.mp h
  have hg := Foc_left.mp hp
  have hur : t.is_red u.ptr = .ok false := hu ▸ is_red_spec (Foc_right.mpr hg)
  have hn := h.nodup_facts_left
  obtain ⟨t1, e1, f1, b1, s1⟩ := right_rotate_spec hg
  have f1g := Foc_right.mpr f1
  obtain ⟨t2, e2, f2, b2, s2, _⟩ := set_color_spec f1 gc
  obtain ⟨t3, e3, f3, b3, s3, _⟩ := set_color_spec (Foc_right.mpr f2) pc
  refine ⟨t3, ?_, Foc_right.mp f3, by omega, by omega⟩
  simp [RBTree.insert_fix_body, h.deref_root, hp.deref_root, sibling_left hp,
    hg.deref_root, hur, e1, e2, e3, ok_bind, pure, Except.pure, eq_ptr_false hn.1,
    f1.deref_root, f1g.deref_root]

/-- Loop body, uncle black, node a right child of a left child: a left
rotation at the parent, a right rotation at the grandparent, a colour swap. -/
theorem insert_fix_body_LR {t : RBTree α} {up : Path α} {x pa g : Nat}
    {c pc gc : m_RB} {v pv gv : α} {l r pl u : Tree α}
    (h : Foc t (.right pa pc pv pl (.left g gc gv up u)) (.node x c v l r))
    (hu : u.isRed = false) :
    ∃ t', t.insert_fix_body (some x) = .ok (t', some x) ∧
      Foc t' up (.node x gc v (.node pa pc pv pl l) (.node g c gv r u)) ∧
      t'.brk = t.brk ∧ t'.m_size = t.m_size := by
  have hp := Foc_right.mp h
  have hg := Foc_left.mp hp
  have hur : t.is_red u.ptr = .ok false := hu ▸ is_red_spec (Foc_right.mpr hg)
  obtain ⟨t1, e1, f1, b1, s1⟩ := left_rotate_spec hp
  have f1p := Foc_left.mpr f1
  obtain ⟨t2, e2, f2, b2, s2⟩ := right_rotate_spec (Foc_left.mp f1)
  have f2g := Foc_right.mpr f2
  obtain ⟨t3, e3, f3, b3, s3, _⟩ := set_color_spec f2 gc
  obtain ⟨t4, e4, f4, b4, s4, _⟩ := set_color_spec (Foc_right.mpr f3) c
  refine ⟨t4, ?_, Foc_right.mp f4, by omega, by omega⟩
  simp [RBTree.insert_fix_body, h.deref_root, hp.deref_root, sibling_left hp,
    hg.deref_root, hur, e1, e2, e3, e4, ok_bind, pure, Except.pure,
    f1p.deref_root, f2.deref_root, f2g.deref_root]

/-- Loop body, uncle black, node and parent both right children: one left
rotation at the grandparent and a colour swap. -/
theorem insert_fix_body_RR {t : RBTree α} {up : Path α} {x pa g : Nat}
    {c pc gc : m_RB} {v pv gv : α} {l r pl u : Tree α}
    (h : Foc t (.right pa pc pv pl (.right g gc gv u up)) (.node x c v l r))
    (hu : u.isRed = false) :
    ∃ t', t.insert_fix_body (some x) = .ok (t', some pa) ∧
      Foc t' up (.node pa gc pv (.node g pc gv u pl) (.node x c v l r)) ∧
      t'.brk = t.brk ∧ t'.m_size = t.m_size := by
  have hp := Foc_right.mp h
  have hg := Foc_right.mp hp
  have hur : t.is_red u.ptr = .ok false := hu ▸ is_red_spec (Foc_left.mpr hg)
  have hn := h.nodup_facts_right
  have hn2 := hp.nodup_facts_right
  obtain ⟨t1, e1, f1, b1, s1⟩ := left_rotate_spec hg
  have f1g := Foc_left.mpr f1
  obtain ⟨t2, e2, f2, b2, s2, _⟩ := set_color_spec f1 gc
  obtain ⟨t3, e3, f3, b3, s3, _⟩ := set_color_spec (Foc_left.mpr f2) pc
  refine ⟨t3, ?_, Foc_left.mp f3, by omega, by omega⟩
  simp [RBTree.insert_fix_body, h.deref_root, hp.deref_root, sibling_right hp,
    hg.deref_root, hur, e1, e2, e3, ok_bind, pure, Except.pure, eq_ptr_false hn.1,
    eq_ptr_false hn2.1, f1.deref_root, f1g.deref_root]

/-- Loop body, uncle black, node a left child of a right child: a right
rotation at the parent, a left rotation at the grandparent, a colour swap. -/
theorem insert_fix_body_RL {t : RBTree α} {up : Path α} {x pa g : Nat}
    {c pc gc : m_RB} {v pv gv : α} {l r pr u : Tree α}
    (h : Foc t (.left pa pc pv (.right g gc gv u up) pr) (.node x c v l r))
    (hu : u.isRed = false) :
    ∃ t', t.insert_fix_body (some x) = .ok (t', some x) ∧
      Foc t' up (.node x gc v (.node g c gv u l) (.node pa pc pv r pr)) ∧
      t'.brk = t.brk ∧ t'.m_size = t.m_size := by
  have hp := Foc_left.mp h
  have hg := Foc_right.mp hp
  have hur : t.is_red u.ptr = .ok false := hu ▸ is_red_spec (Foc_left.mpr hg)
  have hn2 := hp.nodup_facts_right
  obtain ⟨t1, e1, f1, b1, s1⟩ := right_rotate_spec hp
  have f1p := Foc_right.mpr f1
  obtain ⟨t2, e2, f2, b2, s2⟩ := left_rotate_spec (Foc_right.mp f1)
  have f2g := Foc_left.mpr f2
  obtain ⟨t3, e3, f3, b3, s3, _⟩ := set_color_spec f2 gc
  obtain ⟨t4, e4, f4, b4, s4, _⟩ := set_color_spec (Foc_left.mpr f3) c
  refine ⟨t4, ?_, Foc_left.mp f4, by omega, by omega⟩
  simp [RBTree.insert_fix_body, h.deref_root, hp.deref_root, sibling_right hp,
    hg.deref_root, hur, e1, e2, e3, e4, ok_bind, pure, Except.pure,
    eq_ptr_false hn2.1, f1p.deref_root, f2.deref_root, f2g.deref_root]

/-- One pass through the loop body of `insert_fix` when a red node has a red
parent: the violation is repaired or moved two levels up, and everything else
stays in order. -/
theorem insert_fix_step {t : RBTree α} {p : Path α} {x : Nat} {v : α} {l r : Tree α}
    (h : Foc t p (.node x .m_red v l r)) (hred : p.isRed = true)
    (hsB : (Tree.node x .m_red v l r).Bal) (hsN : (Tree.node x .m_red v l r).NoRR)
    (hpB : p.Bal (Tree.node x .m_red v l r).bh) (hpN : p.NoRR)
    (hroot : (p.plug .nil).isRed = false) :
    ∃ (t1 : RBTree α) (up : Path α) (x' : Nat) (c' : m_RB) (v' : α) (l' r' : Tree α),
      t.insert_fix_body (some x) = .ok (t1, some x') ∧
      Foc t1 up (.node x' c' v' l' r') ∧ up.depth + 2 = p.depth ∧
      (Tree.node x' c' v' l' r').Bal ∧ (Tree.node x' c' v' l' r').NoRR ∧
      up.Bal (Tree.node x' c' v' l' r').bh ∧ up.NoRR ∧ (up.plug .nil).isRed = false ∧
      (up.plug (.node x' c' v' l' r')).inorder = (p.plug (.node x .m_red v l r)).inorder ∧
      (up.plug (.node x' c' v' l' r')).addrs = (p.plug (.node x .m_red v l r)).addrs ∧
      t1.brk = t.brk ∧ t1.m_size = t.m_size := by
  rcases p with _ | ⟨pa, pc, pv, G, pr⟩ | ⟨pa, pc, pv, pl, G⟩
  · simp [Path.isRed] at hred
  · cases pc
    swap
    · simp [Path.isRed] at hred
    rcases G with _ | ⟨g, gc, gv, up, u⟩ | ⟨g, gc, gv, u, up⟩
    · simp [Path.plug, Tree.isRed] at hroot
    · have hup : (up.plug .nil).isRed = false := by
        by_cases hu : up = .top
        · subst hu; rfl
        · rw [← hroot]; exact up.isRed_plug_of_ne_top hu _ _
      cases gc
      · simp [Path.NoRR, Path.isRed] at hpN
      simp only [Path.Bal, Path.NoRR, Tree.Bal, Tree.NoRR, Tree.bh, Path.isRed_left,
        Path.isRed_right, decide_eq_false_iff_not, true_implies, reduceCtorEq, false_implies,
        true_and, not_false_eq_true, and_true] at hsB hsN hpB hpN
      obtain ⟨hlr, hlB, hrB⟩ := hsB
      obtain ⟨⟨hlc, hrc⟩, hlN, hrN⟩ := hsN
      obtain ⟨hprh, hprB, huh, huB, hupB⟩ := hpB
      obtain ⟨hprN, hprc, huN, hupN⟩ := hpN
      rcases hu : u.isRed with _ | _
      · obtain ⟨t1, e1, f1, b1, s1⟩ := insert_fix_body_LL h hu
        refine ⟨t1, up, _, .m_black, _, _, _, e1, f1, rfl, ?_, ?_, ?_, hupN, hup, ?_, ?_, b1, s1⟩
        · simp only [Tree.Bal, Tree.bh] at *; and_intros <;> first | assumption | omega
        · simp only [Tree.NoRR, Tree.isRed_node] at *; simp [*]
        · (convert hupB using 1) <;> (simp only [Tree.bh] <;> omega)
        · simp [Path.inorder_plug, Path.before, Path.after, Tree.inorder]
        · simp [Path.addrs_plug, Path.addrsBefore, Path.addrsAfter, Tree.addrs]
      · rcases u with _ | ⟨ua, uc, uv, ul, ur⟩
        · simp [Tree.isRed] at hu
        cases uc
        swap
        · simp [Tree.isRed] at hu
        simp only [Tree.Bal, Tree.NoRR, Tree.bh, true_implies] at huh huB huN
        obtain ⟨hulr, hulB, hurB⟩ := huB
        obtain ⟨⟨hulc, hurc⟩, hulN, hurN⟩ := huN
        obtain ⟨t1, e1, f1, b1, s1⟩ := insert_fix_body_red_uncle_left h.mem_root rfl (Foc_left.mp h)
        refine ⟨t1, up, _, .m_red, _, _, _, e1, f1, rfl, ?_, ?_, ?_, hupN, hup, ?_, ?_, b1, s1⟩
        · simp only [Tree.Bal, Tree.bh] at *; and_intros <;> first | assumption | omega
        · simp only [Tree.NoRR, Tree.isRed_node] at *; simp [*]
        · (convert hupB using 1) <;> (simp only [Tree.bh] <;> omega)
        · simp [Path.inorder_plug, Path.before, Path.after, Tree.inorder]
        · simp [Path.addrs_plug, Path.addrsBefore, Path.addrsAfter, Tree.addrs]
    · have hup : (up.plug .nil).isRed = false := by
        by_cases hu : up = .top
        · subst hu; rfl
        · rw [← hroot]; exact up.isRed_plug_of_ne_top hu _ _
      cases gc
      · simp [Path.NoRR, Path.isRed] at hpN
      simp only [Path.Bal, Path.NoRR, Tree.Bal, Tree.NoRR, Tree.bh, Path.isRed_left,
        Path.isRed_right, decide_eq_false_iff_not, true_implies, reduceCtorEq, false_implies,
        true_and, not_false_eq_true, and_true] at hsB hsN hpB hpN
      obtain ⟨hlr, hlB, hrB⟩ := hsB
      obtain ⟨⟨hlc, hrc⟩, hlN, hrN⟩ := hsN
      obtain ⟨hprh, hprB, huh, huB, hupB⟩ := hpB
      obtain ⟨hprN, hprc, huN, hupN⟩ := hpN
      rcases hu : u.isRed with _ | _
      · obtain ⟨t1, e1, f1, b1, s1⟩ := insert_fix_body_RL h hu
        refine ⟨t1, up, _, .m_black, _, _, _, e1, f1, rfl, ?_, ?_, ?_, hupN, hup, ?_, ?_, b1, s1⟩
        · simp only [Tree.Bal, Tree.bh] at *; and_intros <;> first | assumption | omega
        · simp only [Tree.NoRR, Tree.isRed_node] at *; simp [*]
        · (convert hupB using 1) <;> (simp only [Tree.bh] <;> omega)
        · simp [Path.inorder_plug, Path.before, Path.after, Tree.inorder]
        · simp [Path.addrs_plug, Path.addrsBefore, Path.addrsAfter, Tree.addrs]
      · rcases u with _ | ⟨ua, uc, uv, ul, ur⟩
        · simp [Tree.isRed] at hu
        cases uc
        swap
        · simp [Tree.isRed] at hu
        simp only [Tree.Bal, Tree.NoRR, Tree.bh, true_implies] at huh huB huN
        obtain ⟨hulr, hulB, hurB⟩ := huB
        obtain ⟨⟨hulc, hurc⟩, hulN, hurN⟩ := huN
        obtain ⟨t1, e1, f1, b1, s1⟩ := insert_fix_body_red_uncle_right h.mem_root rfl (Foc_left.mp h)
        refine ⟨t1, up, _, .m_red, _, _, _, e1, f1, rfl, ?_, ?_, ?_, hupN, hup, ?_, ?_, b1, s1⟩
        · simp only [Tree.Bal, Tree.bh] at *; and_intros <;> first | assumption | omega
        · simp only [Tree.NoRR, Tree.isRed_node] at *; simp [*]
        · (convert hupB using 1) <;> (simp only [Tree.bh] <;> omega)
        · simp [Path.inorder_plug, Path.before, Path.after, Tree.inorder]
        · simp [Path.addrs_plug, Path.addrsBefore, Path.addrsAfter, Tree.addrs]
  · cases pc
    swap
    · simp [Path.isRed] at hred
    rcases G with _ | ⟨g, gc, gv, up, u⟩ | ⟨g, gc, gv, u, up⟩
    · simp [Path.plug, Tree.isRed] at hroot
    · have hup : (up.plug .nil).isRed = false := by
        by_cases hu : up = .top
        · subst hu; rfl
        · rw [← hroot]; exact up.isRed_plug_of_ne_top hu _ _
      cases gc
      · simp [Path.NoRR, Path.isRed] at hpN
      simp only [Path.Bal, Path.NoRR, Tree.Bal, Tree.NoRR, Tree.bh, Path.isRed_left,
        Path.isRed_right, decide_eq_false_iff_not, true_implies, reduceCtorEq, false_implies,
        true_and, not_false_eq_true, and_true] at hsB hsN hpB hpN
      obtain ⟨hlr, hlB, hrB⟩ := hsB
      obtain ⟨⟨hlc, hrc⟩, hlN, hrN⟩ := hsN
      obtain ⟨hprh, hprB, huh, huB, hupB⟩ := hpB
      obtain ⟨hprN, hprc, huN, hupN⟩ := hpN
      rcases hu : u.isRed with _ | _
      · obtain ⟨t1, e1, f1, b1, s1⟩ := insert_fix_body_LR h hu
        refine ⟨t1, up, _, .m_black, _, _, _, e1, f1, rfl, ?_, ?_, ?_, hupN, hup, ?_, ?_, b1, s1⟩
        · simp only [Tree.Bal, Tree.bh] at *; and_intros <;> first | assumption | omega
        · simp only [Tree.NoRR, Tree.isRed_node] at *; simp [*]
        · (convert hupB using 1) <;> (simp only [Tree.bh] <;> omega)
        · simp [Path.inorder_plug, Path.before, Path.after, Tree.inorder]
        · simp [Path.addrs_plug, Path.addrsBefore, Path.addrsAfter, Tree.addrs]
      · rcases u with _ | ⟨ua, uc, uv, ul, ur⟩
        · simp [Tree.isRed] at hu
        cases uc
        swap
        · simp [Tree.isRed] at hu
        simp only [Tree.Bal, Tree.NoRR, Tree.bh, true_implies] at huh huB huN
        obtain ⟨hulr, hulB, hurB⟩ := huB
        obtain ⟨⟨hulc, hurc⟩, hulN, hurN⟩ := huN
        obtain ⟨t1, e1, f1, b1, s1⟩ := insert_fix_body_red_uncle_left h.mem_root rfl (Foc_right.mp h)
        refine ⟨t1, up, _, .m_red, _, _, _, e1, f1, rfl, ?_, ?_, ?_, hupN, hup, ?_, ?_, b1, s1⟩
        · simp only [Tree.Bal, Tree.bh] at *; and_intros <;> first | assumption | omega
        · simp only [Tree.NoRR, Tree.isRed_node] at *; simp [*]
        · (convert hupB using 1) <;> (simp only [Tree.bh] <;> omega)
        · simp [Path.inorder_plug, Path.before, Path.after, Tree.inorder]
        · simp [Path.addrs_plug, Path.addrsBefore, Path.addrsAfter, Tree.addrs]
    · have hup : (up.plug .nil).isRed = false := by
        by_cases hu : up = .top
        · subst hu; rfl
        · rw [← hroot]; exact up.isRed_plug_of_ne_top hu _ _
      cases gc
      · simp [Path.NoRR, Path.isRed] at hpN
      simp only [Path.Bal, Path.NoRR, Tree.Bal, Tree.NoRR, Tree.bh, Path.isRed_left,
        Path.isRed_right, decide_eq_false_iff_not, true_implies, reduceCtorEq, false_implies,
        true_and, not_false_eq_true, and_true] at hsB hsN hpB hpN
      obtain ⟨hlr, hlB, hrB⟩ := hsB
      obtain ⟨⟨hlc, hrc⟩, hlN, hrN⟩ := hsN
      obtain ⟨hprh, hprB, huh, huB, hupB⟩ := hpB
      obtain ⟨hprN, hprc, huN, hupN⟩ := hpN
      rcases hu : u.isRed with _ | _
      · obtain ⟨t1, e1, f1, b1, s1⟩ := insert_fix_body_RR h hu
        refine ⟨t1, up, _, .m_black, _, _, _, e1, f1, rfl, ?_, ?_, ?_, hupN, hup, ?_, ?_, b1, s1⟩
        · simp only [Tree.Bal, Tree.bh] at *; and_intros <;> first | assumption | omega
        · simp only [Tree.NoRR, Tree.isRed_node] at *; simp [*]
        · (convert hupB using 1) <;> (simp only [Tree.bh] <;> omega)
        · simp [Path.inorder_plug, Path.before, Path.after, Tree.inorder]
        · simp [Path.addrs_plug, Path.addrsBefore, Path.addrsAfter, Tree.addrs]
      · rcases u with _ | ⟨ua, uc, uv, ul, ur⟩
        · simp [Tree.isRed] at hu
        cases uc
        swap
        · simp [Tree.isRed] at hu
        simp only [Tree.Bal, Tree.NoRR, Tree.bh, true_implies] at huh huB huN
        obtain ⟨hulr, hulB, hurB⟩ := huB
        obtain ⟨⟨hulc, hurc⟩, hulN, hurN⟩ := huN
        obtain ⟨t1, e1, f1, b1, s1⟩ := insert_fix_body_red_uncle_right h.mem_root rfl (Foc_right.mp h)
        refine ⟨t1, up, _, .m_red, _, _, _, e1, f1, rfl, ?_, ?_, ?_, hupN, hup, ?_, ?_, b1, s1⟩
        · simp only [Tree.Bal, Tree.bh] at *; and_intros <;> first | assumption | omega
        · simp only [Tree.NoRR, Tree.isRed_node] at *; simp [*]
        · (convert hupB using 1) <;> (simp only [Tree.bh] <;> omega)
        · simp [Path.inorder_plug, Path.before, Path.after, Tree.inorder]
        · simp [Path.addrs_plug, Path.addrsBefore, Path.addrsAfter, Tree.addrs]

/-- `insert_fix` started at a node below which, and around which, the colour
invariants hold (only the node and its parent may both be red) returns, and the
tree it leaves satisfies all colour invariants and has the same in-order. -/
theorem insert_fix_spec (n : Nat) :
    ∀ (t : RBTree α) (p : Path α) (x : Nat) (c : m_RB) (v : α) (l r : Tree α) (fuel : Nat),
      p.depth ≤ 2 * n → n < fuel → Foc t p (.node x c v l r) →
      (Tree.node x c v l r).Bal → (Tree.node x c v l r).NoRR →
      p.Bal (Tree.node x c v l r).bh → p.NoRR → (p.plug .nil).isRed = false →
      ∃ t' tr', RBTree.insert_fix fuel t (some x) = .ok t' ∧ t'.Holds tr' ∧
        tr'.Bal ∧ tr'.NoRR ∧ tr'.isRed = false ∧
        tr'.inorder = (p.plug (.node x c v l r)).inorder ∧
        tr'.addrs = (p.plug (.node x c v l r)).addrs ∧
        t'.brk = t.brk ∧ t'.m_size = t.m_size := by
  induction n with
  | zero =>
    intro t p x c v l r fuel hd hf h hsB hsN hpB hpN hroot
    obtain ⟨f, rfl⟩ : ∃ f, fuel = f + 1 := ⟨fuel - 1, by omega⟩
    have hp : p = .top := by cases p <;> simp [Path.depth] at hd ⊢
    subst hp
    obtain ⟨t', e, hh, hb, hs⟩ := set_root_black (Foc_plug.mp h) (Path.plug_ne_nil _ _ _ _ _ _)
    refine ⟨t', _, ?_, hh, Tree.blacken_bal hsB, hsN.blacken, Tree.blacken_isRed _,
      Tree.blacken_inorder _, Tree.blacken_addrs _, hb, hs⟩
    simp [RBTree.insert_fix, insert_fix_cond_false h (Or.inr rfl), ok_bind, e]
  | succ n ih =>
    intro t p x c v l r fuel hd hf h hsB hsN hpB hpN hroot
    obtain ⟨f, rfl⟩ : ∃ f, fuel = f + 1 := ⟨fuel - 1, by omega⟩
    by_cases hstop : c = .m_black ∨ p.isRed = false
    · obtain ⟨t', e, hh, hb, hs⟩ := set_root_black (Foc_plug.mp h) (Path.plug_ne_nil _ _ _ _ _ _)
      have hN : (p.plug (.node x c v l r)).NoRR := by
        rw [Path.noRR_plug]
        refine ⟨hsN, hpN, fun hr => ?_⟩
        rcases hstop with rfl | hq
        · rfl
        · rw [hq] at hr; cases hr
      refine ⟨t', _, ?_, hh, Tree.blacken_bal ((Path.bal_plug _ _).mpr ⟨hsB, hpB⟩), hN.blacken,
        Tree.blacken_isRed _, Tree.blacken_inorder _, Tree.blacken_addrs _, hb, hs⟩
      simp [RBTree.insert_fix, insert_fix_cond_false h hstop, ok_bind, e]
    · have hc : c = .m_red := by
        cases c
        · rfl
        · exact absurd (Or.inl rfl) hstop
      subst hc
      have hred : p.isRed = true := by
        cases hq : p.isRed
        · exact absurd (Or.inr hq) hstop
        · rfl
      obtain ⟨t1, up, x', c', v', l', r', e1, f1, hdep, hB', hN', hupB, hupN, hup, hin, had,
        hb1, hs1⟩ := insert_fix_step h hred hsB hsN hpB hpN hroot
      obtain ⟨t', tr', e2, hh, h1, h2, h3, h4, h5, h6, h7⟩ :=
        ih t1 up x' c' v' l' r' f (by omega) (by omega) f1 hB' hN' hupB hupN hup
      refine ⟨t', tr', ?_, hh, h1, h2, h3, h4.trans hin, h5.trans had, by omega, by omega⟩
      simp [RBTree.insert_fix, insert_fix_cond_true h hred, ok_bind, e1, e2]

end jvn

/-! ## Binary-search-tree order and the descent of insertion
-/

namespace jvn

set_option linter.unusedSectionVars false

variable {α : Type}

section ordered
variable [LinearOrder α] [Inhabited α]

/-- BST order is the same as a strictly ascending in-order sequence. -/
theorem Tree.bst_iff_sorted (t : Tree α) : t.BST ↔ t.inorder.Pairwise (· < ·) := by
  induction t with
  | nil => simp [Tree.BST, Tree.inorder]
  | node a c v l r ihl ihr =>
    simp only [Tree.BST, Tree.inorder, List.pairwise_append, List.pairwise_cons, ihl, ihr,
      List.mem_cons]
    constructor
    · rintro ⟨h1, h2, h3, h4⟩
      refine ⟨h3, ⟨h2, h4⟩, ?_⟩
      rintro x hx y (rfl | hy)
      · exact h1 x hx
      · exact lt_trans (h1 x hx) (h2 y hy)
    · rintro ⟨h3, ⟨h2, h4⟩, h5⟩
      exact ⟨fun x hx => h5 x hx v (Or.inl rfl), h2, h3, h4⟩

theorem sorted_insert_middle {xs ys : List α} {v : α} (h : (xs ++ ys).Pairwise (· < ·))
    (h1 : ∀ x ∈ xs, x < v) (h2 : ∀ y ∈ ys, v < y) : (xs ++ v :: ys).Pairwise (· < ·) := by
  simp only [List.pairwise_append, List.pairwise_cons, List.mem_cons] at h ⊢
  refine ⟨h.1, ⟨h2, h.2.1⟩, ?_⟩
  rintro x hx y (rfl | hy)
  · exact h1 x hx
  · exact h.2.2 x hx y hy

/-- The descent of `BST_insert` from a subtree in BST order: it stops at the
node holding `val` when there is one, and otherwise at the absent child where
`val` belongs, with the node above it as `parent`. -/
theorem BST_insert_loop_spec (t : RBTree α) (val : α) :
    ∀ (sub : Tree α) (p : Path α) (fuel : Nat), Foc t p sub → sub.BST → sub.height < fuel →
      (∀ x ∈ p.before, x < val) → (∀ x ∈ p.after, val < x) →
      (val ∈ sub.inorder → ∃ (p' : Path α) (a : Nat) (c : m_RB) (l r : Tree α),
          t.BST_insert_loop val fuel p.ptr sub.ptr = .ok (p'.ptr, some a) ∧
          Foc t p' (.node a c val l r) ∧ p'.plug (.node a c val l r) = p.plug sub) ∧
      (val ∉ sub.inorder → ∃ (p' : Path α),
          t.BST_insert_loop val fuel p.ptr sub.ptr = .ok (p'.ptr, none) ∧
          Foc t p' .nil ∧ p'.plug .nil = p.plug sub ∧
          (∀ x ∈ p'.before, x < val) ∧ (∀ x ∈ p'.after, val < x)) := by
  intro sub
  induction sub with
  | nil =>
    intro p fuel hfoc _ hf hb ha
    obtain ⟨f, rfl⟩ : ∃ f, fuel = f + 1 := ⟨fuel - 1, by omega⟩
    simp only [Tree.inorder, List.not_mem_nil, false_implies, not_false_eq_true, true_implies,
      true_and]
    exact ⟨p, by simp [RBTree.BST_insert_loop], hfoc, rfl, hb, ha⟩
  | node a c w l r ihl ihr =>
    intro p fuel hfoc hbst hf hb ha
    obtain ⟨f, rfl⟩ : ∃ f, fuel = f + 1 := ⟨fuel - 1, by omega⟩
    obtain ⟨hlt, hgt, hbl, hbr⟩ := hbst
    simp only [Tree.ptr_node, RBTree.BST_insert_loop, hfoc.deref_root, ok_bind]
    by_cases hw : w = val
    · subst hw
      simp only [ne_eq, not_true_eq_false, ↓reduceIte, Tree.inorder, List.mem_append,
        List.mem_cons, true_or, or_true, not_true_eq_false, false_implies, and_true]
      intro _
      exact ⟨p, a, c, l, r, rfl, hfoc, rfl⟩
    · simp only [ne_eq, hw, not_false_eq_true, ↓reduceIte]
      by_cases hv : val < w
      · simp only [hv, ↓reduceIte]
        have hnr : val ∉ r.inorder := fun hx => lt_asymm hv (hgt _ hx)
        have hmem : val ∈ (Tree.node a c w l r).inorder ↔ val ∈ l.inorder := by
          simp [Tree.inorder, hnr, Ne.symm hw]
        rw [hmem]
        have := ihl (.left a c w p r) f (Foc_left.mpr hfoc) hbl (Tree.height_pos_left hf)
          (by simpa [Path.before] using hb)
          (by
            simp only [Path.after, List.cons_append, List.mem_cons, List.mem_append]
            rintro x (rfl | hx | hx)
            · exact hv
            · exact lt_trans hv (hgt x hx)
            · exact ha x hx)
        simpa [Path.plug] using this
      · simp only [hv, ↓reduceIte]
        have hwv : w < val := lt_of_le_of_ne (not_lt.mp hv) hw
        have hnl : val ∉ l.inorder := fun hx => hv (hlt _ hx)
        have hmem : val ∈ (Tree.node a c w l r).inorder ↔ val ∈ r.inorder := by
          simp [Tree.inorder, hnl, Ne.symm hw]
        rw [hmem]
        have := ihr (.right a c w l p) f (Foc_right.mpr hfoc) hbr (Tree.height_pos_right hf)
          (by
            simp only [Path.before, List.mem_append, List.mem_singleton]
            rintro x ((hx | hx) | rfl)
            · exact hb x hx
            · exact lt_trans (hlt x hx) hwv
            · exact hwv)
          (by simpa [Path.after] using ha)
        simpa [Path.plug] using this

/-- Attaching the new red node below the node where the descent ended. -/
theorem attach_spec {t : RBTree α} {p : Path α} {val : α} {fuel : Nat} (h : Foc t p .nil)
    (hfresh : ∀ a ∈ p.addrs, a < t.brk) (hp : p ≠ .top)
    (hb : ∀ x ∈ p.before, x < val) (ha : ∀ x ∈ p.after, val < x)
    (hne : t.empty = false)
    (hloop : t.BST_insert_loop val fuel none t.m_root = .ok (p.ptr, none)) :
    ∃ t1, t.BST_insert fuel val = Except.ok (t1, some t.brk) ∧
      Foc t1 p (.node t.brk .m_red val .nil .nil) ∧
      t1.brk = t.brk + 1 ∧ t1.m_size = t.m_size + 1 := by
  obtain ⟨_, hr, hnd⟩ := h
  have hnd0 := hnd
  have hbrk : t.brk ∉ p.addrs := fun hx => Nat.lt_irrefl _ (hfresh _ hx)
  rcases p with _ | ⟨pa, pc, pv, up, pr⟩ | ⟨pa, pc, pv, pl, up⟩
  · exact absurd rfl hp
  · have hv : val < pv := ha pv (by simp [Path.after])
    simp only [RepPath, Tree.ptr_nil, Path.ptr_left] at hr
    simp only [Tree.addrs, Path.addrs, List.nodup_append, List.nodup_cons, List.mem_append,
      List.mem_cons, List.disjoint_cons_left, List.disjoint_cons_right,
      List.disjoint_append_left, List.disjoint_append_right, not_or, List.cons_append,
      List.nil_append] at hnd hbrk
    simp [RBTree.BST_insert, hne, hloop, RBTree.buy_node, RBTree.set_data, RBTree.set_left, RBTree.modify, RBTree.deref,
      ok_bind, pure, Except.pure, Function.update_same, Function.update_noteq, update_noteq',
      hr, hnd, hbrk, hv]
    refine ⟨?_, ?_, ?_⟩
    · simp [Rep, Function.update_same, Function.update_noteq, update_noteq', hbrk]
    · simp [RepPath, Function.update_same, Function.update_noteq, update_noteq', hr, hnd, hbrk,
        Rep_update, RepPath_update]
    · simp [Tree.addrs, Path.addrs, hnd, hbrk, List.nodup_append]
  · have hv : ¬ val < pv := not_lt.mpr (le_of_lt (hb pv (by simp [Path.before])))
    simp only [RepPath, Tree.ptr_nil, Path.ptr_right] at hr
    simp only [Tree.addrs, Path.addrs, List.nodup_append, List.nodup_cons, List.mem_append,
      List.mem_cons, List.disjoint_cons_left, List.disjoint_cons_right,
      List.disjoint_append_left, List.disjoint_append_right, not_or, List.cons_append,
      List.nil_append] at hnd hbrk
    simp [RBTree.BST_insert, hne, hloop, RBTree.buy_node, RBTree.set_data, RBTree.set_right, RBTree.modify, RBTree.deref,
      ok_bind, pure, Except.pure, Function.update_same, Function.update_noteq, update_noteq',
      hr, hnd, hbrk, hv]
    refine ⟨?_, ?_, ?_⟩
    · simp [Rep, Function.update_same, Function.update_noteq, update_noteq', hbrk]
    · simp [RepPath, Function.update_same, Function.update_noteq, update_noteq', hr, hnd, hbrk,
        Rep_update, RepPath_update]
    · simp [Tree.addrs, Path.addrs, hnd, hbrk, List.nodup_append]

/-- `BST_insert` of a value that is not stored: a new node is linked in at the
place where the value belongs. -/
theorem BST_insert_absent {t : RBTree α} {tr : Tree α} {val : α} {fuel : Nat}
    (hv : t.Valid tr) (hbst : tr.BST) (habs : val ∉ tr.inorder) (hf : tr.height < fuel) :
    ∃ (t1 : RBTree α) (p : Path α) (c : m_RB),
      t.BST_insert fuel val = .ok (t1, some t.brk) ∧
      Foc t1 p (.node t.brk c val .nil .nil) ∧ p.plug .nil = tr ∧ (p = .top ∨ c = .m_red) ∧
      (∀ x ∈ p.before, x < val) ∧ (∀ x ∈ p.after, val < x) ∧
      t1.brk = t.brk + 1 ∧ t1.m_size = t.m_size + 1 := by
  obtain ⟨hh, hfresh, hsize⟩ := hv
  cases tr with
  | nil =>
    have he : t.empty = true := by simp [RBTree.empty, hsize, Tree.size]
    refine ⟨{ mem := Function.update t.mem t.brk (some ⟨val, .m_black, none, none, none⟩),
              brk := t.brk + 1, m_root := some t.brk, m_size := t.m_size + 1 },
      .top, .m_black, ?_, ?_, rfl, Or.inl rfl, by simp [Path.before],
      by simp [Path.after], rfl, rfl⟩
    · simp [RBTree.BST_insert, he, RBTree.buy_head_node, RBTree.set_data,
        RBTree.modify, Function.update_same, ok_bind, pure, Except.pure]
    · simp [Foc, Rep, RepPath, Tree.addrs, Path.addrs]
  | node a c w l r =>
    have he : t.empty = false := by simp [RBTree.empty, hsize, Tree.size]
    have hroot : t.m_root = some a := hh.root_eq
    obtain ⟨p, hloop, hfoc, hpl, hb, ha⟩ :=
      (BST_insert_loop_spec t val (.node a c w l r) .top fuel hh hbst hf
        (by simp [Path.before]) (by simp [Path.after])).2 habs
    simp only [Path.ptr_top, Tree.ptr_node, ← hroot] at hloop
    have hp : p ≠ .top := by
      rintro rfl
      simp [Path.plug] at hpl
    have hfr : ∀ x ∈ p.addrs, x < t.brk := by
      intro x hx
      apply hfresh
      have := (Path.mem_addrs_plug (p := p) (t := .nil) (x := x)).mpr (Or.inr hx)
      rwa [hpl] at this
    obtain ⟨t1, e1, f1, b1, s1⟩ := attach_spec hfoc hfr hp hb ha he hloop
    exact ⟨t1, p, .m_red, e1, f1, hpl, Or.inr rfl, hb, ha, b1, s1⟩

/-- `BST_insert` of a value that is stored changes nothing and returns the node
that holds it. -/
theorem BST_insert_present {t : RBTree α} {tr : Tree α} {val : α} {fuel : Nat}
    (hv : t.Valid tr) (hbst : tr.BST) (hpres : val ∈ tr.inorder) (hf : tr.height < fuel) :
    ∃ (p : Path α) (a : Nat) (c : m_RB) (l r : Tree α),
      t.BST_insert fuel val = .ok (t, some a) ∧
      Foc t p (.node a c val l r) ∧ p.plug (.node a c val l r) = tr := by
  obtain ⟨hh, hfresh, hsize⟩ := hv
  have he : t.empty = false := by
    cases tr with
    | nil => simp [Tree.inorder] at hpres
    | node a c w l r => simp [RBTree.empty, hsize, Tree.size]
  obtain ⟨p, a, c, l, r, hloop, hfoc, hpl⟩ :=
      (BST_insert_loop_spec t val tr .top fuel hh hbst hf
        (by simp [Path.before]) (by simp [Path.after])).1 hpres
  rw [Path.ptr_top, ← hh.root_eq] at hloop
  refine ⟨p, a, c, l, r, ?_, hfoc, hpl⟩
  simp [RBTree.BST_insert, he, hloop, ok_bind, pure, Except.pure]

end ordered

end jvn

/-! ## Insertion
-/

namespace jvn

set_option linter.unusedSectionVars false

variable {α : Type}

theorem Path.size_plug_node (p : Path α) (a : Nat) (c : m_RB) (v : α) :
    (p.plug (.node a c v .nil .nil)).size = (p.plug .nil).size + 1 := by
  rw [← Tree.length_addrs, ← Tree.length_addrs, Path.addrs_plug, Path.addrs_plug]
  simp [Tree.addrs]
  omega

/-- Recolouring a black root black leaves the store as it is. -/
theorem set_root_black_noop {t : RBTree α} {tr : Tree α} (h : t.Holds tr)
    (hb : tr.isRed = false) (hne : tr ≠ .nil) :
    t.set_color t.m_root .m_black = .ok t := by
  cases tr with
  | nil => exact absurd rfl hne
  | node a c v l r =>
    cases c
    · simp [Tree.isRed] at hb
    · have hm : t.mem a = some ⟨v, .m_black, l.ptr, r.ptr, none⟩ := Foc.mem_root h
      have hr : t.m_root = some a := h.root_eq
      cases t with
      | mk mem brk root size =>
        simp only at hm hr
        subst hr
        simp only [RBTree.set_color, RBTree.modify, hm]
        have : Function.update mem a (some ⟨v, .m_black, l.ptr, r.ptr, none⟩) = mem := by
          rw [← hm]
          exact Function.update_eq_self a mem
        rw [this]

section ordered
variable [LinearOrder α] [Inhabited α]

/-- `insert` of a value that is not stored. -/
theorem insert_absent {t : RBTree α} {tr : Tree α} {val : α} {fuel : Nat}
    (hv : t.Valid tr) (hB : tr.Bal) (hN : tr.NoRR) (hR : tr.isRed = false) (hbst : tr.BST)
    (habs : val ∉ tr.inorder) (hf : tr.height < fuel) :
    ∃ (t' : RBTree α) (tr' : Tree α), t.insert fuel val = .ok t' ∧ t'.Valid tr' ∧
      tr'.Bal ∧ tr'.NoRR ∧ tr'.isRed = false ∧ tr'.BST ∧
      (∃ before after, tr.inorder = before ++ after ∧ tr'.inorder = before ++ val :: after ∧
        (∀ x ∈ before, x < val) ∧ (∀ x ∈ after, val < x)) ∧
      t'.m_size = t.m_size + 1 := by
  obtain ⟨t1, p, c, e1, f1, hpl, hpc, hb, ha, b1, s1⟩ := BST_insert_absent hv hbst habs hf
  obtain ⟨hh, hfresh, hsize⟩ := hv
  have hpB : p.Bal 0 := by
    have := (Path.bal_plug p .nil).mp (hpl ▸ hB)
    exact this.2
  have hpN : p.NoRR := ((Path.noRR_plug p .nil).mp (hpl ▸ hN)).2.1
  have hsB : (Tree.node t.brk c val .nil .nil).Bal := by simp [Tree.Bal, Tree.bh]
  have hsN : (Tree.node t.brk c val .nil .nil).NoRR := by simp [Tree.NoRR, Tree.isRed]
  have hpB' : p.Bal (Tree.node t.brk c val .nil .nil).bh := by
    rcases hpc with rfl | rfl
    · trivial
    · exact hpB
  have hd : p.depth ≤ 2 * tr.height := by
    have := Path.height_plug p .nil
    rw [hpl] at this
    simp only [Tree.height] at this
    omega
  obtain ⟨t', tr', e2, hh', h1, h2, h3, h4, h5, h6, h7⟩ :=
    insert_fix_spec tr.height t1 p t.brk c val .nil .nil fuel hd hf f1 hsB hsN hpB' hpN
      (hpl ▸ hR)
  have hin : tr.inorder = p.before ++ p.after := by
    rw [← hpl, Path.inorder_plug]; simp [Tree.inorder]
  have hin' : tr'.inorder = p.before ++ val :: p.after := by
    rw [h4, Path.inorder_plug]; simp [Tree.inorder]
  refine ⟨t', tr', ?_, ⟨hh', ?_, ?_⟩, h1, h2, h3, ?_, ⟨_, _, hin, hin', hb, ha⟩, by omega⟩
  · simp [RBTree.insert, e1, ok_bind, e2]
  · intro a hm
    rw [h5, Path.mem_addrs_plug] at hm
    rw [h6, b1]
    rcases hm with hm | hm
    · simp [Tree.addrs] at hm; omega
    · have := hfresh a (by rw [← hpl, Path.mem_addrs_plug]; exact Or.inr hm)
      omega
  · rw [h7, s1, hsize, Tree.size_eq_of_addrs h5, Path.size_plug_node, hpl]
  · rw [Tree.bst_iff_sorted, hin']
    refine sorted_insert_middle ?_ hb ha
    rw [← hin, ← Tree.bst_iff_sorted]
    exact hbst

/-- `insert` of a value that is stored leaves the whole object as it is. -/
theorem insert_present {t : RBTree α} {tr : Tree α} {val : α} {fuel : Nat}
    (hv : t.Valid tr) (hN : tr.NoRR) (hR : tr.isRed = false) (hbst : tr.BST)
    (hpres : val ∈ tr.inorder) (hf : tr.height < fuel) :
    t.insert fuel val = .ok t := by
  obtain ⟨p, a, c, l, r, e1, f1, hpl⟩ := BST_insert_present hv hbst hpres hf
  obtain ⟨f, rfl⟩ : ∃ f, fuel = f + 1 := ⟨fuel - 1, by omega⟩
  have hstop : c = .m_black ∨ p.isRed = false := by
    have := ((Path.noRR_plug p _).mp (hpl ▸ hN)).2.2
    cases hq : p.isRed
    · exact Or.inr rfl
    · have := this hq
      cases c
      · simp [Tree.isRed] at this
      · exact Or.inl rfl
  have hne : tr ≠ .nil := by
    rintro rfl
    simp [Tree.inorder] at hpres
  simp [RBTree.insert, e1, ok_bind, RBTree.insert_fix, insert_fix_cond_false f1 hstop,
    set_root_black_noop hv.1 hR hne]

end ordered

end jvn

/-! ## The double-black fix-up, case by case
-/

namespace jvn

set_option linter.unusedTactic false
set_option linter.unreachableTactic false
set_option linter.unnecessarySeqFocus false

variable {α : Type}

theorem some_ne_of_ne {a b : Nat} (h : a ≠ b) : (some a = some b) = False := by
  simp [h]

/-- Red sibling on the right: recolour, rotate left at the parent, retry. -/
theorem dbf_red_sibling_left {t : RBTree α} {up : Path α} {x pa sb : Nat} {c pc : m_RB}
    {v pv sv : α} {l r sl sr : Tree α} (f : Nat)
    (h : Foc t (.left pa pc pv up (.node sb .m_red sv sl sr)) (.node x c v l r)) :
    ∃ t1, RBTree.double_black_fix (f + 1) t (some x) = RBTree.double_black_fix f t1 (some x) ∧
      Foc t1 (.left pa .m_red pv (.left sb .m_black sv up sr) sl) (.node x c v l r) ∧
      t1.brk = t.brk ∧ t1.m_size = t.m_size := by
  have hp := Foc_left.mp h
  have hs := Foc_right.mpr hp
  have hn := h.nodup_facts_left
  have hxs : x ≠ sb := fun e => hn.1 (by simp [Tree.addrs, e])
  obtain ⟨t1, e1, f1, b1, s1, _⟩ := set_color_spec hp .m_red
  obtain ⟨t2, e2, f2, b2, s2, _⟩ := set_color_spec (Foc_right.mpr f1) .m_black
  have f2p := Foc_right.mp f2
  obtain ⟨t3, e3, f3, b3, s3⟩ := left_rotate_spec f2p
  refine ⟨t3, ?_, Foc_left.mpr (Foc_left.mpr f3), by omega, by omega⟩
  simp [RBTree.double_black_fix, h.root_ne, sibling_left h, h.deref_root, hs.deref_root,
    ok_bind, pure, Except.pure, e1, e2, f2.deref_root, f2p.deref_root, some_ne_of_ne hxs, e3]

/-- Red sibling on the left: recolour, rotate right at the parent, retry. -/
theorem dbf_red_sibling_right {t : RBTree α} {up : Path α} {x pa sb : Nat} {c pc : m_RB}
    {v pv sv : α} {l r sl sr : Tree α} (f : Nat)
    (h : Foc t (.right pa pc pv (.node sb .m_red sv sl sr) up) (.node x c v l r)) :
    ∃ t1, RBTree.double_black_fix (f + 1) t (some x) = RBTree.double_black_fix f t1 (some x) ∧
      Foc t1 (.right pa .m_red pv sr (.right sb .m_black sv sl up)) (.node x c v l r) ∧
      t1.brk = t.brk ∧ t1.m_size = t.m_size := by
  have hp := Foc_right.mp h
  have hs := Foc_left.mpr hp
  obtain ⟨t1, e1, f1, b1, s1, _⟩ := set_color_spec hp .m_red
  obtain ⟨t2, e2, f2, b2, s2, _⟩ := set_color_spec (Foc_left.mpr f1) .m_black
  have f2p := Foc_left.mp f2
  obtain ⟨t3, e3, f3, b3, s3⟩ := right_rotate_spec f2p
  refine ⟨t3, ?_, Foc_right.mpr (Foc_right.mpr f3), by omega, by omega⟩
  simp [RBTree.double_black_fix, h.root_ne, sibling_right h, h.deref_root, hs.deref_root,
    ok_bind, pure, Except.pure, e1, e2, f2.deref_root, f2p.deref_root, e3]

/-- Black sibling on the right whose left child is red: rotate right at the
sibling, left at the parent. -/
theorem dbf_near_nephew_left {t : RBTree α} {up : Path α} {x pa sb nl : Nat} {c pc : m_RB}
    {v pv sv nlv : α} {l r nll nlr sr : Tree α} (f : Nat)
    (h : Foc t (.left pa pc pv up (.node sb .m_black sv (.node nl .m_red nlv nll nlr) sr))
      (.node x c v l r)) :
    ∃ t1, RBTree.double_black_fix (f + 1) t (some x) = .ok t1 ∧
      Foc t1 (.left pa .m_black pv (.left nl pc nlv up (.node sb .m_black sv nlr sr)) nll)
        (.node x c v l r) ∧
      t1.brk = t.brk ∧ t1.m_size = t.m_size := by
  have hp := Foc_left.mp h
  have hs := Foc_right.mpr hp
  have hnl := Foc_left.mpr hs
  have hn := h.nodup_facts_left
  have hxs : x ≠ sb := fun e => hn.1 (by simp [Tree.addrs, e])
  have hr1 : t.is_red (some nl) = .ok true := is_red_spec hnl
  obtain ⟨t1, e1, f1, b1, s1, _⟩ := set_color_spec hnl pc
  have f1s := Foc_left.mp f1
  obtain ⟨t2, e2, f2, b2, s2⟩ := right_rotate_spec f1s
  obtain ⟨t3, e3, f3, b3, s3⟩ := left_rotate_spec (Foc_right.mp f2)
  obtain ⟨t4, e4, f4, b4, s4, _⟩ := set_color_spec (Foc_left.mpr f3) .m_black
  refine ⟨t4, ?_, Foc_left.mpr f4, by omega, by omega⟩
  simp [RBTree.double_black_fix, h.root_ne, sibling_left h, h.deref_root, hs.deref_root,
    hp.deref_root, ok_bind, pure, Except.pure, hr1, some_ne_of_ne hxs, e1, e2, e3, e4]

/-- Black sibling on the right whose right child is red and whose left child is
not: rotate left at the parent. -/
theorem dbf_far_nephew_left {t : RBTree α} {up : Path α} {x pa sb nr : Nat} {c pc : m_RB}
    {v pv sv nrv : α} {l r sl nrl nrr : Tree α} (f : Nat)
    (h : Foc t (.left pa pc pv up (.node sb .m_black sv sl (.node nr .m_red nrv nrl nrr)))
      (.node x c v l r))
    (hsl : sl.isRed = false) :
    ∃ t1, RBTree.double_black_fix (f + 1) t (some x) = .ok t1 ∧
      Foc t1 (.left pa .m_black pv (.left sb pc sv up (.node nr .m_black nrv nrl nrr)) sl)
        (.node x c v l r) ∧
      t1.brk = t.brk ∧ t1.m_size = t.m_size := by
  have hp := Foc_left.mp h
  have hs := Foc_right.mpr hp
  have hnr := Foc_right.mpr hs
  have hn := h.nodup_facts_left
  have hxs : x ≠ sb := fun e => hn.1 (by simp [Tree.addrs, e])
  have hr1 : t.is_red sl.ptr = .ok false := hsl ▸ is_red_spec (Foc_left.mpr hs)
  have hr2 : t.is_red (some nr) = .ok true := is_red_spec hnr
  obtain ⟨t1, e1, f1, b1, s1, _⟩ := set_color_spec hnr .m_black
  have f1s := Foc_right.mp f1
  have f1p := Foc_right.mp f1s
  obtain ⟨t2, e2, f2, b2, s2, _⟩ := set_color_spec f1s pc
  obtain ⟨t3, e3, f3, b3, s3⟩ := left_rotate_spec (Foc_right.mp f2)
  obtain ⟨t4, e4, f4, b4, s4, _⟩ := set_color_spec (Foc_left.mpr f3) .m_black
  refine ⟨t4, ?_, Foc_left.mpr f4, by omega, by omega⟩
  simp [RBTree.double_black_fix, h.root_ne, sibling_left h, h.deref_root, hs.deref_root,
    hp.deref_root, ok_bind, pure, Except.pure, hr1, hr2, some_ne_of_ne hxs, e1, e2, e3, e4,
    f1p.deref_root]

/-- Black sibling on the left whose left child is red: rotate right at the
parent. -/
theorem dbf_far_nephew_right {t : RBTree α} {up : Path α} {x pa sb nl : Nat} {c pc : m_RB}
    {v pv sv nlv : α} {l r nll nlr sr : Tree α} (f : Nat)
    (h : Foc t (.right pa pc pv (.node sb .m_black sv (.node nl .m_red nlv nll nlr) sr) up)
      (.node x c v l r)) :
    ∃ t1, RBTree.double_black_fix (f + 1) t (some x) = .ok t1 ∧
      Foc t1 (.right pa .m_black pv sr (.right sb pc sv (.node nl .m_black nlv nll nlr) up))
        (.node x c v l r) ∧
      t1.brk = t.brk ∧ t1.m_size = t.m_size := by
  have hp := Foc_right.mp h
  have hs := Foc_left.mpr hp
  have hnl := Foc_left.mpr hs
  have hr1 : t.is_red (some nl) = .ok true := is_red_spec hnl
  obtain ⟨t1, e1, f1, b1, s1, _⟩ := set_color_spec hnl .m_black
  have f1s := Foc_left.mp f1
  have f1p := Foc_left.mp f1s
  obtain ⟨t2, e2, f2, b2, s2, _⟩ := set_color_spec f1s pc
  obtain ⟨t3, e3, f3, b3, s3⟩ := right_rotate_spec (Foc_left.mp f2)
  obtain ⟨t4, e4, f4, b4, s4, _⟩ := set_color_spec (Foc_right.mpr f3) .m_black
  refine ⟨t4, ?_, Foc_right.mpr f4, by omega, by omega⟩
  simp [RBTree.double_black_fix, h.root_ne, sibling_right h, h.deref_root, hs.deref_root,
    hp.deref_root, ok_bind, pure, Except.pure, hr1, e1, e2, e3, e4, f1p.deref_root]

/-- Black sibling on the left whose right child is red and whose left child is
not: rotate left at the sibling, right at the parent. -/
theorem dbf_near_nephew_right {t : RBTree α} {up : Path α} {x pa sb nr : Nat} {c pc : m_RB}
    {v pv sv nrv : α} {l r sl nrl nrr : Tree α} (f : Nat)
    (h : Foc t (.right pa pc pv (.node sb .m_black sv sl (.node nr .m_red nrv nrl nrr)) up)
      (.node x c v l r))
    (hsl : sl.isRed = false) :
    ∃ t1, RBTree.double_black_fix (f + 1) t (some x) = .ok t1 ∧
      Foc t1 (.right pa .m_black pv nrr (.right nr pc nrv (.node sb .m_black sv sl nrl) up))
        (.node x c v l r) ∧
      t1.brk = t.brk ∧ t1.m_size = t.m_size := by
  have hp := Foc_right.mp h
  have hs := Foc_left.mpr hp
  have hnr := Foc_right.mpr hs
  have hr1 : t.is_red sl.ptr = .ok false := hsl ▸ is_red_spec (Foc_left.mpr hs)
  have hr2 : t.is_red (some nr) = .ok true := is_red_spec hnr
  obtain ⟨t1, e1, f1, b1, s1, _⟩ := set_color_spec hnr pc
  have f1s := Foc_right.mp f1
  obtain ⟨t2, e2, f2, b2, s2⟩ := left_rotate_spec f1s
  obtain ⟨t3, e3, f3, b3, s3⟩ := right_rotate_spec (Foc_left.mp f2)
  obtain ⟨t4, e4, f4, b4, s4, _⟩ := set_color_spec (Foc_right.mpr f3) .m_black
  refine ⟨t4, ?_, Foc_right.mpr f4, by omega, by omega⟩
  simp [RBTree.double_black_fix, h.root_ne, sibling_right h, h.deref_root, hs.deref_root,
    hp.deref_root, ok_bind, pure, Except.pure, hr1, hr2, e1, e2, e3, e4]

/-- Black sibling on the right without red child: the sibling turns red; a red
parent turns black and the fix-up ends, a black parent takes over the
deficiency. -/
theorem dbf_no_red_nephew_left {t : RBTree α} {up : Path α} {x pa sb : Nat} {c pc : m_RB}
    {v pv sv : α} {l r sl sr : Tree α} (f : Nat)
    (h : Foc t (.left pa pc pv up (.node sb .m_black sv sl sr)) (.node x c v l r))
    (hsl : sl.isRed = false) (hsr : sr.isRed = false) :
    ∃ t1 t2, Foc t1 (.left pa pc pv up (.node sb .m_red sv sl sr)) (.node x c v l r) ∧
      Foc t2 (.left pa .m_black pv up (.node sb .m_red sv sl sr)) (.node x c v l r) ∧
      RBTree.double_black_fix (f + 1) t (some x) =
        (if pc = .m_black then RBTree.double_black_fix f t1 (some pa) else .ok t2) ∧
      t1.brk = t.brk ∧ t1.m_size = t.m_size ∧ t2.brk = t.brk ∧ t2.m_size = t.m_size := by
  have hp := Foc_left.mp h
  have hs := Foc_right.mpr hp
  have hr1 : t.is_red sl.ptr = .ok false := hsl ▸ is_red_spec (Foc_left.mpr hs)
  have hr2 : t.is_red sr.ptr = .ok false := hsr ▸ is_red_spec (Foc_right.mpr hs)
  obtain ⟨t1, e1, f1, b1, s1, _⟩ := set_color_spec hs .m_red
  have f1p := Foc_right.mp f1
  obtain ⟨t2, e2, f2, b2, s2, _⟩ := set_color_spec f1p .m_black
  refine ⟨t1, t2, Foc_left.mpr f1p, Foc_left.mpr f2, ?_, b1, s1, by omega, by omega⟩
  cases pc <;>
  simp [RBTree.double_black_fix, h.root_ne, sibling_left h, h.deref_root, hs.deref_root,
    ok_bind, pure, Except.pure, hr1, hr2, e1, e2, f1p.deref_root]

/-- Black sibling on the left without red child: the sibling turns red; a red
parent turns black and the fix-up ends, a black parent takes over the
deficiency. -/
theorem dbf_no_red_nephew_right {t : RBTree α} {up : Path α} {x pa sb : Nat} {c pc : m_RB}
    {v pv sv : α} {l r sl sr : Tree α} (f : Nat)
    (h : Foc t (.right pa pc pv (.node sb .m_black sv sl sr) up) (.node x c v l r))
    (hsl : sl.isRed = false) (hsr : sr.isRed = false) :
    ∃ t1 t2, Foc t1 (.right pa pc pv (.node sb .m_red sv sl sr) up) (.node x c v l r) ∧
      Foc t2 (.right pa .m_black pv (.node sb .m_red sv sl sr) up) (.node x c v l r) ∧
      RBTree.double_black_fix (f + 1) t (some x) =
        (if pc = .m_black then RBTree.double_black_fix f t1 (some pa) else .ok t2) ∧
      t1.brk = t.brk ∧ t1.m_size = t.m_size ∧ t2.brk = t.brk ∧ t2.m_size = t.m_size := by
  have hp := Foc_right.mp h
  have hs := Foc_left.mpr hp
  have hr1 : t.is_red sl.ptr = .ok false := hsl ▸ is_red_spec (Foc_left.mpr hs)
  have hr2 : t.is_red sr.ptr = .ok false := hsr ▸ is_red_spec (Foc_right.mpr hs)
  obtain ⟨t1, e1, f1, b1, s1, _⟩ := set_color_spec hs .m_red
  have f1p := Foc_left.mp f1
  obtain ⟨t2, e2, f2, b2, s2, _⟩ := set_color_spec f1p .m_black
  refine ⟨t1, t2, Foc_right.mpr f1p, Foc_right.mpr f2, ?_, b1, s1, by omega, by omega⟩
  cases pc <;>
  simp [RBTree.double_black_fix, h.root_ne, sibling_right h, h.deref_root, hs.deref_root,
    ok_bind, pure, Except.pure, hr1, hr2, e1, e2, f1p.deref_root]

end jvn

/-! ## The double-black fix-up as a whole
-/

namespace jvn

set_option linter.unusedTactic false
set_option linter.unreachableTactic false
set_option linter.unnecessarySeqFocus false
set_option linter.unusedVariables false

variable {α : Type}

theorem Tree.isRed_false_cases {s : Tree α} (h : s.isRed = false) :
    s = .nil ∨ ∃ a v l r, s = .node a .m_black v l r := by
  cases s with
  | nil => exact Or.inl rfl
  | node a c v l r =>
    cases c
    · simp [Tree.isRed] at h
    · exact Or.inr ⟨a, v, l, r, rfl⟩

theorem Tree.isRed_true_cases {s : Tree α} (h : s.isRed = true) :
    ∃ a v l r, s = .node a .m_red v l r := by
  cases s with
  | nil => simp [Tree.isRed] at h
  | node a c v l r =>
    cases c
    · exact ⟨a, v, l, r, rfl⟩
    · simp [Tree.isRed] at h

/-- One call of `double_black_fix` at a left child with a black sibling: the
deficiency is repaired, or it moves to the (black) parent. -/
theorem dbf_black_step_left {t : RBTree α} {up : Path α} {x pa : Nat} {c pc : m_RB}
    {v pv : α} {l r S : Tree α} (f k : Nat)
    (h : Foc t (.left pa pc pv up S) (.node x c v l r)) (hS : S.isRed = false)
    (hpB : (Path.left pa pc pv up S).Bal (k + 1)) (hpN : (Path.left pa pc pv up S).NoRR)
    (hroot : ((Path.left pa pc pv up S).plug .nil).isRed = false) :
    (∃ (t' : RBTree α) (p' : Path α),
        RBTree.double_black_fix (f + 1) t (some x) = .ok t' ∧
        Foc t' p' (.node x c v l r) ∧ p'.Bal k ∧ p'.NoRR ∧ p'.isRed = false ∧
        (p'.plug .nil).isRed = false ∧ p'.before = (Path.left pa pc pv up S).before ∧ p'.after = (Path.left pa pc pv up S).after ∧
        p'.addrsBefore = (Path.left pa pc pv up S).addrsBefore ∧ p'.addrsAfter = (Path.left pa pc pv up S).addrsAfter ∧
        p'.ptr = (Path.left pa pc pv up S).ptr ∧ p'.depth ≤ (Path.left pa pc pv up S).depth + 1 ∧
        t'.brk = t.brk ∧ t'.m_size = t.m_size) ∨
    (pc = .m_black ∧ ∃ (t1 : RBTree α) (S' : Tree α),
        RBTree.double_black_fix (f + 1) t (some x) = RBTree.double_black_fix f t1 (some pa) ∧
        Foc t1 up (.node pa .m_black pv (.node x c v l r) S') ∧ S'.bh = k ∧ S'.Bal ∧ S'.NoRR ∧
        S'.inorder = S.inorder ∧ S'.addrs = S.addrs ∧ t1.brk = t.brk ∧ t1.m_size = t.m_size) := by
  rcases Tree.isRed_false_cases hS with rfl | ⟨sb, sv, sl, sr, rfl⟩
  · cases pc <;> simp [Path.Bal, Tree.bh] at hpB
  rcases hsl : sl.isRed with _ | _
  · rcases hsr : sr.isRed with _ | _
    · obtain ⟨t1, t2, f1, f2, e, b1, s1, b2, s2⟩ := dbf_no_red_nephew_left f h hsl hsr
      cases pc
      · left
        simp only [Path.Bal, Path.NoRR, Tree.Bal, Tree.NoRR, Tree.bh, Path.isRed_left, Path.isRed_right, Tree.isRed_node, decide_eq_false_iff_not, decide_eq_true_eq, true_implies, reduceCtorEq, false_implies, true_and, not_false_eq_true, and_true, not_true_eq_false, implies_true, Nat.add_right_cancel_iff, and_self] at hpB hpN
        obtain ⟨hSh, ⟨hSlr, hSlB, hSrB⟩, hupB⟩ := hpB
        obtain ⟨⟨hSlN, hSrN⟩, hupc, hupN⟩ := hpN
        refine ⟨t2, (.left pa .m_black pv up (.node sb .m_red sv sl sr)), by simpa using e, f2, ?_, ?_, ?_, ?_, ?_, ?_, ?_, ?_, ?_, ?_, b2, s2⟩
        · simp only [Path.Bal, Tree.Bal, Tree.bh] at *; (try casesm* _ ∧ _); and_intros <;> first | assumption | omega
        · simp only [Path.NoRR, Tree.NoRR, Tree.isRed_node, Path.isRed_left, Path.isRed_right] at *; (try casesm* _ ∧ _); simp [*]
        · rfl
        · have hut : up ≠ .top := by
            rintro rfl
            simp [Path.plug, Tree.isRed] at hroot
          rw [← hroot]; simp only [Path.plug]; exact Path.isRed_plug_of_ne_top _ hut _ _
        · simp [Path.before, Tree.inorder]
        · simp [Path.after, Tree.inorder]
        · simp [Path.addrsBefore, Tree.addrs]
        · simp [Path.addrsAfter, Tree.addrs]
        · rfl
        · simp [Path.depth]
      · right
        simp only [Path.Bal, Path.NoRR, Tree.Bal, Tree.NoRR, Tree.bh, Path.isRed_left, Path.isRed_right, Tree.isRed_node, decide_eq_false_iff_not, decide_eq_true_eq, true_implies, reduceCtorEq, false_implies, true_and, not_false_eq_true, and_true, not_true_eq_false, implies_true, Nat.add_right_cancel_iff, and_self] at hpB hpN
        obtain ⟨hSh, ⟨hSlr, hSlB, hSrB⟩, hupB⟩ := hpB
        obtain ⟨⟨hSlN, hSrN⟩, hupN⟩ := hpN
        refine ⟨rfl, t1, .node sb .m_red sv sl sr, by simpa using e, Foc_left.mp f1, ?_, ?_, ?_, rfl, rfl, b1, s1⟩
        · simp only [Tree.bh]; omega
        · exact ⟨hSlr, hSlB, hSrB⟩
        · simp [Tree.NoRR, hsl, hsr, hSlN, hSrN]
    · obtain ⟨nr, nrv, nrl, nrr, rfl⟩ := Tree.isRed_true_cases hsr
      obtain ⟨t1, e, f1, b1, s1⟩ := dbf_far_nephew_left f h hsl
      left
      cases pc <;>
      simp only [Path.Bal, Path.NoRR, Tree.Bal, Tree.NoRR, Tree.bh, Path.isRed_left, Path.isRed_right, Tree.isRed_node, decide_eq_false_iff_not, decide_eq_true_eq, true_implies, reduceCtorEq, false_implies, true_and, not_false_eq_true, and_true, not_true_eq_false, implies_true, Nat.add_right_cancel_iff, and_self] at hpB hpN <;>
      refine ⟨t1, _, e, f1, ?_, ?_, ?_, ?_, ?_, ?_, ?_, ?_, ?_, ?_, b1, s1⟩
      · simp only [Path.Bal, Tree.Bal, Tree.bh] at *; (try casesm* _ ∧ _); and_intros <;> first | assumption | omega
      · simp only [Path.NoRR, Tree.NoRR, Tree.isRed_node, Path.isRed_left, Path.isRed_right] at *; (try casesm* _ ∧ _); simp [*]
      · rfl
      · rw [← hroot]; simp only [Path.plug]; exact Path.isRed_plug_congr _ _ _ rfl
      · simp [Path.before, Tree.inorder]
      · simp [Path.after, Tree.inorder]
      · simp [Path.addrsBefore, Tree.addrs]
      · simp [Path.addrsAfter, Tree.addrs]
      · rfl
      · simp [Path.depth]
      · simp only [Path.Bal, Tree.Bal, Tree.bh] at *; (try casesm* _ ∧ _); and_intros <;> first | assumption | omega
      · simp only [Path.NoRR, Tree.NoRR, Tree.isRed_node, Path.isRed_left, Path.isRed_right] at *; (try casesm* _ ∧ _); simp [*]
      · rfl
      · rw [← hroot]; simp only [Path.plug]; exact Path.isRed_plug_congr _ _ _ rfl
      · simp [Path.before, Tree.inorder]
      · simp [Path.after, Tree.inorder]
      · simp [Path.addrsBefore, Tree.addrs]
      · simp [Path.addrsAfter, Tree.addrs]
      · rfl
      · simp [Path.depth]
  · obtain ⟨nl, nlv, nll, nlr, rfl⟩ := Tree.isRed_true_cases hsl
    obtain ⟨t1, e, f1, b1, s1⟩ := dbf_near_nephew_left f h
    left
    cases pc <;>
    simp only [Path.Bal, Path.NoRR, Tree.Bal, Tree.NoRR, Tree.bh, Path.isRed_left, Path.isRed_right, Tree.isRed_node, decide_eq_false_iff_not, decide_eq_true_eq, true_implies, reduceCtorEq, false_implies, true_and, not_false_eq_true, and_true, not_true_eq_false, implies_true, Nat.add_right_cancel_iff, and_self] at hpB hpN <;>
    refine ⟨t1, _, e, f1, ?_, ?_, ?_, ?_, ?_, ?_, ?_, ?_, ?_, ?_, b1, s1⟩
    · simp only [Path.Bal, Tree.Bal, Tree.bh] at *; (try casesm* _ ∧ _); and_intros <;> first | assumption | omega
    · simp only [Path.NoRR, Tree.NoRR, Tree.isRed_node, Path.isRed_left, Path.isRed_right] at *; (try casesm* _ ∧ _); simp [*]
    · rfl
    · rw [← hroot]; simp only [Path.plug]; exact Path.isRed_plug_congr _ _ _ rfl
    · simp [Path.before, Tree.inorder]
    · simp [Path.after, Tree.inorder]
    · simp [Path.addrsBefore, Tree.addrs]
    · simp [Path.addrsAfter, Tree.addrs]
    · rfl
    · simp [Path.depth]
    · simp only [Path.Bal, Tree.Bal, Tree.bh] at *; (try casesm* _ ∧ _); and_intros <;> first | assumption | omega
    · simp only [Path.NoRR, Tree.NoRR, Tree.isRed_node, Path.isRed_left, Path.isRed_right] at *; (try casesm* _ ∧ _); simp [*]
    · rfl
    · rw [← hroot]; simp only [Path.plug]; exact Path.isRed_plug_congr _ _ _ rfl
    · simp [Path.before, Tree.inorder]
    · simp [Path.after, Tree.inorder]
    · simp [Path.addrsBefore, Tree.addrs]
    · simp [Path.addrsAfter, Tree.addrs]
    · rfl
    · simp [Path.depth]

/-- One call of `double_black_fix` at a right child with a black sibling: the
deficiency is repaired, or it moves to the (black) parent. -/
theorem dbf_black_step_right {t : RBTree α} {up : Path α} {x pa : Nat} {c pc : m_RB}
    {v pv : α} {l r S : Tree α} (f k : Nat)
    (h : Foc t (.right pa pc pv S up) (.node x c v l r)) (hS : S.isRed = false)
    (hpB : (Path.right pa pc pv S up).Bal (k + 1)) (hpN : (Path.right pa pc pv S up).NoRR)
    (hroot : ((Path.right pa pc pv S up).plug .nil).isRed = false) :
    (∃ (t' : RBTree α) (p' : Path α),
        RBTree.double_black_fix (f + 1) t (some x) = .ok t' ∧
        Foc t' p' (.node x c v l r) ∧ p'.Bal k ∧ p'.NoRR ∧ p'.isRed = false ∧
        (p'.plug .nil).isRed = false ∧ p'.before = (Path.right pa pc pv S up).before ∧ p'.after = (Path.right pa pc pv S up).after ∧
        p'.addrsBefore = (Path.right pa pc pv S up).addrsBefore ∧ p'.addrsAfter = (Path.right pa pc pv S up).addrsAfter ∧
        p'.ptr = (Path.right pa pc pv S up).ptr ∧ p'.depth ≤ (Path.right pa pc pv S up).depth + 1 ∧
        t'.brk = t.brk ∧ t'.m_size = t.m_size) ∨
    (pc = .m_black ∧ ∃ (t1 : RBTree α) (S' : Tree α),
        RBTree.double_black_fix (f + 1) t (some x) = RBTree.double_black_fix f t1 (some pa) ∧
        Foc t1 up (.node pa .m_black pv S' (.node x c v l r)) ∧ S'.bh = k ∧ S'.Bal ∧ S'.NoRR ∧
        S'.inorder = S.inorder ∧ S'.addrs = S.addrs ∧ t1.brk = t.brk ∧ t1.m_size = t.m_size) := by
  rcases Tree.isRed_false_cases hS with rfl | ⟨sb, sv, sl, sr, rfl⟩
  · cases pc <;> simp [Path.Bal, Tree.bh] at hpB
  rcases hsl : sl.isRed with _ | _
  · rcases hsr : sr.isRed with _ | _
    · obtain ⟨t1, t2, f1, f2, e, b1, s1, b2, s2⟩ := dbf_no_red_nephew_right f h hsl hsr
      cases pc
      · left
        simp only [Path.Bal, Path.NoRR, Tree.Bal, Tree.NoRR, Tree.bh, Path.isRed_left, Path.isRed_right, Tree.isRed_node, decide_eq_false_iff_not, decide_eq_true_eq, true_implies, reduceCtorEq, false_implies, true_and, not_false_eq_true, and_true, not_true_eq_false, implies_true, Nat.add_right_cancel_iff, and_self] at hpB hpN
        obtain ⟨hSh, ⟨hSlr, hSlB, hSrB⟩, hupB⟩ := hpB
        obtain ⟨⟨hSlN, hSrN⟩, hupc, hupN⟩ := hpN
        refine ⟨t2, (.right pa .m_black pv (.node sb .m_red sv sl sr) up), by simpa using e, f2, ?_, ?_, ?_, ?_, ?_, ?_, ?_, ?_, ?_, ?_, b2, s2⟩
        · simp only [Path.Bal, Tree.Bal, Tree.bh] at *; (try casesm* _ ∧ _); and_intros <;> first | assumption | omega
        · simp only [Path.NoRR, Tree.NoRR, Tree.isRed_node, Path.isRed_left, Path.isRed_right] at *; (try casesm* _ ∧ _); simp [*]
        · rfl
        · have hut : up ≠ .top := by
            rintro rfl
            simp [Path.plug, Tree.isRed] at hroot
          rw [← hroot]; simp only [Path.plug]; exact Path.isRed_plug_of_ne_top _ hut _ _
        · simp [Path.before, Tree.inorder]
        · simp [Path.after, Tree.inorder]
        · simp [Path.addrsBefore, Tree.addrs]
        · simp [Path.addrsAfter, Tree.addrs]
        · rfl
        · simp [Path.depth]
      · right
        simp only [Path.Bal, Path.NoRR, Tree.Bal, Tree.NoRR, Tree.bh, Path.isRed_left, Path.isRed_right, Tree.isRed_node, decide_eq_false_iff_not, decide_eq_true_eq, true_implies, reduceCtorEq, false_implies, true_and, not_false_eq_true, and_true, not_true_eq_false, implies_true, Nat.add_right_cancel_iff, and_self] at hpB hpN
        obtain ⟨hSh, ⟨hSlr, hSlB, hSrB⟩, hupB⟩ := hpB
        obtain ⟨⟨hSlN, hSrN⟩, hupN⟩ := hpN
        refine ⟨rfl, t1, .node sb .m_red sv sl sr, by simpa using e, Foc_right.mp f1, ?_, ?_, ?_, rfl, rfl, b1, s1⟩
        · simp only [Tree.bh]; omega
        · exact ⟨hSlr, hSlB, hSrB⟩
        · simp [Tree.NoRR, hsl, hsr, hSlN, hSrN]
    · obtain ⟨nr, nrv, nrl, nrr, rfl⟩ := Tree.isRed_true_cases hsr
      obtain ⟨t1, e, f1, b1, s1⟩ := dbf_near_nephew_right f h hsl
      left
      cases pc <;>
      simp only [Path.Bal, Path.NoRR, Tree.Bal, Tree.NoRR, Tree.bh, Path.isRed_left, Path.isRed_right, Tree.isRed_node, decide_eq_false_iff_not, decide_eq_true_eq, true_implies, reduceCtorEq, false_implies, true_and, not_false_eq_true, and_true, not_true_eq_false, implies_true, Nat.add_right_cancel_iff, and_self] at hpB hpN <;>
      refine ⟨t1, _, e, f1, ?_, ?_, ?_, ?_, ?_, ?_, ?_, ?_, ?_, ?_, b1, s1⟩
      · simp only [Path.Bal, Tree.Bal, Tree.bh] at *; (try casesm* _ ∧ _); and_intros <;> first | assumption | omega
      · simp only [Path.NoRR, Tree.NoRR, Tree.isRed_node, Path.isRed_left, Path.isRed_right] at *; (try casesm* _ ∧ _); simp [*]
      · rfl
      · rw [← hroot]; simp only [Path.plug]; exact Path.isRed_plug_congr _ _ _ rfl
      · simp [Path.before, Tree.inorder]
      · simp [Path.after, Tree.inorder]
      · simp [Path.addrsBefore, Tree.addrs]
      · simp [Path.addrsAfter, Tree.addrs]
      · rfl
      · simp [Path.depth]
      · simp only [Path.Bal, Tree.Bal, Tree.bh] at *; (try casesm* _ ∧ _); and_intros <;> first | assumption | omega
      · simp only [Path.NoRR, Tree.NoRR, Tree.isRed_node, Path.isRed_left, Path.isRed_right] at *; (try casesm* _ ∧ _); simp [*]
      · rfl
      · rw [← hroot]; simp only [Path.plug]; exact Path.isRed_plug_congr _ _ _ rfl
      · simp [Path.before, Tree.inorder]
      · simp [Path.after, Tree.inorder]
      · simp [Path.addrsBefore, Tree.addrs]
      · simp [Path.addrsAfter, Tree.addrs]
      · rfl
      · simp [Path.depth]
  · obtain ⟨nl, nlv, nll, nlr, rfl⟩ := Tree.isRed_true_cases hsl
    obtain ⟨t1, e, f1, b1, s1⟩ := dbf_far_nephew_right f h
    left
    cases pc <;>
    simp only [Path.Bal, Path.NoRR, Tree.Bal, Tree.NoRR, Tree.bh, Path.isRed_left, Path.isRed_right, Tree.isRed_node, decide_eq_false_iff_not, decide_eq_true_eq, true_implies, reduceCtorEq, false_implies, true_and, not_false_eq_true, and_true, not_true_eq_false, implies_true, Nat.add_right_cancel_iff, and_self] at hpB hpN <;>
    refine ⟨t1, _, e, f1, ?_, ?_, ?_, ?_, ?_, ?_, ?_, ?_, ?_, ?_, b1, s1⟩
    · simp only [Path.Bal, Tree.Bal, Tree.bh] at *; (try casesm* _ ∧ _); and_intros <;> first | assumption | omega
    · simp only [Path.NoRR, Tree.NoRR, Tree.isRed_node, Path.isRed_left, Path.isRed_right] at *; (try casesm* _ ∧ _); simp [*]
    · rfl
    · rw [← hroot]; simp only [Path.plug]; exact Path.isRed_plug_congr _ _ _ rfl
    · simp [Path.before, Tree.inorder]
    · simp [Path.after, Tree.inorder]
    · simp [Path.addrsBefore, Tree.addrs]
    · simp [Path.addrsAfter, Tree.addrs]
    · rfl
    · simp [Path.depth]
    · simp only [Path.Bal, Tree.Bal, Tree.bh] at *; (try casesm* _ ∧ _); and_intros <;> first | assumption | omega
    · simp only [Path.NoRR, Tree.NoRR, Tree.isRed_node, Path.isRed_left, Path.isRed_right] at *; (try casesm* _ ∧ _); simp [*]
    · rfl
    · rw [← hroot]; simp only [Path.plug]; exact Path.isRed_plug_congr _ _ _ rfl
    · simp [Path.before, Tree.inorder]
    · simp [Path.after, Tree.inorder]
    · simp [Path.addrsBefore, Tree.addrs]
    · simp [Path.addrsAfter, Tree.addrs]
    · rfl
    · simp [Path.depth]

/-- `double_black_fix` at a node whose side of the tree is one black node short
returns, and afterwards the black heights agree again when the hole left by the
node is filled with a tree of the smaller black height; nothing else about the
tree changes except by rotations and recolourings. -/
theorem double_black_fix_spec (n : Nat) :
    ∀ (t : RBTree α) (p : Path α) (x : Nat) (c : m_RB) (v : α) (l r : Tree α) (k fuel : Nat),
      p.depth ≤ n → n + 2 ≤ fuel → Foc t p (.node x c v l r) →
      p.Bal (k + 1) → p.NoRR → (p.plug .nil).isRed = false →
      ∃ (t' : RBTree α) (p' : Path α),
        RBTree.double_black_fix fuel t (some x) = .ok t' ∧
        Foc t' p' (.node x c v l r) ∧ p'.Bal k ∧ p'.NoRR ∧ p'.isRed = false ∧
        (p'.plug .nil).isRed = false ∧ p'.before = p.before ∧ p'.after = p.after ∧
        p'.addrsBefore = p.addrsBefore ∧ p'.addrsAfter = p.addrsAfter ∧
        p'.ptr = p.ptr ∧ p'.depth ≤ p.depth + 2 ∧
        t'.brk = t.brk ∧ t'.m_size = t.m_size := by
  induction n with
  | zero =>
    intro t p x c v l r k fuel hd hf h hpB hpN hroot
    obtain ⟨f, rfl⟩ : ∃ f, fuel = f + 1 := ⟨fuel - 1, by omega⟩
    have hp : p = .top := by cases p <;> simp [Path.depth] at hd ⊢
    subst hp
    refine ⟨t, .top, ?_, h, trivial, trivial, rfl, rfl, rfl, rfl, rfl, rfl, rfl, by simp, rfl, rfl⟩
    simp [RBTree.double_black_fix, h.root_eq, pure, Except.pure]
  | succ n ih =>
    intro t p x c v l r k fuel hd hf h hpB hpN hroot
    obtain ⟨f, rfl⟩ : ∃ f, fuel = f + 1 := ⟨fuel - 1, by omega⟩
    rcases p with _ | ⟨pa, pc, pv, up, S⟩ | ⟨pa, pc, pv, S, up⟩
    · refine ⟨t, .top, ?_, h, trivial, trivial, rfl, rfl, rfl, rfl, rfl, rfl, rfl, by simp, rfl, rfl⟩
      simp [RBTree.double_black_fix, h.root_eq, pure, Except.pure]
    · rcases hS : S.isRed with _ | _
      · rcases dbf_black_step_left f k h hS hpB hpN hroot with
          ⟨t', p', e, hpost⟩ | ⟨hpc, t1, S', e, f1, hS'h, hS'B, hS'N, hS'i, hS'a, b1, s1⟩
        · obtain ⟨q1, q2, q3, q4, q5, q6, q7, q8, q9, q10, q11, q12, q13⟩ := hpost
          exact ⟨t', p', e, q1, q2, q3, q4, q5, q6, q7, q8, q9, q10, by omega, q12, q13⟩
        · subst hpc
          simp only [Path.Bal, Path.NoRR, reduceCtorEq, false_implies, true_and] at hpB hpN
          have hup : (up.plug .nil).isRed = false := by
            rw [← hroot]; simp only [Path.plug]; exact Path.isRed_plug_congr _ _ _ rfl
          obtain ⟨t', up', e2, f2, hB2, hN2, hR2, hroot2, hb2, ha2, hab2, haa2, hptr2, hd2,
            hbrk2, hs2⟩ :=
            ih t1 up pa .m_black pv _ _ (k + 1) f (by simp [Path.depth] at hd; omega) (by omega) f1
              hpB.2.2 hpN.2 hup
          refine ⟨t', .left pa .m_black pv up' S', e.trans e2, Foc_left.mpr f2, ?_, ?_, rfl, ?_, ?_, ?_, ?_, ?_,
            rfl, ?_, by omega, by omega⟩
          · simp only [Path.Bal]; exact ⟨hS'h, hS'B, hB2⟩
          · simp only [Path.NoRR, reduceCtorEq, false_implies, true_and]; exact ⟨hS'N, hN2⟩
          · rw [← hroot2]; simp only [Path.plug]; exact Path.isRed_plug_congr _ _ _ rfl
          · simp [Path.before, hb2, hS'i]
          · simp [Path.after, ha2, hS'i]
          · simp [Path.addrsBefore, hab2, hS'a]
          · simp [Path.addrsAfter, haa2, hS'a]
          · simp only [Path.depth]; omega
      · obtain ⟨sb, sv, sl, sr, rfl⟩ := Tree.isRed_true_cases hS
        obtain ⟨g, rfl⟩ : ∃ g, f = g + 1 := ⟨f - 1, by omega⟩
        obtain ⟨t1, e1, f1, b1, s1⟩ := dbf_red_sibling_left (g + 1) h
        have hpc : pc = .m_black := by
          cases pc
          · simp [Path.NoRR, Tree.isRed] at hpN
          · rfl
        subst hpc
        simp only [Path.Bal, Path.NoRR, Tree.Bal, Tree.NoRR, Tree.bh, reduceCtorEq, false_implies,
          true_and, true_implies] at hpB hpN
        obtain ⟨hSh, ⟨hSlr, hSlB, hSrB⟩, hupB⟩ := hpB
        obtain ⟨⟨⟨hslc, hsrc⟩, hSlN, hSrN⟩, hupN⟩ := hpN
        have hsib : sl.isRed = false := hslc
        rcases dbf_black_step_left g k f1 hsib
            (by simp only [Path.Bal]; and_intros <;> first | assumption | omega)
            (by simp only [Path.NoRR, Tree.isRed_node, Path.isRed_left, Path.isRed_right]; simp [*])
            (by rw [← hroot]; simp only [Path.plug]; exact Path.isRed_plug_congr _ _ _ rfl)
          with ⟨t', p', e, f2, hB2, hN2, hR2, hroot2, hb2, ha2, hab2, haa2, hptr2, hd2, hbrk2, hs2⟩ |
            ⟨hpc, _⟩
        · refine ⟨t', p', e1.trans e, f2, hB2, hN2, hR2, hroot2, ?_, ?_, ?_, ?_, hptr2, ?_,
            by omega, by omega⟩
          · simp [hb2, Path.before, Tree.inorder]
          · simp [ha2, Path.after, Tree.inorder]
          · simp [hab2, Path.addrsBefore, Tree.addrs]
          · simp [haa2, Path.addrsAfter, Tree.addrs]
          · simp only [Path.depth] at hd2 ⊢; omega
        · cases hpc
    · rcases hS : S.isRed with _ | _
      · rcases dbf_black_step_right f k h hS hpB hpN hroot with
          ⟨t', p', e, hpost⟩ | ⟨hpc, t1, S', e, f1, hS'h, hS'B, hS'N, hS'i, hS'a, b1, s1⟩
        · obtain ⟨q1, q2, q3, q4, q5, q6, q7, q8, q9, q10, q11, q12, q13⟩ := hpost
          exact ⟨t', p', e, q1, q2, q3, q4, q5, q6, q7, q8, q9, q10, by omega, q12, q13⟩
        · subst hpc
          simp only [Path.Bal, Path.NoRR, reduceCtorEq, false_implies, true_and] at hpB hpN
          have hup : (up.plug .nil).isRed = false := by
            rw [← hroot]; simp only [Path.plug]; exact Path.isRed_plug_congr _ _ _ rfl
          obtain ⟨t', up', e2, f2, hB2, hN2, hR2, hroot2, hb2, ha2, hab2, haa2, hptr2, hd2,
            hbrk2, hs2⟩ :=
            ih t1 up pa .m_black pv _ _ (k + 1) f (by simp [Path.depth] at hd; omega) (by omega) f1
              hpB.2.2 hpN.2 hup
          refine ⟨t', .right pa .m_black pv S' up', e.trans e2, Foc_right.mpr f2, ?_, ?_, rfl, ?_, ?_, ?_, ?_, ?_,
            rfl, ?_, by omega, by omega⟩
          · simp only [Path.Bal]; exact ⟨hS'h, hS'B, hB2⟩
          · simp only [Path.NoRR, reduceCtorEq, false_implies, true_and]; exact ⟨hS'N, hN2⟩
          · rw [← hroot2]; simp only [Path.plug]; exact Path.isRed_plug_congr _ _ _ rfl
          · simp [Path.before, hb2, hS'i]
          · simp [Path.after, ha2, hS'i]
          · simp [Path.addrsBefore, hab2, hS'a]
          · simp [Path.addrsAfter, haa2, hS'a]
          · simp only [Path.depth]; omega
      · obtain ⟨sb, sv, sl, sr, rfl⟩ := Tree.isRed_true_cases hS
        obtain ⟨g, rfl⟩ : ∃ g, f = g + 1 := ⟨f - 1, by omega⟩
        obtain ⟨t1, e1, f1, b1, s1⟩ := dbf_red_sibling_right (g + 1) h
        have hpc : pc = .m_black := by
          cases pc
          · simp [Path.NoRR, Tree.isRed] at hpN
          · rfl
        subst hpc
        simp only [Path.Bal, Path.NoRR, Tree.Bal, Tree.NoRR, Tree.bh, reduceCtorEq, false_implies,
          true_and, true_implies] at hpB hpN
        obtain ⟨hSh, ⟨hSlr, hSlB, hSrB⟩, hupB⟩ := hpB
        obtain ⟨⟨⟨hslc, hsrc⟩, hSlN, hSrN⟩, hupN⟩ := hpN
        have hsib : sr.isRed = false := hsrc
        rcases dbf_black_step_right g k f1 hsib
            (by simp only [Path.Bal]; and_intros <;> first | assumption | omega)
            (by simp only [Path.NoRR, Tree.isRed_node, Path.isRed_left, Path.isRed_right]; simp [*])
            (by rw [← hroot]; simp only [Path.plug]; exact Path.isRed_plug_congr _ _ _ rfl)
          with ⟨t', p', e, f2, hB2, hN2, hR2, hroot2, hb2, ha2, hab2, haa2, hptr2, hd2, hbrk2, hs2⟩ |
            ⟨hpc, _⟩
        · refine ⟨t', p', e1.trans e, f2, hB2, hN2, hR2, hroot2, ?_, ?_, ?_, ?_, hptr2, ?_,
            by omega, by omega⟩
          · simp [hb2, Path.before, Tree.inorder]
          · simp [ha2, Path.after, Tree.inorder]
          · simp [hab2, Path.addrsBefore, Tree.addrs]
          · simp [haa2, Path.addrsAfter, Tree.addrs]
          · simp only [Path.depth] at hd2 ⊢; omega
        · cases hpc

end jvn

/-! ## Removing a node with at most one child
-/

namespace jvn

set_option linter.unusedTactic false
set_option linter.unreachableTactic false
set_option linter.unnecessarySeqFocus false
set_option linter.unusedVariables false

variable {α : Type}

theorem Foc.size_irrelevant {t : RBTree α} {p : Path α} {tr : Tree α} (h : Foc t p tr)
    (n : Nat) : Foc { t with m_size := n } p tr := h

/-- Deleting the only node of the tree. -/
theorem delete_node_root_leaf {t : RBTree α} {a : Nat} {c : m_RB} {v : α} (f : Nat)
    (h : Foc t .top (.node a c v .nil .nil)) :
    ∃ t', RBTree.delete_node (f + 1) t (some a) = .ok t' ∧ t'.Holds .nil ∧
      t'.brk = t.brk ∧ t'.m_size = t.m_size - 1 := by
  have hm := h.mem_root
  have hr : t.m_root = some a := h.root_eq
  simp only [Tree.ptr_nil, Path.ptr_top] at hm
  simp [RBTree.delete_node, RBTree.BST_replace, h.deref_root, ok_bind, pure, Except.pure, hr,
    RBTree.destroy_node, hm, RBTree.Holds, Foc, Rep, RepPath, Tree.addrs, Path.addrs]

/-- Unlinking a leaf that is a left child and releasing it. -/
theorem detach_left_spec {t : RBTree α} {up : Path α} {a pa : Nat} {c pc : m_RB} {v pv : α}
    {S : Tree α} (h : Foc t (.left pa pc pv up S) (.node a c v .nil .nil)) :
    ∃ t2 t3, t.set_left (some pa) none = .ok t2 ∧ t2.destroy_node (some a) = .ok t3 ∧
      Foc t3 (.left pa pc pv up S) .nil ∧ t3.brk = t.brk ∧ t3.m_size = t.m_size := by
  obtain ⟨hr, hp, hnd⟩ := h
  simp only [Rep, RepPath, Tree.ptr_node, Tree.ptr_nil, Path.ptr_left, and_true] at hr hp
  simp only [Tree.addrs, Path.addrs, List.nodup_append, List.nodup_cons, List.mem_append,
    List.mem_cons, List.disjoint_cons_left, List.disjoint_cons_right, List.disjoint_append_left,
    List.disjoint_append_right, not_or, List.cons_append, List.nil_append, List.append_nil,
    List.nodup_nil, List.not_mem_nil, not_false_eq_true, true_and, and_true,
    List.disjoint_nil_left, List.disjoint_nil_right] at hnd
  simp [RBTree.set_left, RBTree.modify, RBTree.destroy_node, hr, hp, hnd, Function.update_same,
    Function.update_noteq, update_noteq', Foc, Rep, RepPath, Rep_update, RepPath_update,
    Tree.addrs, Path.addrs, List.nodup_append]

/-- Unlinking a leaf that is a right child and releasing it. -/
theorem detach_right_spec {t : RBTree α} {up : Path α} {a pa : Nat} {c pc : m_RB} {v pv : α}
    {S : Tree α} (h : Foc t (.right pa pc pv S up) (.node a c v .nil .nil)) :
    ∃ t2 t3, t.set_right (some pa) none = .ok t2 ∧ t2.destroy_node (some a) = .ok t3 ∧
      Foc t3 (.right pa pc pv S up) .nil ∧ t3.brk = t.brk ∧ t3.m_size = t.m_size := by
  obtain ⟨hr, hp, hnd⟩ := h
  simp only [Rep, RepPath, Tree.ptr_node, Tree.ptr_nil, Path.ptr_right, and_true] at hr hp
  simp only [Tree.addrs, Path.addrs, List.nodup_append, List.nodup_cons, List.mem_append,
    List.mem_cons, List.disjoint_cons_left, List.disjoint_cons_right, List.disjoint_append_left,
    List.disjoint_append_right, not_or, List.cons_append, List.nil_append, List.append_nil,
    List.nodup_nil, List.not_mem_nil, not_false_eq_true, true_and, and_true,
    List.disjoint_nil_left, List.disjoint_nil_right] at hnd
  simp [RBTree.set_right, RBTree.modify, RBTree.destroy_node, hr, hp, hnd, Function.update_same,
    Function.update_noteq, update_noteq', Foc, Rep, RepPath, Rep_update, RepPath_update,
    Tree.addrs, Path.addrs, List.nodup_append]

/-- Deleting a red leaf that is a left child: its sibling, if any, is coloured
red and the leaf is unlinked. -/
theorem delete_node_red_leaf_left {t : RBTree α} {up : Path α} {a pa : Nat} {pc : m_RB}
    {v pv : α} {S : Tree α} (f : Nat)
    (h : Foc t (.left pa pc pv up S) (.node a .m_red v .nil .nil))
    (hS : S = .nil ∨ S.isRed = true) :
    ∃ t', RBTree.delete_node (f + 1) t (some a) = .ok t' ∧ Foc t' (.left pa pc pv up S) .nil ∧
      t'.brk = t.brk ∧ t'.m_size = t.m_size - 1 := by
  have hd := h.deref_root
  simp only [Tree.ptr_nil] at hd
  have hn := h.nodup_facts_left
  rcases hS with rfl | hS
  · obtain ⟨t2, t3, e2, e3, f3, b3, s3⟩ := detach_left_spec h
    refine ⟨{ t3 with m_size := t3.m_size - 1 }, ?_, f3.size_irrelevant _, b3, by simp [s3]⟩
    simp [RBTree.delete_node, RBTree.BST_replace, hd, ok_bind, pure, Except.pure, h.root_ne,
      sibling_left h, (Foc_left.mp h).deref_root, e2, e3]
  · obtain ⟨sb, sv, sl, sr, rfl⟩ := Tree.isRed_true_cases hS
    have hsa : sb ≠ a := fun e => hn.1 (by simp [Tree.addrs, e])
    obtain ⟨t1, e1, f1, b1, s1, _⟩ := set_color_spec (Foc_right.mpr (Foc_left.mp h)) .m_red
    have h1 := Foc_left.mpr (Foc_right.mp f1)
    have hd1 := h1.deref_root
    simp only [Tree.ptr_nil] at hd1
    obtain ⟨t2, t3, e2, e3, f3, b3, s3⟩ := detach_left_spec h1
    refine ⟨{ t3 with m_size := t3.m_size - 1 }, ?_, f3.size_irrelevant _,
      (by show t3.brk = t.brk; omega), by simp [s3, s1]⟩
    simp [RBTree.delete_node, RBTree.BST_replace, hd, ok_bind, pure, Except.pure, h.root_ne,
      sibling_left h, e1, hd1, (Foc_left.mp h1).deref_root, e2, e3]

/-- Deleting a red leaf that is a right child: its sibling, if any, is coloured
red and the leaf is unlinked. -/
theorem delete_node_red_leaf_right {t : RBTree α} {up : Path α} {a pa : Nat} {pc : m_RB}
    {v pv : α} {S : Tree α} (f : Nat)
    (h : Foc t (.right pa pc pv S up) (.node a .m_red v .nil .nil))
    (hS : S = .nil ∨ S.isRed = true) :
    ∃ t', RBTree.delete_node (f + 1) t (some a) = .ok t' ∧ Foc t' (.right pa pc pv S up) .nil ∧
      t'.brk = t.brk ∧ t'.m_size = t.m_size - 1 := by
  have hd := h.deref_root
  simp only [Tree.ptr_nil] at hd
  have hn := h.nodup_facts_right
  rcases hS with rfl | hS
  · obtain ⟨t2, t3, e2, e3, f3, b3, s3⟩ := detach_right_spec h
    refine ⟨{ t3 with m_size := t3.m_size - 1 }, ?_, f3.size_irrelevant _, b3, by simp [s3]⟩
    simp [RBTree.delete_node, RBTree.BST_replace, hd, ok_bind, pure, Except.pure, h.root_ne,
      sibling_right h, (Foc_right.mp h).deref_root, e2, e3]
  · obtain ⟨sb, sv, sl, sr, rfl⟩ := Tree.isRed_true_cases hS
    have hsa : sb ≠ a := fun e => hn.1 (by simp [Tree.addrs, e])
    obtain ⟨t1, e1, f1, b1, s1, _⟩ := set_color_spec (Foc_left.mpr (Foc_right.mp h)) .m_red
    have h1 := Foc_right.mpr (Foc_left.mp f1)
    have hd1 := h1.deref_root
    simp only [Tree.ptr_nil] at hd1
    obtain ⟨t2, t3, e2, e3, f3, b3, s3⟩ := detach_right_spec h1
    refine ⟨{ t3 with m_size := t3.m_size - 1 }, ?_, f3.size_irrelevant _,
      (by show t3.brk = t.brk; omega), by simp [s3, s1]⟩
    simp [RBTree.delete_node, RBTree.BST_replace, hd, ok_bind, pure, Except.pure, h.root_ne,
      sibling_right h, e1, hd1, (Foc_right.mp h1).deref_root, e2, e3, eq_ptr_false hn.1, ptr_eq_false hn.1, hsa]

/-- Deleting a black leaf that is not the root: the double-black fix-up runs,
then the leaf is unlinked. -/
theorem delete_node_black_leaf {t : RBTree α} {p : Path α} {a : Nat} {v : α} (f : Nat)
    (h : Foc t p (.node a .m_black v .nil .nil)) (hp : p ≠ .top) (hf : p.depth + 2 ≤ f)
    (hpB : p.Bal 1) (hpN : p.NoRR) (hroot : (p.plug .nil).isRed = false) :
    ∃ (t' : RBTree α) (p' : Path α), RBTree.delete_node (f + 1) t (some a) = .ok t' ∧
      Foc t' p' .nil ∧ p'.Bal 0 ∧ p'.NoRR ∧ (p'.plug .nil).isRed = false ∧
      p'.before = p.before ∧ p'.after = p.after ∧
      p'.addrsBefore = p.addrsBefore ∧ p'.addrsAfter = p.addrsAfter ∧
      t'.brk = t.brk ∧ t'.m_size = t.m_size - 1 := by
  have hd := h.deref_root
  simp only [Tree.ptr_nil] at hd
  obtain ⟨t1, p', e1, f1, hB1, hN1, hR1, hroot1, hb1, ha1, hab1, haa1, hptr1, _, b1, s1⟩ :=
    double_black_fix_spec p.depth t p a .m_black v .nil .nil 0 f (le_refl _) hf h hpB hpN hroot
  have hd1 := f1.deref_root
  simp only [Tree.ptr_nil] at hd1
  rcases p' with _ | ⟨pa, pc, pv, up, S⟩ | ⟨pa, pc, pv, S, up⟩
  · cases p
    · exact absurd rfl hp
    · simp at hptr1
    · simp at hptr1
  · obtain ⟨t2, t3, e2, e3, f3, b3, s3⟩ := detach_left_spec f1
    refine ⟨{ t3 with m_size := t3.m_size - 1 }, _, ?_, f3.size_irrelevant _, hB1, hN1, hroot1,
      hb1, ha1, hab1, haa1, (by show t3.brk = t.brk; omega), by simp [s3, s1]⟩
    simp only [Path.ptr_left] at hptr1
    simp [RBTree.delete_node, RBTree.BST_replace, hd, ok_bind, pure, Except.pure, h.root_ne hp,
      e1, hd1, (Foc_left.mp f1).deref_root, ← hptr1, e2, e3]
  · obtain ⟨t2, t3, e2, e3, f3, b3, s3⟩ := detach_right_spec f1
    have hn := f1.nodup_facts_right
    refine ⟨{ t3 with m_size := t3.m_size - 1 }, _, ?_, f3.size_irrelevant _, hB1, hN1, hroot1,
      hb1, ha1, hab1, haa1, (by show t3.brk = t.brk; omega), by simp [s3, s1]⟩
    simp only [Path.ptr_right] at hptr1
    simp [RBTree.delete_node, RBTree.BST_replace, hd, ok_bind, pure, Except.pure, h.root_ne hp,
      e1, hd1, (Foc_right.mp f1).deref_root, ← hptr1, e2, e3, ptr_eq_false hn.1]

end jvn

/-! ## Removing a node with exactly one child
-/

namespace jvn

set_option linter.unusedTactic false
set_option linter.unreachableTactic false
set_option linter.unnecessarySeqFocus false
set_option linter.unusedVariables false

variable {α : Type}

/-- Deleting the root when it has only a left child: the child's value moves
into the root and the child is released. -/
theorem delete_node_root_one_left {t : RBTree α} {a y : Nat} {c yc : m_RB} {v yv : α}
    (f : Nat) (h : Foc t .top (.node a c v (.node y yc yv .nil .nil) .nil)) :
    ∃ t', RBTree.delete_node (f + 1) t (some a) = .ok t' ∧
      t'.Holds (.node a c yv .nil .nil) ∧ t'.brk = t.brk ∧ t'.m_size = t.m_size - 1 := by
  obtain ⟨hr, hp, hnd⟩ := h
  simp only [Rep, RepPath, Tree.ptr_node, Tree.ptr_nil, Path.ptr_top, and_true] at hr hp
  simp only [Tree.addrs, Path.addrs, List.nodup_append, List.nodup_cons, List.mem_append,
    List.mem_cons, List.disjoint_cons_left, List.disjoint_cons_right, List.disjoint_append_left,
    List.disjoint_append_right, not_or, List.cons_append, List.nil_append, List.append_nil,
    List.nodup_nil, List.not_mem_nil, not_false_eq_true, true_and, and_true,
    List.disjoint_nil_left, List.disjoint_nil_right] at hnd
  have hya : y ≠ a := fun e => by simp [e] at hnd
  cases yc <;> cases c <;>
  simp [RBTree.delete_node, RBTree.BST_replace, RBTree.deref, RBTree.set_data, RBTree.set_left,
    RBTree.set_right, RBTree.modify, RBTree.destroy_node, ok_bind, pure, Except.pure, hr, hp,
    hnd, hya, Function.update_same, Function.update_noteq, update_noteq', RBTree.Holds, Foc, Rep,
    RepPath, Tree.addrs, Path.addrs]

/-- Deleting the root when it has only a right child: the child's value moves
into the root and the child is released. -/
theorem delete_node_root_one_right {t : RBTree α} {a y : Nat} {c yc : m_RB} {v yv : α}
    (f : Nat) (h : Foc t .top (.node a c v .nil (.node y yc yv .nil .nil))) :
    ∃ t', RBTree.delete_node (f + 1) t (some a) = .ok t' ∧
      t'.Holds (.node a c yv .nil .nil) ∧ t'.brk = t.brk ∧ t'.m_size = t.m_size - 1 := by
  obtain ⟨hr, hp, hnd⟩ := h
  simp only [Rep, RepPath, Tree.ptr_node, Tree.ptr_nil, Path.ptr_top, and_true] at hr hp
  simp only [Tree.addrs, Path.addrs, List.nodup_append, List.nodup_cons, List.mem_append,
    List.mem_cons, List.disjoint_cons_left, List.disjoint_cons_right, List.disjoint_append_left,
    List.disjoint_append_right, not_or, List.cons_append, List.nil_append, List.append_nil,
    List.nodup_nil, List.not_mem_nil, not_false_eq_true, true_and, and_true,
    List.disjoint_nil_left, List.disjoint_nil_right] at hnd
  have hya : y ≠ a := fun e => by simp [e] at hnd
  cases yc <;> cases c <;>
  simp [RBTree.delete_node, RBTree.BST_replace, RBTree.deref, RBTree.set_data, RBTree.set_left,
    RBTree.set_right, RBTree.modify, RBTree.destroy_node, ok_bind, pure, Except.pure, hr, hp,
    hnd, hya, Function.update_same, Function.update_noteq, update_noteq', RBTree.Holds, Foc, Rep,
    RepPath, Tree.addrs, Path.addrs]

/-- Deleting a left child that has only a red left child: the child takes the
node's place and turns black. -/
theorem delete_node_one_left_left {t : RBTree α} {up : Path α} {a y pa : Nat}
    {c pc : m_RB} {v yv pv : α} {yl yr S : Tree α} (f : Nat)
    (h : Foc t (.left pa pc pv up S) (.node a c v (.node y .m_red yv yl yr) .nil)) :
    ∃ t', RBTree.delete_node (f + 1) t (some a) = .ok t' ∧
      Foc t' (.left pa pc pv up S) (.node y .m_black yv yl yr) ∧ t'.brk = t.brk ∧ t'.m_size = t.m_size - 1 := by
  have hrn := h.root_ne (by simp)
  obtain ⟨hr, hp, hnd⟩ := h
  simp only [Rep, RepPath, Tree.ptr_node, Tree.ptr_nil, Path.ptr_left, and_true] at hr hp
  simp only [Tree.addrs, Path.addrs, List.nodup_append, List.nodup_cons, List.mem_append,
    List.mem_cons, List.disjoint_cons_left, List.disjoint_cons_right, List.disjoint_append_left,
    List.disjoint_append_right, not_or, List.cons_append, List.nil_append, List.append_nil,
    List.nodup_nil, List.not_mem_nil, not_false_eq_true, true_and, and_true,
    List.disjoint_nil_left, List.disjoint_nil_right] at hnd
  have hya : y ≠ a := fun e => by simp [e] at hnd
  have hpy : pa ≠ y := fun e => by simp [e] at hnd
  have hyp : y ≠ pa := fun e => hpy e.symm
  cases c <;>
  simp [RBTree.delete_node, RBTree.BST_replace, RBTree.deref, RBTree.set_color,
    RBTree.set_left, RBTree.set_right, RBTree.set_parent, RBTree.modify, RBTree.destroy_node,
    ok_bind, pure, Except.pure, hr, hp, hnd, hya, hpy, hyp, hrn, Function.update_same,
    Function.update_noteq, update_noteq', Foc, Rep, RepPath, Tree.addrs, Path.addrs,
    Rep_update, RepPath_update, ptr_eq_false, eq_ptr_false, List.nodup_append]

/-- Deleting a right child that has only a red left child: the child takes the
node's place and turns black. -/
theorem delete_node_one_left_right {t : RBTree α} {up : Path α} {a y pa : Nat}
    {c pc : m_RB} {v yv pv : α} {yl yr S : Tree α} (f : Nat)
    (h : Foc t (.right pa pc pv S up) (.node a c v (.node y .m_red yv yl yr) .nil)) :
    ∃ t', RBTree.delete_node (f + 1) t (some a) = .ok t' ∧
      Foc t' (.right pa pc pv S up) (.node y .m_black yv yl yr) ∧ t'.brk = t.brk ∧ t'.m_size = t.m_size - 1 := by
  have hrn := h.root_ne (by simp)
  obtain ⟨hr, hp, hnd⟩ := h
  simp only [Rep, RepPath, Tree.ptr_node, Tree.ptr_nil, Path.ptr_right, and_true] at hr hp
  simp only [Tree.addrs, Path.addrs, List.nodup_append, List.nodup_cons, List.mem_append,
    List.mem_cons, List.disjoint_cons_left, List.disjoint_cons_right, List.disjoint_append_left,
    List.disjoint_append_right, not_or, List.cons_append, List.nil_append, List.append_nil,
    List.nodup_nil, List.not_mem_nil, not_false_eq_true, true_and, and_true,
    List.disjoint_nil_left, List.disjoint_nil_right] at hnd
  have hya : y ≠ a := fun e => by simp [e] at hnd
  have hpy : pa ≠ y := fun e => by simp [e] at hnd
  have hyp : y ≠ pa := fun e => hpy e.symm
  cases c <;>
  simp [RBTree.delete_node, RBTree.BST_replace, RBTree.deref, RBTree.set_color,
    RBTree.set_left, RBTree.set_right, RBTree.set_parent, RBTree.modify, RBTree.destroy_node,
    ok_bind, pure, Except.pure, hr, hp, hnd, hya, hpy, hyp, hrn, Function.update_same,
    Function.update_noteq, update_noteq', Foc, Rep, RepPath, Tree.addrs, Path.addrs,
    Rep_update, RepPath_update, ptr_eq_false, eq_ptr_false, List.nodup_append]

/-- Deleting a left child that has only a red right child: the child takes the
node's place and turns black. -/
theorem delete_node_one_right_left {t : RBTree α} {up : Path α} {a y pa : Nat}
    {c pc : m_RB} {v yv pv : α} {yl yr S : Tree α} (f : Nat)
    (h : Foc t (.left pa pc pv up S) (.node a c v .nil (.node y .m_red yv yl yr))) :
    ∃ t', RBTree.delete_node (f + 1) t (some a) = .ok t' ∧
      Foc t' (.left pa pc pv up S) (.node y .m_black yv yl yr) ∧ t'.brk = t.brk ∧ t'.m_size = t.m_size - 1 := by
  have hrn := h.root_ne (by simp)
  obtain ⟨hr, hp, hnd⟩ := h
  simp only [Rep, RepPath, Tree.ptr_node, Tree.ptr_nil, Path.ptr_left, and_true] at hr hp
  simp only [Tree.addrs, Path.addrs, List.nodup_append, List.nodup_cons, List.mem_append,
    List.mem_cons, List.disjoint_cons_left, List.disjoint_cons_right, List.disjoint_append_left,
    List.disjoint_append_right, not_or, List.cons_append, List.nil_append, List.append_nil,
    List.nodup_nil, List.not_mem_nil, not_false_eq_true, true_and, and_true,
    List.disjoint_nil_left, List.disjoint_nil_right] at hnd
  have hya : y ≠ a := fun e => by simp [e] at hnd
  have hpy : pa ≠ y := fun e => by simp [e] at hnd
  have hyp : y ≠ pa := fun e => hpy e.symm
  cases c <;>
  simp [RBTree.delete_node, RBTree.BST_replace, RBTree.deref, RBTree.set_color,
    RBTree.set_left, RBTree.set_right, RBTree.set_parent, RBTree.modify, RBTree.destroy_node,
    ok_bind, pure, Except.pure, hr, hp, hnd, hya, hpy, hyp, hrn, Function.update_same,
    Function.update_noteq, update_noteq', Foc, Rep, RepPath, Tree.addrs, Path.addrs,
    Rep_update, RepPath_update, ptr_eq_false, eq_ptr_false, List.nodup_append]

/-- Deleting a right child that has only a red right child: the child takes the
node's place and turns black. -/
theorem delete_node_one_right_right {t : RBTree α} {up : Path α} {a y pa : Nat}
    {c pc : m_RB} {v yv pv : α} {yl yr S : Tree α} (f : Nat)
    (h : Foc t (.right pa pc pv S up) (.node a c v .nil (.node y .m_red yv yl yr))) :
    ∃ t', RBTree.delete_node (f + 1) t (some a) = .ok t' ∧
      Foc t' (.right pa pc pv S up) (.node y .m_black yv yl yr) ∧ t'.brk = t.brk ∧ t'.m_size = t.m_size - 1 := by
  have hrn := h.root_ne (by simp)
  obtain ⟨hr, hp, hnd⟩ := h
  simp only [Rep, RepPath, Tree.ptr_node, Tree.ptr_nil, Path.ptr_right, and_true] at hr hp
  simp only [Tree.addrs, Path.addrs, List.nodup_append, List.nodup_cons, List.mem_append,
    List.mem_cons, List.disjoint_cons_left, List.disjoint_cons_right, List.disjoint_append_left,
    List.disjoint_append_right, not_or, List.cons_append, List.nil_append, List.append_nil,
    List.nodup_nil, List.not_mem_nil, not_false_eq_true, true_and, and_true,
    List.disjoint_nil_left, List.disjoint_nil_right] at hnd
  have hya : y ≠ a := fun e => by simp [e] at hnd
  have hpy : pa ≠ y := fun e => by simp [e] at hnd
  have hyp : y ≠ pa := fun e => hpy e.symm
  cases c <;>
  simp [RBTree.delete_node, RBTree.BST_replace, RBTree.deref, RBTree.set_color,
    RBTree.set_left, RBTree.set_right, RBTree.set_parent, RBTree.modify, RBTree.destroy_node,
    ok_bind, pure, Except.pure, hr, hp, hnd, hya, hpy, hyp, hrn, Function.update_same,
    Function.update_noteq, update_noteq', Foc, Rep, RepPath, Tree.addrs, Path.addrs,
    Rep_update, RepPath_update, ptr_eq_false, eq_ptr_false, List.nodup_append]

end jvn

/-! ## Deletion
-/

namespace jvn

set_option linter.unusedTactic false
set_option linter.unreachableTactic false
set_option linter.unnecessarySeqFocus false
set_option linter.unusedVariables false

variable {α : Type}

theorem Tree.eq_nil_of_bh_zero {s : Tree α} (h : s.bh = 0) (hr : s.isRed = false) : s = .nil := by
  cases s with
  | nil => rfl
  | node a c v l r =>
    cases c
    · simp [Tree.isRed] at hr
    · simp [Tree.bh] at h

theorem Tree.red_leaf_of_bh_zero {s : Tree α} (h : s.bh = 0) (hB : s.Bal) (hN : s.NoRR) :
    s = .nil ∨ ∃ y yv, s = .node y .m_red yv .nil .nil := by
  cases s with
  | nil => exact Or.inl rfl
  | node a c v l r =>
    cases c
    · simp only [Tree.bh, Tree.Bal, Tree.NoRR, true_implies] at h hB hN
      have hl := Tree.eq_nil_of_bh_zero h hN.1.1
      have hr := Tree.eq_nil_of_bh_zero (hB.1 ▸ h) hN.1.2
      subst hl hr
      exact Or.inr ⟨a, v, rfl⟩
    · simp [Tree.bh] at h

/-- `delete_node` at a node with at most one child, in a tree that satisfies the
colour invariants: it returns, the node's value leaves the in-order sequence,
and the colour invariants hold again. -/
theorem delete_node_simple {t : RBTree α} {p : Path α} {a : Nat} {c : m_RB} {v : α}
    {l r : Tree α} (f : Nat) (h : Foc t p (.node a c v l r)) (hlr : l = .nil ∨ r = .nil)
    (hB : (p.plug (.node a c v l r)).Bal) (hN : (p.plug (.node a c v l r)).NoRR)
    (hR : (p.plug (.node a c v l r)).isRed = false) (hf : p.depth + 2 ≤ f) :
    ∃ (t' : RBTree α) (tr' : Tree α), RBTree.delete_node (f + 1) t (some a) = .ok t' ∧
      t'.Holds tr' ∧ tr'.Bal ∧ tr'.NoRR ∧ tr'.isRed = false ∧
      tr'.inorder = p.before ++ (l.inorder ++ r.inorder) ++ p.after ∧
      (∀ x ∈ tr'.addrs, x ∈ (p.plug (.node a c v l r)).addrs) ∧
      t'.brk = t.brk ∧ t'.m_size = t.m_size - 1 := by
  obtain ⟨hsB, hpB⟩ := (Path.bal_plug _ _).mp hB
  obtain ⟨hsN, hpN, hpc⟩ := (Path.noRR_plug _ _).mp hN
  -- the shapes a node with at most one child can have
  have hshape : (l = .nil ∧ r = .nil) ∨
      (c = .m_black ∧ r = .nil ∧ ∃ y yv, l = .node y .m_red yv .nil .nil) ∨
      (c = .m_black ∧ l = .nil ∧ ∃ y yv, r = .node y .m_red yv .nil .nil) := by
    simp only [Tree.Bal, Tree.NoRR] at hsB hsN
    rcases hlr with rfl | rfl
    · rcases Tree.red_leaf_of_bh_zero (by simpa [Tree.bh] using hsB.1.symm) hsB.2.2 hsN.2.2 with
        rfl | ⟨y, yv, rfl⟩
      · exact Or.inl ⟨rfl, rfl⟩
      · refine Or.inr (Or.inr ⟨?_, rfl, y, yv, rfl⟩)
        cases c
        · simp [Tree.isRed] at hsN
        · rfl
    · rcases Tree.red_leaf_of_bh_zero (by simpa [Tree.bh] using hsB.1) hsB.2.1 hsN.2.1 with
        rfl | ⟨y, yv, rfl⟩
      · exact Or.inl ⟨rfl, rfl⟩
      · refine Or.inr (Or.inl ⟨?_, rfl, y, yv, rfl⟩)
        cases c
        · simp [Tree.isRed] at hsN
        · rfl
  rcases hshape with ⟨rfl, rfl⟩ | ⟨rfl, rfl, y, yv, rfl⟩ | ⟨rfl, rfl, y, yv, rfl⟩
  · -- a leaf
    by_cases hp : p = .top
    · subst hp
      obtain ⟨t', e, hh, b, s⟩ := delete_node_root_leaf f h
      exact ⟨t', .nil, e, hh, trivial, trivial, rfl, by simp [Path.before, Path.after, Tree.inorder],
        by simp [Tree.addrs], b, s⟩
    · cases c
      · -- red leaf
        have hS : ∃ t', RBTree.delete_node (f + 1) t (some a) = .ok t' ∧ Foc t' p .nil ∧
            t'.brk = t.brk ∧ t'.m_size = t.m_size - 1 := by
          rcases p with _ | ⟨pa, pc, pv, up, S⟩ | ⟨pa, pc, pv, S, up⟩
          · exact absurd rfl hp
          · refine delete_node_red_leaf_left f h ?_
            have hSb : S.bh = 0 ∧ S.Bal := by
              cases pc <;> simp only [Path.Bal, Tree.bh] at hpB <;> exact ⟨hpB.1, hpB.2.1⟩
            rcases Tree.red_leaf_of_bh_zero hSb.1 hSb.2 hpN.1 with rfl | ⟨y, yv, rfl⟩
            · exact Or.inl rfl
            · exact Or.inr rfl
          · refine delete_node_red_leaf_right f h ?_
            have hSb : S.bh = 0 ∧ S.Bal := by
              cases pc <;> simp only [Path.Bal, Tree.bh] at hpB <;> exact ⟨hpB.1, hpB.2.1⟩
            rcases Tree.red_leaf_of_bh_zero hSb.1 hSb.2 hpN.1 with rfl | ⟨y, yv, rfl⟩
            · exact Or.inl rfl
            · exact Or.inr rfl
        obtain ⟨t', e, f1, b, s⟩ := hS
        refine ⟨t', p.plug .nil, e, Foc_plug.mp f1, ?_, ?_, ?_, ?_, ?_, b, s⟩
        · exact (Path.bal_plug _ _).mpr ⟨trivial, by simpa [Tree.bh] using hpB⟩
        · exact (Path.noRR_plug _ _).mpr ⟨trivial, hpN, fun _ => rfl⟩
        · rw [← hR]; exact Path.isRed_plug_of_ne_top _ hp _ _
        · simp [Path.inorder_plug, Tree.inorder]
        · intro x hx
          rw [Path.mem_addrs_plug] at hx ⊢
          rcases hx with hx | hx
          · simp [Tree.addrs] at hx
          · exact Or.inr hx
      · -- black leaf
        have hroot : (p.plug .nil).isRed = false := by
          rw [← hR]; exact Path.isRed_plug_of_ne_top _ hp _ _
        obtain ⟨t', p', e, f1, hB1, hN1, hroot1, hb1, ha1, hab1, haa1, b, s⟩ :=
          delete_node_black_leaf f h hp hf (by simpa [Tree.bh] using hpB) hpN hroot
        refine ⟨t', p'.plug .nil, e, Foc_plug.mp f1, ?_, ?_, hroot1, ?_, ?_, b, s⟩
        · exact (Path.bal_plug _ _).mpr ⟨trivial, hB1⟩
        · exact (Path.noRR_plug _ _).mpr ⟨trivial, hN1, fun _ => rfl⟩
        · simp [Path.inorder_plug, Tree.inorder, hb1, ha1]
        · intro x hx
          rw [Path.addrs_plug] at hx ⊢
          rw [hab1, haa1] at hx
          simp only [Tree.addrs, List.append_nil, List.mem_append, List.nil_append,
            List.mem_cons, List.not_mem_nil, or_false] at hx ⊢
          tauto
  · -- only a left child
    by_cases hp : p = .top
    · subst hp
      obtain ⟨t', e, hh, b, s⟩ := delete_node_root_one_left f h
      refine ⟨t', _, e, hh, ?_, ?_, rfl, ?_, ?_, b, s⟩
      · simp [Tree.Bal]
      · simp [Tree.NoRR]
      · simp [Path.before, Path.after, Tree.inorder]
      · simp [Tree.addrs, Path.plug]
    · have hS : ∃ t', RBTree.delete_node (f + 1) t (some a) = .ok t' ∧
          Foc t' p (.node y .m_black yv .nil .nil) ∧
          t'.brk = t.brk ∧ t'.m_size = t.m_size - 1 := by
        rcases p with _ | ⟨pa, pc, pv, up, S⟩ | ⟨pa, pc, pv, S, up⟩
        · exact absurd rfl hp
        · exact delete_node_one_left_left f h
        · exact delete_node_one_left_right f h
      obtain ⟨t', e, f1, b, s⟩ := hS
      refine ⟨t', p.plug (.node y .m_black yv .nil .nil), e, Foc_plug.mp f1, ?_, ?_, ?_, ?_, ?_,
        b, s⟩
      · exact (Path.bal_plug _ _).mpr ⟨by simp [Tree.Bal], by simpa [Tree.bh] using hpB⟩
      · exact (Path.noRR_plug _ _).mpr ⟨by simp [Tree.NoRR], hpN, fun _ => rfl⟩
      · rw [← hR]; exact Path.isRed_plug_congr _ _ _ rfl
      · simp [Path.inorder_plug, Tree.inorder]
      · intro x hx
        rw [Path.mem_addrs_plug] at hx ⊢
        rcases hx with hx | hx
        · left
          simp only [Tree.addrs, List.nil_append, List.mem_cons, List.not_mem_nil, or_false,
            List.append_nil, List.mem_append] at hx ⊢
          subst hx
          simp
        · exact Or.inr hx
  · -- only a right child
    by_cases hp : p = .top
    · subst hp
      obtain ⟨t', e, hh, b, s⟩ := delete_node_root_one_right f h
      refine ⟨t', _, e, hh, ?_, ?_, rfl, ?_, ?_, b, s⟩
      · simp [Tree.Bal]
      · simp [Tree.NoRR]
      · simp [Path.before, Path.after, Tree.inorder]
      · simp [Tree.addrs, Path.plug]
    · have hS : ∃ t', RBTree.delete_node (f + 1) t (some a) = .ok t' ∧
          Foc t' p (.node y .m_black yv .nil .nil) ∧
          t'.brk = t.brk ∧ t'.m_size = t.m_size - 1 := by
        rcases p with _ | ⟨pa, pc, pv, up, S⟩ | ⟨pa, pc, pv, S, up⟩
        · exact absurd rfl hp
        · exact delete_node_one_right_left f h
        · exact delete_node_one_right_right f h
      obtain ⟨t', e, f1, b, s⟩ := hS
      refine ⟨t', p.plug (.node y .m_black yv .nil .nil), e, Foc_plug.mp f1, ?_, ?_, ?_, ?_, ?_,
        b, s⟩
      · exact (Path.bal_plug _ _).mpr ⟨by simp [Tree.Bal], by simpa [Tree.bh] using hpB⟩
      · exact (Path.noRR_plug _ _).mpr ⟨by simp [Tree.NoRR], hpN, fun _ => rfl⟩
      · rw [← hR]; exact Path.isRed_plug_congr _ _ _ rfl
      · simp [Path.inorder_plug, Tree.inorder]
      · intro x hx
        rw [Path.mem_addrs_plug] at hx ⊢
        rcases hx with hx | hx
        · left
          simp only [Tree.addrs, List.nil_append, List.mem_cons, List.not_mem_nil, or_false,
            List.append_nil, List.mem_append] at hx ⊢
          subst hx
          simp
        · exact Or.inr hx

theorem Path.bh_plug_congr (p : Path α) (s s' : Tree α) (h : s.bh = s'.bh) :
    (p.plug s).bh = (p.plug s').bh := by
  induction p generalizing s s' with
  | top => exact h
  | left a c v up r ih => exact ih _ _ (by cases c <;> simp [Tree.bh, h])
  | right a c v l up ih => exact ih _ _ (by cases c <;> simp [Tree.bh])

theorem Path.ptr_plug_congr (p : Path α) {s s' : Tree α} (h : s.ptr = s'.ptr) :
    (p.plug s).ptr = (p.plug s').ptr := by
  induction p generalizing s s' with
  | top => exact h
  | left a c v up r ih => exact ih rfl
  | right a c v l up ih => exact ih rfl

theorem Path.bal_plug_congr (p : Path α) (s s' : Tree α) (hb : s.bh = s'.bh)
    (h : s.Bal ↔ s'.Bal) : (p.plug s).Bal ↔ (p.plug s').Bal := by
  rw [Path.bal_plug, Path.bal_plug, hb, h]

theorem Path.noRR_plug_congr (p : Path α) (s s' : Tree α) (hr : s.isRed = s'.isRed)
    (h : s.NoRR ↔ s'.NoRR) : (p.plug s).NoRR ↔ (p.plug s').NoRR := by
  rw [Path.noRR_plug, Path.noRR_plug, hr, h]

theorem Path.height_plug_congr (p : Path α) {s s' : Tree α} (h : s.height = s'.height) :
    (p.plug s).height = (p.plug s').height := by
  induction p generalizing s s' with
  | top => exact h
  | left a c v up r ih => exact ih (by simp [Tree.height, h])
  | right a c v l up ih => exact ih (by simp [Tree.height, h])

/-- `delete_node` at any node of a tree that satisfies the colour invariants: it
returns, the node's value leaves the in-order sequence, and the colour
invariants hold again. -/
theorem delete_node_spec {t : RBTree α} {p : Path α} {a : Nat} {c : m_RB} {v : α}
    {l r : Tree α} (f : Nat) (h : Foc t p (.node a c v l r))
    (hB : (p.plug (.node a c v l r)).Bal) (hN : (p.plug (.node a c v l r)).NoRR)
    (hR : (p.plug (.node a c v l r)).isRed = false)
    (hf : (p.plug (.node a c v l r)).height + 2 ≤ f) :
    ∃ (t' : RBTree α) (tr' : Tree α), RBTree.delete_node (f + 1) t (some a) = .ok t' ∧
      t'.Holds tr' ∧ tr'.Bal ∧ tr'.NoRR ∧ tr'.isRed = false ∧
      tr'.inorder = p.before ++ (l.inorder ++ r.inorder) ++ p.after ∧
      (∀ x ∈ tr'.addrs, x ∈ (p.plug (.node a c v l r)).addrs) ∧
      t'.brk = t.brk ∧ t'.m_size = t.m_size - 1 := by
  have hh := Path.height_plug p (.node a c v l r)
  by_cases hlr : l = .nil ∨ r = .nil
  · exact delete_node_simple f h hlr hB hN hR (by simp only [Tree.height] at hh; omega)
  · obtain ⟨la, lc, lv, ll, lrr, rfl⟩ : ∃ la lc lv ll lrr, l = .node la lc lv ll lrr := by
      cases l with
      | nil => exact absurd (Or.inl rfl) hlr
      | node la lc lv ll lrr => exact ⟨la, lc, lv, ll, lrr, rfl⟩
    have hrne : r ≠ .nil := fun e => hlr (Or.inr e)
    obtain ⟨g, rfl⟩ : ∃ g, f = g + 1 := ⟨f - 1, by omega⟩
    have hrh : r.height ≤ g + 1 := by simp only [Tree.height] at hh; omega
    obtain ⟨q, y, cy, vy, yr, hloop, hq, hqb, hqab⟩ :=
      leftmost_loop_spec t r (.right a c v _ p) (g + 1) (Foc_right.mpr h) hrne hrh
    have hrp : ∃ ra, r.ptr = some ra := by
      cases r with
      | nil => exact absurd rfl hrne
      | node ra _ _ _ _ => exact ⟨ra, rfl⟩
    obtain ⟨ra, hra⟩ := hrp
    subst hq
    have hy : Foc t (q.append (.right a c v _ p)) (.node y cy vy .nil yr) :=
      Foc_append.mpr (Foc_right.mpr h)
    obtain ⟨t1, e1, f1, b1, s1, _⟩ := set_data_spec hy v
    have f1a := Foc_right.mp (Foc_append.mp f1)
    obtain ⟨t2, e2, f2, b2, s2, _⟩ := set_data_spec f1a vy
    have f2y : Foc t2 (q.append (.right a c vy _ p)) (.node y cy v .nil yr) :=
      Foc_append.mpr (Foc_right.mpr f2)
    have hpl : (q.append (.right a c vy (.node la lc lv ll lrr) p)).plug (.node y cy v .nil yr) =
        p.plug (.node a c vy (.node la lc lv ll lrr) (q.plug (.node y cy v .nil yr))) := by
      rw [Path.plug_append]; rfl
    have hB2 : ((q.append (.right a c vy (.node la lc lv ll lrr) p)).plug
        (.node y cy v .nil yr)).Bal := by
      rw [hpl]
      refine (Path.bal_plug_congr p _ _ ?_ ?_).mp hB
      · cases c <;> rfl
      · simp only [Tree.Bal]
        rw [Path.bh_plug_congr q (.node y cy vy .nil yr) (.node y cy v .nil yr)
          (by cases cy <;> rfl),
          Path.bal_plug_congr q (.node y cy vy .nil yr) (.node y cy v .nil yr)
          (by cases cy <;> rfl) Iff.rfl]
    have hN2 : ((q.append (.right a c vy (.node la lc lv ll lrr) p)).plug
        (.node y cy v .nil yr)).NoRR := by
      rw [hpl]
      refine (Path.noRR_plug_congr p _ _ ?_ ?_).mp hN
      · cases c <;> rfl
      · simp only [Tree.NoRR]
        rw [Path.isRed_plug_congr q (.node y cy vy .nil yr) (.node y cy v .nil yr)
          (by cases cy <;> rfl),
          Path.noRR_plug_congr q (.node y cy vy .nil yr) (.node y cy v .nil yr)
          (by cases cy <;> rfl) Iff.rfl]
    have hR2 : ((q.append (.right a c vy (.node la lc lv ll lrr) p)).plug
        (.node y cy v .nil yr)).isRed = false := by
      rw [hpl, ← hR]
      exact Path.isRed_plug_congr _ _ _ (by cases c <;> rfl)
    have hd2 : (q.append (.right a c vy (.node la lc lv ll lrr) p)).depth + 2 ≤ g := by
      have h1 := Path.height_plug (q.append (.right a c v (.node la lc lv ll lrr) p))
        (.node y cy vy .nil yr)
      rw [Path.plug_append] at h1
      simp only [Path.plug, Tree.height] at h1
      simp only [Path.depth_append, Path.depth] at h1 ⊢
      omega
    obtain ⟨t', tr', e3, hh', h1, h2, h3, h4, h5, h6, h7⟩ :=
      delete_node_simple g f2y (Or.inl rfl) hB2 hN2 hR2 hd2
    have hin : (q.plug (.node y cy vy .nil yr)).inorder = vy :: yr.inorder ++ q.after := by
      rw [Path.inorder_plug, hqb]; simp [Tree.inorder]
    refine ⟨t', tr', ?_, hh', h1, h2, h3, ?_, ?_, by omega, by omega⟩
    · have hdy := hy.deref_root
      have hda := h.deref_root
      simp only [Tree.ptr_node, Tree.ptr_nil, hra] at hda hloop
      have hda1 := f1a.deref_root
      simp only [Tree.ptr_node, Tree.ptr_nil] at hda1
      have hra1 : (q.plug (Tree.node y cy v Tree.nil yr)).ptr = some ra := by
        rw [← hra]
        exact Path.ptr_plug_congr q rfl
      rw [hra1] at hda1
      rw [RBTree.delete_node]
      cases cy <;> cases c <;>
      simp [RBTree.BST_replace, hda, hloop, hdy, ok_bind, pure, Except.pure,
        e1, hda1, e2, e3]
    · rw [h4, hin]
      simp [Path.before_append, Path.after_append, Path.before, Path.after, hqb, Tree.inorder]
    · intro x hx
      have := h5 x hx
      rw [hpl] at this
      rw [Path.mem_addrs_plug] at this ⊢
      rcases this with hm | hm
      · left
        simp only [Tree.addrs, List.mem_append, List.mem_cons] at hm ⊢
        rcases hm with hm | hm | hm
        · exact Or.inl hm
        · exact Or.inr (Or.inl hm)
        · refine Or.inr (Or.inr ?_)
          rw [Path.mem_addrs_plug] at hm ⊢
          simpa [Tree.addrs] using hm
      · exact Or.inr hm

end jvn

/-! ## Erasing a value, and sequences of calls
-/

namespace jvn

set_option linter.unusedSectionVars false
set_option linter.unusedVariables false

variable {α : Type}

section ordered
variable [LinearOrder α] [Inhabited α]

theorem find_node_spec {t : RBTree α} {tr : Tree α} (val : α) (fuel : Nat) (hh : t.Holds tr)
    (hbst : tr.BST) (hf : tr.height < fuel) :
    (val ∈ tr.inorder → ∃ (p : Path α) (a : Nat) (c : m_RB) (l r : Tree α),
        t.find_node fuel val = .ok (some a) ∧
        Foc t p (.node a c val l r) ∧ p.plug (.node a c val l r) = tr) ∧
    (val ∉ tr.inorder → t.find_node fuel val = .ok none) := by
  have := find_node_loop_spec t val tr .top fuel hh hbst hf
  rw [← hh.root_eq] at this
  simpa [RBTree.find_node, Path.plug] using this

/-- `erase` of a value that is not stored throws and leaves the object as it
is. -/
theorem erase_absent {t : RBTree α} {tr : Tree α} {val : α} {fuel : Nat} (hh : t.Holds tr)
    (hbst : tr.BST) (habs : val ∉ tr.inorder) (hf : tr.height < fuel) :
    t.erase fuel val = (.error .value_has_not_been_inserted, t) := by
  simp [RBTree.erase, (find_node_spec val fuel hh hbst hf).2 habs]

/-- `erase` of a value that is stored. -/
theorem erase_present {t : RBTree α} {tr : Tree α} {val : α} {fuel : Nat}
    (hv : t.Valid tr) (hB : tr.Bal) (hN : tr.NoRR) (hR : tr.isRed = false) (hbst : tr.BST)
    (hpres : val ∈ tr.inorder) (hf : tr.height + 2 < fuel) :
    ∃ (t' : RBTree α) (tr' : Tree α), t.erase fuel val = (.ok (), t') ∧ t'.Valid tr' ∧
      tr'.Bal ∧ tr'.NoRR ∧ tr'.isRed = false ∧ tr'.BST ∧
      (∃ before after, tr.inorder = before ++ val :: after ∧ tr'.inorder = before ++ after) ∧
      val ∉ tr'.inorder ∧ t'.m_size + 1 = t.m_size := by
  obtain ⟨hh, hfresh, hsize⟩ := hv
  obtain ⟨p, a, c, l, r, e1, f1, hpl⟩ := (find_node_spec val fuel hh hbst (by omega)).1 hpres
  obtain ⟨f, rfl⟩ : ∃ f, fuel = f + 1 := ⟨fuel - 1, by omega⟩
  obtain ⟨t', tr', e2, hh', h1, h2, h3, h4, h5, h6, h7⟩ :=
    delete_node_spec f f1 (hpl ▸ hB) (hpl ▸ hN) (hpl ▸ hR) (by rw [hpl]; omega)
  have hin : tr.inorder = (p.before ++ l.inorder) ++ val :: (r.inorder ++ p.after) := by
    rw [← hpl, Path.inorder_plug]; simp [Tree.inorder]
  have hin' : tr'.inorder = (p.before ++ l.inorder) ++ (r.inorder ++ p.after) := by
    rw [h4]; simp
  have hsorted := (Tree.bst_iff_sorted tr).mp hbst
  rw [hin] at hsorted
  have hsorted' : ((p.before ++ l.inorder) ++ (r.inorder ++ p.after)).Pairwise (· < ·) :=
    hsorted.sublist (List.Sublist.append_left (List.sublist_cons_self _ _) _)
  have hlen : tr.size = tr'.size + 1 := by
    rw [← Tree.length_inorder, ← Tree.length_inorder, hin, hin']
    simp only [List.length_append, List.length_cons]
    omega
  refine ⟨t', tr', ?_, ⟨hh', ?_, ?_⟩, h1, h2, h3, ?_, ⟨_, _, hin, hin'⟩, ?_, ?_⟩
  · simp [RBTree.erase, e1, e2]
  · intro x hx
    rw [h6]
    exact hfresh x (hpl ▸ h5 x hx)
  · rw [h7, hsize, hlen]; rfl
  · rw [Tree.bst_iff_sorted, hin']; exact hsorted'
  · rw [hin']
    intro hm
    rw [List.pairwise_append] at hsorted
    rcases List.mem_append.mp hm with hm | hm
    · exact lt_irrefl _ (hsorted.2.2 val hm val (List.mem_cons_self _ _))
    · exact lt_irrefl _ ((List.pairwise_cons.mp hsorted.2.1).1 val hm)
  · rw [h7, hsize, hlen]; rfl

/-- One call keeps a valid red-black search tree valid, and changes the number
of nodes by at most one. -/
theorem apply_invariant {t : RBTree α} {tr : Tree α} (op : Op α) {fuel : Nat}
    (hv : t.Valid tr) (hB : tr.Bal) (hN : tr.NoRR) (hR : tr.isRed = false) (hbst : tr.BST)
    (hf : tr.height + 2 < fuel) :
    ∃ (t' : RBTree α) (tr' : Tree α), t.apply fuel op = .ok t' ∧ t'.Valid tr' ∧
      tr'.Bal ∧ tr'.NoRR ∧ tr'.isRed = false ∧ tr'.BST ∧ tr'.size ≤ tr.size + 1 := by
  cases op with
  | insert v =>
    by_cases hm : v ∈ tr.inorder
    · exact ⟨t, tr, by simpa [RBTree.apply] using insert_present hv hN hR hbst hm (by omega),
        hv, hB, hN, hR, hbst, by omega⟩
    · have hf' : tr.height < fuel := by omega
      obtain ⟨t', tr', e, hv', h1, h2, h3, h4, ⟨b, a, hi, hi', _⟩, h6⟩ :=
        insert_absent hv hB hN hR hbst hm hf'
      refine ⟨t', tr', by simpa [RBTree.apply] using e, hv', h1, h2, h3, h4, ?_⟩
      rw [← Tree.length_inorder, ← Tree.length_inorder, hi, hi']
      simp only [List.length_append, List.length_cons]
      omega
  | erase v =>
    by_cases hm : v ∈ tr.inorder
    · obtain ⟨t', tr', e, hv', h1, h2, h3, h4, ⟨b, a, hi, hi'⟩, _, h6⟩ :=
        erase_present hv hB hN hR hbst hm hf
      refine ⟨t', tr', by simp [RBTree.apply, e], hv', h1, h2, h3, h4, ?_⟩
      rw [← Tree.length_inorder, ← Tree.length_inorder, hi, hi']
      simp only [List.length_append, List.length_cons]
      omega
    · have hf' : tr.height < fuel := by omega
      exact ⟨t, tr, by simp [RBTree.apply, erase_absent hv.1 hbst hm hf'],
        hv, hB, hN, hR, hbst, by omega⟩

/-- A sequence of calls keeps a valid red-black search tree valid. -/
theorem run_invariant (ops : List (Op α)) :
    ∀ (t : RBTree α) (tr : Tree α) (fuel : Nat), t.Valid tr → tr.Bal → tr.NoRR →
      tr.isRed = false → tr.BST → tr.size + ops.length + 2 < fuel →
      ∃ (t' : RBTree α) (tr' : Tree α), RBTree.run fuel ops t = .ok t' ∧ t'.Valid tr' ∧
        tr'.Bal ∧ tr'.NoRR ∧ tr'.isRed = false ∧ tr'.BST ∧ tr'.size ≤ tr.size + ops.length := by
  induction ops with
  | nil =>
    intro t tr fuel hv hB hN hR hbst _
    exact ⟨t, tr, rfl, hv, hB, hN, hR, hbst, by simp⟩
  | cons op ops ih =>
    intro t tr fuel hv hB hN hR hbst hf
    have hh := tr.height_le_size
    simp only [List.length_cons] at hf
    have hf' : tr.height + 2 < fuel := by omega
    obtain ⟨t1, tr1, e1, hv1, hB1, hN1, hR1, hbst1, hs1⟩ :=
      apply_invariant op hv hB hN hR hbst hf'
    obtain ⟨t', tr', e2, hv', hB', hN', hR', hbst', hs'⟩ :=
      ih t1 tr1 fuel hv1 hB1 hN1 hR1 hbst1 (by omega)
    refine ⟨t', tr', ?_, hv', hB', hN', hR', hbst', ?_⟩
    · simp [RBTree.run, e1, ok_bind, e2]
    · simp only [List.length_cons]; omega

theorem valid_new : (RBTree.new : RBTree α).Valid .nil := by
  simp [RBTree.Valid, RBTree.Holds, Foc, Rep, RepPath, RBTree.new, Tree.addrs, Path.addrs,
    Tree.size]

end ordered

end jvn

/-! ## Nodes by address, and the values read by an iteration -/

namespace jvn

set_option linter.unusedSectionVars false
set_option linter.unusedVariables false

variable {α : Type}

theorem Rep.value_mem {mem : Nat → Option (RBTreeNode α)} {par : Option Nat} {tr : Tree α}
    {a : Nat} (hr : Rep mem par tr) (h : a ∈ tr.addrs) :
    ∃ n, mem a = some n ∧ n.m_data ∈ tr.inorder := by
  induction tr generalizing par with
  | nil => simp [Tree.addrs] at h
  | node b c v l r ihl ihr =>
    simp only [Rep] at hr
    simp only [Tree.addrs, List.mem_append, List.mem_cons] at h
    rcases h with h | h | h
    · obtain ⟨n, e, hm⟩ := ihl hr.2.1 h
      exact ⟨n, e, by simp [Tree.inorder, hm]⟩
    · subst h
      exact ⟨_, hr.1, by simp [Tree.inorder]⟩
    · obtain ⟨n, e, hm⟩ := ihr hr.2.2 h
      exact ⟨n, e, by simp [Tree.inorder, hm]⟩

section ordered
variable [LinearOrder α]

theorem Rep.data_inj {mem : Nat → Option (RBTreeNode α)} {par : Option Nat} {tr : Tree α}
    (hr : Rep mem par tr) (hbst : tr.BST) {a b : Nat} {na nb : RBTreeNode α}
    (ha : a ∈ tr.addrs) (hb : b ∈ tr.addrs) (ea : mem a = some na) (eb : mem b = some nb)
    (hd : na.m_data = nb.m_data) : a = b := by
  induction tr generalizing par with
  | nil => simp [Tree.addrs] at ha
  | node x c v l r ihl ihr =>
    simp only [Rep] at hr
    simp only [Tree.BST] at hbst
    obtain ⟨hl, hg, hbl, hbr⟩ := hbst
    have key : ∀ {s : Tree α} {q : Option Nat} {y : Nat} {n : RBTreeNode α}, Rep mem q s →
        y ∈ s.addrs → mem y = some n → n.m_data ∈ s.inorder := by
      intro s q y n hs hy e
      obtain ⟨n', e', hm⟩ := hs.value_mem hy
      rw [e] at e'
      cases e'
      exact hm
    have root : ∀ {n : RBTreeNode α}, mem x = some n → n.m_data = v := by
      intro n e
      rw [hr.1] at e
      cases e
      rfl
    simp only [Tree.addrs, List.mem_append, List.mem_cons] at ha hb
    rcases ha with ha | ha | ha <;> rcases hb with hb | hb | hb
    · exact ihl hr.2.1 hbl ha hb
    · subst hb
      have h1 := hl _ (key hr.2.1 ha ea)
      rw [hd, root eb] at h1
      exact absurd h1 (lt_irrefl _)
    · have h1 := hl _ (key hr.2.1 ha ea)
      have h2 := hg _ (key hr.2.2 hb eb)
      rw [hd] at h1
      exact absurd (lt_trans h1 h2) (lt_irrefl _)
    · subst ha
      have h1 := hl _ (key hr.2.1 hb eb)
      rw [← hd, root ea] at h1
      exact absurd h1 (lt_irrefl _)
    · rw [ha, hb]
    · subst ha
      have h1 := hg _ (key hr.2.2 hb eb)
      rw [← hd, root ea] at h1
      exact absurd h1 (lt_irrefl _)
    · have h1 := hg _ (key hr.2.2 ha ea)
      have h2 := hl _ (key hr.2.1 hb eb)
      rw [hd] at h1
      exact absurd (lt_trans h2 h1) (lt_irrefl _)
    · subst hb
      have h1 := hg _ (key hr.2.2 ha ea)
      rw [hd, root eb] at h1
      exact absurd h1 (lt_irrefl _)
    · exact ihr hr.2.2 hbr ha hb

end ordered

theorem read_all_append (t : RBTree α) (ps qs : List (Option Nat)) (vs ws : List α)
    (h1 : t.read_all ps = .ok vs) (h2 : t.read_all qs = .ok ws) :
    t.read_all (ps ++ qs) = .ok (vs ++ ws) := by
  induction ps generalizing vs with
  | nil =>
    simp only [RBTree.read_all, Except.ok.injEq] at h1
    subst h1
    simpa using h2
  | cons p ps ih =>
    simp only [RBTree.read_all, List.cons_append] at h1 ⊢
    cases hs : RBTreeIterator.star t ⟨p⟩ with
    | error e => simp [hs, bind, Except.bind] at h1
    | ok v =>
      cases hrest : t.read_all ps with
      | error e => simp [hs, hrest, bind, Except.bind] at h1
      | ok vs' =>
        simp only [hs, hrest, bind, Except.bind, pure, Except.pure, Except.ok.injEq] at h1
        subst h1
        simp [ih vs' hrest, bind, Except.bind, pure, Except.pure]

theorem read_all_spec (t : RBTree α) {par : Option Nat} {tr : Tree α} (hr : Rep t.mem par tr) :
    t.read_all (tr.addrs.map some) = .ok tr.inorder := by
  induction tr generalizing par with
  | nil => simp [Tree.addrs, Tree.inorder, RBTree.read_all]
  | node a c v l r ihl ihr =>
    simp only [Rep] at hr
    simp only [Tree.addrs, Tree.inorder, List.map_append, List.map_cons]
    refine read_all_append t _ _ _ _ (ihl hr.2.1) ?_
    simp [RBTree.read_all, RBTreeIterator.star, RBTree.deref, hr.1, ihr hr.2.2, bind,
      Except.bind, pure, Except.pure]

theorem traverse_spec [DecidableEq α] (t : RBTree α) (tr : Tree α) (k fuel : Nat)
    (hh : t.Holds tr) (hk : tr.height ≤ k) (hf : tr.size < fuel) :
    t.traverse k fuel = .ok (tr.addrs.map some) := by
  obtain ⟨it, hb, hhead, hcase⟩ := begin_spec t tr k hh hk
  rcases hcase with ⟨hnil, hit⟩ | ⟨p, a, c, w, r, hptr, hfoc, hpl, hadd⟩
  · subst hnil
    obtain ⟨g, rfl⟩ : ∃ g, fuel = g + 1 := ⟨fuel - 1, by omega⟩
    simp [RBTree.traverse, hb, ok_bind, hit, RBTree.traverse_loop, ne_end_end,
      pure, Except.pure, Tree.addrs]
  · obtain ⟨q⟩ := it
    simp only at hptr
    subst hptr
    have hl := Tree.length_addrs tr
    rw [← hadd] at hl
    simp only [List.length_cons] at hl
    simp only [RBTree.traverse, hb, ok_bind]
    rw [traverse_loop_spec t tr k hk fuel p a c w .nil r hfoc hpl (by omega), ← hadd]
    rfl

theorem values_spec [DecidableEq α] (t : RBTree α) (tr : Tree α) (k fuel : Nat)
    (hh : t.Holds tr) (hk : tr.height ≤ k) (hf : tr.size < fuel) :
    t.values k fuel = .ok tr.inorder := by
  simp only [RBTree.values, traverse_spec t tr k fuel hh hk hf, ok_bind]
  exact read_all_spec t hh.1

theorem Tree.strip_inorder (t : Tree α) : t.strip.inorder = t.inorder := by
  induction t with
  | nil => rfl
  | node a c v l r ihl ihr => simp [Tree.strip, Tree.inorder, ihl, ihr]

theorem Tree.strip_size (t : Tree α) : t.strip.size = t.size := by
  induction t with
  | nil => rfl
  | node a c v l r ihl ihr => simp [Tree.strip, Tree.size, ihl, ihr]

theorem Tree.strip_height (t : Tree α) : t.strip.height = t.height := by
  induction t with
  | nil => rfl
  | node a c v l r ihl ihr => simp [Tree.strip, Tree.height, ihl, ihr]

end jvn

/-! ## The height of a red-black tree -/

namespace jvn

set_option linter.unusedSectionVars false
set_option linter.unusedVariables false

variable {α : Type}

theorem Tree.height_le_bh {t : Tree α} (hB : t.Bal) (hN : t.NoRR) :
    t.height ≤ 2 * t.bh + (if t.isRed then 1 else 0) := by
  induction t with
  | nil => simp [Tree.height, Tree.bh, Tree.isRed]
  | node a c v l r ihl ihr =>
    simp only [Tree.Bal] at hB
    simp only [Tree.NoRR] at hN
    obtain ⟨hb, hBl, hBr⟩ := hB
    obtain ⟨hc, hNl, hNr⟩ := hN
    have h1 := ihl hBl hNl
    have h2 := ihr hBr hNr
    cases c with
    | m_red =>
      obtain ⟨hl, hr⟩ := hc rfl
      simp only [hl, hr, Bool.false_eq_true, if_false, Nat.add_zero] at h1 h2
      simp only [Tree.height, Tree.bh, Tree.isRed, if_true]
      omega
    | m_black =>
      simp only [Tree.height, Tree.bh, Tree.isRed, Bool.false_eq_true, if_false]
      split at h1 <;> split at h2 <;> omega

theorem Tree.pow_bh_le_size {t : Tree α} (hB : t.Bal) : 2 ^ t.bh ≤ t.size + 1 := by
  induction t with
  | nil => simp [Tree.bh, Tree.size]
  | node a c v l r ihl ihr =>
    simp only [Tree.Bal] at hB
    obtain ⟨hb, hBl, hBr⟩ := hB
    have h1 := ihl hBl
    have h2 := ihr hBr
    rw [hb] at h1
    cases c with
    | m_red =>
      simp only [Tree.bh, Tree.size, hb]
      omega
    | m_black =>
      simp only [Tree.bh, Tree.size, hb, Nat.pow_succ]
      omega

theorem Tree.height_le_log {t : Tree α} (hB : t.Bal) (hN : t.NoRR) (hR : t.isRed = false) :
    t.height ≤ 2 * Nat.log 2 (t.size + 1) := by
  have h1 := Tree.height_le_bh hB hN
  simp only [hR, Bool.false_eq_true, if_false, Nat.add_zero] at h1
  have h2 : t.bh ≤ Nat.log 2 (t.size + 1) :=
    Nat.le_log_of_pow_le (by decide) (Tree.pow_bh_le_size hB)
  omega

theorem Tree.height_le_logb {t : Tree α} (hB : t.Bal) (hN : t.NoRR) (hR : t.isRed = false) :
    (t.height : ℝ) ≤ 2 * Real.logb 2 (t.size + 1) := by
  have h1 : (t.height : ℝ) ≤ ((2 * Nat.log 2 (t.size + 1) : ℕ) : ℝ) := by
    exact_mod_cast Tree.height_le_log hB hN hR
  have h2 := Real.natLog_le_logb (t.size + 1) 2
  push_cast at h1 h2
  linarith

end jvn

/-! ## Removing a red leaf -/

namespace jvn

set_option linter.unusedSectionVars false
set_option linter.unusedVariables false
set_option linter.unusedTactic false
set_option linter.unreachableTactic false

variable {α : Type}

/-- Assigning to `m_color` the colour the node already has changes nothing. -/
theorem set_color_same {t : RBTree α} {y : Nat} {n : RBTreeNode α} {c : m_RB}
    (h : t.mem y = some n) (hc : n.m_color = c) : t.set_color (some y) c = .ok t := by
  cases t with
  | mk mem brk root size =>
    simp only at h
    subst hc
    have e : Function.update mem y (some n) = mem := by
      rw [← h]
      exact Function.update_eq_self y mem
    simp only [RBTree.set_color, RBTree.modify, h]
    show Except.ok (RBTree.mk (Function.update mem y (some n)) brk root size) = _
    rw [e]

theorem Path.sibling_red_leaf_left {a pa : Nat} {pc : m_RB} {v pv : α} {up : Path α}
    {S : Tree α} (hB : ((Path.left pa pc pv up S).plug (.node a .m_red v .nil .nil)).Bal)
    (hN : ((Path.left pa pc pv up S).plug (.node a .m_red v .nil .nil)).NoRR) :
    S = .nil ∨ ∃ y yv, S = .node y .m_red yv .nil .nil := by
  rw [Path.bal_plug] at hB
  rw [Path.noRR_plug] at hN
  have hb : S.bh = 0 ∧ S.Bal := by
    cases pc <;> simp only [Path.Bal, Tree.bh] at hB <;> exact ⟨hB.2.1, hB.2.2.1⟩
  simp only [Path.NoRR] at hN
  exact Tree.red_leaf_of_bh_zero hb.1 hb.2 hN.2.1.1

theorem Path.sibling_red_leaf_right {a pa : Nat} {pc : m_RB} {v pv : α} {up : Path α}
    {S : Tree α} (hB : ((Path.right pa pc pv S up).plug (.node a .m_red v .nil .nil)).Bal)
    (hN : ((Path.right pa pc pv S up).plug (.node a .m_red v .nil .nil)).NoRR) :
    S = .nil ∨ ∃ y yv, S = .node y .m_red yv .nil .nil := by
  rw [Path.bal_plug] at hB
  rw [Path.noRR_plug] at hN
  have hb : S.bh = 0 ∧ S.Bal := by
    cases pc <;> simp only [Path.Bal, Tree.bh] at hB <;> exact ⟨hB.2.1, hB.2.2.1⟩
  simp only [Path.NoRR] at hN
  exact Tree.red_leaf_of_bh_zero hb.1 hb.2 hN.2.1.1

/-- Deleting a red leaf that is a left child, step by step: the sibling is
absent or a red leaf, colouring it red leaves the store as it is, and the
result is the store with the leaf unlinked and released. -/
theorem delete_red_leaf_left_exact {t : RBTree α} {up : Path α} {a pa : Nat} {pc : m_RB}
    {v pv : α} {S : Tree α} (f : Nat)
    (h : Foc t (.left pa pc pv up S) (.node a .m_red v .nil .nil))
    (hS : S = .nil ∨ ∃ y yv, S = .node y .m_red yv .nil .nil) :
    t.sibling (some a) = .ok S.ptr ∧
    (∀ y, S.ptr = some y →
      (∃ yv, t.mem y = some ⟨yv, .m_red, none, none, some pa⟩) ∧
      t.set_color (some y) .m_red = .ok t) ∧
    ∃ t2 t3, t.set_left (some pa) none = .ok t2 ∧ t2.destroy_node (some a) = .ok t3 ∧
      RBTree.delete_node (f + 1) t (some a) = .ok { t3 with m_size := t3.m_size - 1 } ∧
      Foc t3 (.left pa pc pv up S) .nil := by
  have hd := h.deref_root
  simp only [Tree.ptr_nil] at hd
  have hsib := sibling_left h
  obtain ⟨t2, t3, e2, e3, f3, b3, s3⟩ := detach_left_spec h
  refine ⟨hsib, ?_, t2, t3, e2, e3, ?_, f3⟩
  · intro y hy
    rcases hS with rfl | ⟨y', yv, rfl⟩
    · simp at hy
    · simp only [Tree.ptr_node, Option.some.injEq] at hy
      subst hy
      have hm := (Foc_right.mpr (Foc_left.mp h)).mem_root
      simp only [Tree.ptr_nil, Path.ptr_right] at hm
      exact ⟨⟨yv, hm⟩, set_color_same hm rfl⟩
  · rcases hS with rfl | ⟨y, yv, rfl⟩
    · simp [RBTree.delete_node, RBTree.BST_replace, hd, ok_bind, pure, Except.pure, h.root_ne,
        hsib, (Foc_left.mp h).deref_root, e2, e3]
    · have hm := (Foc_right.mpr (Foc_left.mp h)).mem_root
      have e1 : t.set_color (some y) .m_red = .ok t := set_color_same hm rfl
      simp [RBTree.delete_node, RBTree.BST_replace, hd, ok_bind, pure, Except.pure, h.root_ne,
        hsib, e1, (Foc_left.mp h).deref_root, e2, e3]

/-- Deleting a red leaf that is a right child, step by step. -/
theorem delete_red_leaf_right_exact {t : RBTree α} {up : Path α} {a pa : Nat} {pc : m_RB}
    {v pv : α} {S : Tree α} (f : Nat)
    (h : Foc t (.right pa pc pv S up) (.node a .m_red v .nil .nil))
    (hS : S = .nil ∨ ∃ y yv, S = .node y .m_red yv .nil .nil) :
    t.sibling (some a) = .ok S.ptr ∧
    (∀ y, S.ptr = some y →
      (∃ yv, t.mem y = some ⟨yv, .m_red, none, none, some pa⟩) ∧
      t.set_color (some y) .m_red = .ok t) ∧
    ∃ t2 t3, t.set_right (some pa) none = .ok t2 ∧ t2.destroy_node (some a) = .ok t3 ∧
      RBTree.delete_node (f + 1) t (some a) = .ok { t3 with m_size := t3.m_size - 1 } ∧
      Foc t3 (.right pa pc pv S up) .nil := by
  have hd := h.deref_root
  simp only [Tree.ptr_nil] at hd
  have hsib := sibling_right h
  have hn := h.nodup_facts_right
  obtain ⟨t2, t3, e2, e3, f3, b3, s3⟩ := detach_right_spec h
  refine ⟨hsib, ?_, t2, t3, e2, e3, ?_, f3⟩
  · intro y hy
    rcases hS with rfl | ⟨y', yv, rfl⟩
    · simp at hy
    · simp only [Tree.ptr_node, Option.some.injEq] at hy
      subst hy
      have hm := (Foc_left.mpr (Foc_right.mp h)).mem_root
      simp only [Tree.ptr_nil, Path.ptr_left] at hm
      exact ⟨⟨yv, hm⟩, set_color_same hm rfl⟩
  · rcases hS with rfl | ⟨y, yv, rfl⟩
    · simp [RBTree.delete_node, RBTree.BST_replace, hd, ok_bind, pure, Except.pure, h.root_ne,
        hsib, (Foc_right.mp h).deref_root, e2, e3]
    · have hm := (Foc_left.mpr (Foc_right.mp h)).mem_root
      have e1 : t.set_color (some y) .m_red = .ok t := set_color_same hm rfl
      have hya : y ≠ a := fun e => hn.1 (by simp [Tree.addrs, e])
      simp [RBTree.delete_node, RBTree.BST_replace, hd, ok_bind, pure, Except.pure, h.root_ne,
        hsib, e1, (Foc_right.mp h).deref_root, e2, e3, eq_ptr_false hn.1, ptr_eq_false hn.1,
        hya]

end jvn

/-! ## The nested call of `delete_node` -/

namespace jvn

set_option linter.unusedSectionVars false
set_option linter.unusedVariables false
set_option linter.unusedTactic false
set_option linter.unreachableTactic false

variable {α : Type}

/-- On a node with two children `delete_node` exchanges the node's value with
that of the in-order successor `y` and calls itself on `y`, which has no left
child. -/
theorem delete_node_two_children {t : RBTree α} {p : Path α} {a : Nat} {c : m_RB} {v : α}
    {l r : Tree α} (f : Nat) (h : Foc t p (.node a c v l r)) (hl : l ≠ .nil) (hr : r ≠ .nil)
    (hf : r.height ≤ f) :
    ∃ (y : Nat) (yn yn2 : RBTreeNode α) (t2 : RBTree α),
      t.BST_replace f (some a) = .ok (some y) ∧ y ≠ a ∧
      t.mem y = some yn ∧ yn.m_left = none ∧
      t2.mem y = some yn2 ∧ yn2.m_left = none ∧ yn2.m_data = v ∧
      RBTree.delete_node (f + 1) t (some a) = RBTree.delete_node f t2 (some y) := by
  obtain ⟨la, lc, lv, ll, lrr, rfl⟩ : ∃ la lc lv ll lrr, l = .node la lc lv ll lrr := by
    cases l with
    | nil => exact absurd rfl hl
    | node la lc lv ll lrr => exact ⟨la, lc, lv, ll, lrr, rfl⟩
  obtain ⟨q, y, cy, vy, yr, hloop, hq, hqb, hqab⟩ :=
    leftmost_loop_spec t r (.right a c v _ p) f (Foc_right.mpr h) hr hf
  obtain ⟨ra, hra⟩ : ∃ ra, r.ptr = some ra := by
    cases r with
    | nil => exact absurd rfl hr
    | node ra _ _ _ _ => exact ⟨ra, rfl⟩
  subst hq
  have hy : Foc t (q.append (.right a c v _ p)) (.node y cy vy .nil yr) :=
    Foc_append.mpr (Foc_right.mpr h)
  obtain ⟨t1, e1, f1, b1, s1, _⟩ := set_data_spec hy v
  have f1a := Foc_right.mp (Foc_append.mp f1)
  obtain ⟨t2, e2, f2, b2, s2, _⟩ := set_data_spec f1a vy
  have f2y : Foc t2 (q.append (.right a c vy _ p)) (.node y cy v .nil yr) :=
    Foc_append.mpr (Foc_right.mpr f2)
  have hya : y ≠ a := by
    have hnm := h.not_mem_right
    intro e
    apply hnm
    rw [Path.mem_addrs_plug]
    exact Or.inl (by simp [Tree.addrs, e])
  have hdy := hy.deref_root
  have hda := h.deref_root
  simp only [Tree.ptr_node, Tree.ptr_nil, hra] at hda hloop
  have hda1 := f1a.deref_root
  simp only [Tree.ptr_node, Tree.ptr_nil] at hda1
  have hra1 : (q.plug (Tree.node y cy v Tree.nil yr)).ptr = some ra := by
    rw [← hra]
    exact Path.ptr_plug_congr q rfl
  rw [hra1] at hda1
  refine ⟨y, _, _, t2, ?_, hya, hy.mem_root, rfl, f2y.mem_root, rfl, rfl, ?_⟩
  · simp [RBTree.BST_replace, hda, hloop, ok_bind, pure, Except.pure]
  · rw [RBTree.delete_node]
    cases cy <;> cases c <;>
    simp [RBTree.BST_replace, hda, hloop, hdy, ok_bind, pure, Except.pure,
      e1, hda1, e2]

end jvn

/-! ## Releasing and copying a tree -/

namespace jvn

set_option linter.unusedSectionVars false
set_option linter.unusedVariables false
set_option linter.unusedTactic false
set_option linter.unreachableTactic false

variable {α : Type}

theorem Rep_congr {mem mem' : Nat → Option (RBTreeNode α)} {par : Option Nat} {tr : Tree α}
    (h : ∀ b ∈ tr.addrs, mem' b = mem b) (hr : Rep mem par tr) : Rep mem' par tr := by
  induction tr generalizing par with
  | nil => trivial
  | node a c v l r ihl ihr =>
    simp only [Rep] at hr ⊢
    simp only [Tree.addrs, List.mem_append, List.mem_cons] at h
    refine ⟨?_, ihl (fun b hb => h b (Or.inl hb)) hr.2.1,
      ihr (fun b hb => h b (Or.inr (Or.inr hb))) hr.2.2⟩
    rw [h a (Or.inr (Or.inl rfl))]
    exact hr.1

/-- `destroy_tree` releases exactly the nodes of the tree below the pointer. -/
theorem destroy_tree_spec (tr : Tree α) :
    ∀ (t : RBTree α) (par : Option Nat) (fuel : Nat), Rep t.mem par tr → tr.addrs.Nodup →
      tr.height < fuel →
      ∃ t', RBTree.destroy_tree fuel t tr.ptr = .ok t' ∧ t'.m_root = t.m_root ∧
        t'.m_size = t.m_size ∧ t'.brk = t.brk ∧
        (∀ b ∈ tr.addrs, t'.mem b = none) ∧ (∀ b, b ∉ tr.addrs → t'.mem b = t.mem b) := by
  induction tr with
  | nil =>
    intro t par fuel _ _ hf
    obtain ⟨g, rfl⟩ : ∃ g, fuel = g + 1 := ⟨fuel - 1, by omega⟩
    exact ⟨t, by simp [RBTree.destroy_tree], rfl, rfl, rfl, by simp [Tree.addrs], fun _ _ => rfl⟩
  | node a c v l r ihl ihr =>
    intro t par fuel hr hnd hf
    obtain ⟨g, rfl⟩ : ∃ g, fuel = g + 1 := ⟨fuel - 1, by omega⟩
    simp only [Rep] at hr
    simp only [Tree.height] at hf
    simp only [Tree.addrs, List.nodup_append, List.nodup_cons, List.disjoint_cons_right] at hnd
    obtain ⟨hndl, ⟨har, hndr⟩, hal, hdisj⟩ := hnd
    obtain ⟨t1, e1, r1, s1, b1, n1, f1⟩ := ihl t (some a) g hr.2.1 hndl (by omega)
    have hm1 : t1.mem a = some ⟨v, c, l.ptr, r.ptr, par⟩ := by rw [f1 a hal]; exact hr.1
    have hr1 : Rep t1.mem (some a) r :=
      Rep_congr (fun b hb => f1 b (fun hbl => hdisj hbl hb)) hr.2.2
    obtain ⟨t2, e2, r2, s2, b2, n2, f2⟩ := ihr t1 (some a) g hr1 hndr (by omega)
    have hm2 : t2.mem a = some ⟨v, c, l.ptr, r.ptr, par⟩ := by rw [f2 a har]; exact hm1
    refine ⟨{ t2 with mem := Function.update t2.mem a none }, ?_, by simp [r2, r1],
      by simp [s2, s1], by simp [b2, b1], ?_, ?_⟩
    · simp [RBTree.destroy_tree, RBTree.deref, hr.1, ok_bind, e1, hm1, e2, RBTree.destroy_node,
        hm2]
    · intro b hb
      simp only [Tree.addrs, List.mem_append, List.mem_cons] at hb
      by_cases hba : b = a
      · subst hba
        simp
      · simp only [Function.update_noteq hba]
        rcases hb with hb | hb | hb
        · by_cases hbr : b ∈ r.addrs
          · exact n2 b hbr
          · rw [f2 b hbr]
            exact n1 b hb
        · exact absurd hb hba
        · exact n2 b hb
    · intro b hb
      simp only [Tree.addrs, List.mem_append, List.mem_cons, not_or] at hb
      simp only [Function.update_noteq hb.2.1]
      rw [f2 b hb.2.2, f1 b hb.1]

/-- Assigning through a writable reference. -/
theorem store_spec {t : RBTree α} {dst : Node_ptr_ref} (hw : dst.Writable t) (q : Option Nat) :
    ∃ t', t.store dst q = .ok t' ∧ dst.Stored t t' q ∧ t'.brk = t.brk ∧
      t'.m_size = t.m_size ∧ ∀ b, t.brk ≤ b → t'.mem b = t.mem b := by
  cases dst with
  | m_root =>
    exact ⟨{ t with m_root := q }, rfl, ⟨rfl, fun b _ => rfl⟩, rfl, rfl, fun _ _ => rfl⟩
  | m_left p =>
    obtain ⟨a, n, rfl, ha, hm⟩ := hw
    refine ⟨{ t with mem := Function.update t.mem a (some { n with m_left := q }) }, ?_,
      ⟨rfl, ?_⟩, rfl, rfl, ?_⟩
    · simp [RBTree.store, RBTree.set_left, RBTree.modify, hm]
    · intro b _
      by_cases hb : a = b
      · subst hb
        simp [Node_ptr_ref.upd, hm]
      · simp [Node_ptr_ref.upd, hb, Function.update_noteq (Ne.symm hb)]
    · intro b hb
      exact Function.update_noteq (by omega) _ _
  | m_right p =>
    obtain ⟨a, n, rfl, ha, hm⟩ := hw
    refine ⟨{ t with mem := Function.update t.mem a (some { n with m_right := q }) }, ?_,
      ⟨rfl, ?_⟩, rfl, rfl, ?_⟩
    · simp [RBTree.store, RBTree.set_right, RBTree.modify, hm]
    · intro b _
      by_cases hb : a = b
      · subst hb
        simp [Node_ptr_ref.upd, hm]
      · simp [Node_ptr_ref.upd, hb, Function.update_noteq (Ne.symm hb)]
    · intro b hb
      exact Function.update_noteq (by omega) _ _

/-- Reading through a reference returns what was assigned to it. -/
theorem load_of_stored {t t' : RBTree α} {dst : Node_ptr_ref} {q : Option Nat}
    (hw : dst.Writable t) (hs : dst.Stored t t' q) : t'.load dst = .ok q := by
  cases dst with
  | m_root => simp [RBTree.load, hs.1]
  | m_left p =>
    obtain ⟨a, n, rfl, ha, hm⟩ := hw
    have := hs.2 a ha
    simp only [Node_ptr_ref.upd, if_true, hm, Option.map_some'] at this
    simp [RBTree.load, RBTree.deref, this, ok_bind, pure, Except.pure]
  | m_right p =>
    obtain ⟨a, n, rfl, ha, hm⟩ := hw
    have := hs.2 a ha
    simp only [Node_ptr_ref.upd, if_true, hm, Option.map_some'] at this
    simp [RBTree.load, RBTree.deref, this, ok_bind, pure, Except.pure]

/-- Later changes that leave `m_root` and the old addresses alone keep what was
stored. -/
theorem Node_ptr_ref.Stored.frame {t t1 t2 : RBTree α} {dst : Node_ptr_ref} {q : Option Nat}
    (hs : dst.Stored t t1 q) (hroot : t2.m_root = t1.m_root)
    (hmem : ∀ b, b < t.brk → t2.mem b = t1.mem b) : dst.Stored t t2 q := by
  refine ⟨?_, fun b hb => by rw [hmem b hb]; exact hs.2 b hb⟩
  cases dst <;> simp only [hroot] <;> exact hs.1

theorem Node_ptr_ref.upd_of_ne {dst : Node_ptr_ref} {q : Option Nat} {b : Nat}
    {x : Option (RBTreeNode α)} (h : dst.cell ≠ some b) : dst.upd q b x = x := by
  cases dst <;> simp_all [Node_ptr_ref.upd, Node_ptr_ref.cell]

theorem Node_ptr_ref.Writable.cell_ne {t : RBTree α} {dst : Node_ptr_ref} (hw : dst.Writable t)
    {b : Nat} (hb : t.brk ≤ b) : dst.cell ≠ some b := by
  cases dst with
  | m_root => simp [Node_ptr_ref.cell]
  | m_left p =>
    obtain ⟨a, n, rfl, ha, hm⟩ := hw
    simp only [Node_ptr_ref.cell, ne_eq, Option.some.injEq]
    omega
  | m_right p =>
    obtain ⟨a, n, rfl, ha, hm⟩ := hw
    simp only [Node_ptr_ref.cell, ne_eq, Option.some.injEq]
    omega

/-- The first half of a call of `copy_tree` on a source node: a node is
allocated, assigned to the destination variable and given the value and colour
of the source node; then the left subtree is copied. -/
theorem copy_tree_step [Inhabited α] {t : RBTree α} {dst : Node_ptr_ref} {a : Nat}
    {sn : RBTreeNode α} (fuel : Nat) (parent : Option Nat)
    (hw : dst.Writable t) (hsrc : t.mem a = some sn) (ha : a < t.brk)
    (hca : dst.cell ≠ some a) :
    ∃ t4 : RBTree α,
      t4.brk = t.brk + 1 ∧ t4.m_size = t.m_size ∧
      t4.mem t.brk = some ⟨sn.m_data, sn.m_color, none, none, parent⟩ ∧
      dst.Stored t t4 (some t.brk) ∧
      (∀ b, t.brk < b → t4.mem b = t.mem b) ∧
      RBTree.copy_tree (fuel + 1) t dst (some a) parent =
        (do
          let t5 ← RBTree.copy_tree fuel t4 (.m_left (some t.brk)) sn.m_left (some t.brk)
          let d ← t5.load dst
          let src ← t5.deref (some a)
          RBTree.copy_tree fuel t5 (.m_right d) src.m_right d) := by
  obtain ⟨T1, e1, hb1, hs1, hr1, hm1⟩ : ∃ T1 : RBTree α, t.buy_node parent = (T1, some t.brk) ∧
      T1.brk = t.brk + 1 ∧ T1.m_size = t.m_size ∧ T1.m_root = t.m_root ∧
      T1.mem = Function.update t.mem t.brk (some ⟨default, .m_red, none, none, parent⟩) :=
    ⟨_, rfl, rfl, rfl, rfl, rfl⟩
  have hw1 : dst.Writable T1 := by
    cases dst with
    | m_root => trivial
    | m_left p =>
      obtain ⟨x, n, rfl, hx, hm⟩ := hw
      exact ⟨x, n, rfl, by omega, by rw [hm1, Function.update_noteq (by omega)]; exact hm⟩
    | m_right p =>
      obtain ⟨x, n, rfl, hx, hm⟩ := hw
      exact ⟨x, n, rfl, by omega, by rw [hm1, Function.update_noteq (by omega)]; exact hm⟩
  have hcn : dst.cell ≠ some t.brk := hw.cell_ne (le_refl _)
  obtain ⟨T2, e2, st2, hb2, hs2, hf2⟩ := store_spec hw1 (some t.brk)
  have st2' : dst.Stored t T2 (some t.brk) := by
    refine ⟨?_, fun b hb => ?_⟩
    · have := st2.1
      cases dst <;> simp only [hr1] at this <;> exact this
    · rw [st2.2 b (by omega), hm1, Function.update_noteq (by omega)]
  have hn2 : T2.mem t.brk = some ⟨default, .m_red, none, none, parent⟩ := by
    rw [st2.2 t.brk (by omega), Node_ptr_ref.upd_of_ne hcn, hm1, Function.update_same]
  have ha2 : T2.mem a = some sn := by
    rw [st2'.2 a ha, Node_ptr_ref.upd_of_ne hca, hsrc]
  obtain ⟨T3, e3, hb3, hs3, hr3, hm3⟩ : ∃ T3 : RBTree α,
      T2.set_data (some t.brk) sn.m_data = .ok T3 ∧ T3.brk = T2.brk ∧ T3.m_size = T2.m_size ∧
      T3.m_root = T2.m_root ∧
      T3.mem = Function.update T2.mem t.brk (some ⟨sn.m_data, .m_red, none, none, parent⟩) :=
    ⟨{ T2 with
        mem := Function.update T2.mem t.brk (some ⟨sn.m_data, .m_red, none, none, parent⟩) },
      by simp [RBTree.set_data, RBTree.modify, hn2], rfl, rfl, rfl, rfl⟩
  have st3 : dst.Stored t T3 (some t.brk) :=
    st2'.frame hr3 (fun b hb => by rw [hm3, Function.update_noteq (by omega)])
  have hn3 : T3.mem t.brk = some ⟨sn.m_data, .m_red, none, none, parent⟩ := by
    rw [hm3, Function.update_same]
  have ha3 : T3.mem a = some sn := by
    rw [hm3, Function.update_noteq (by omega), ha2]
  obtain ⟨T4, e4, hb4, hs4, hr4, hm4⟩ : ∃ T4 : RBTree α,
      T3.set_color (some t.brk) sn.m_color = .ok T4 ∧ T4.brk = T3.brk ∧
      T4.m_size = T3.m_size ∧ T4.m_root = T3.m_root ∧
      T4.mem = Function.update T3.mem t.brk
        (some ⟨sn.m_data, sn.m_color, none, none, parent⟩) :=
    ⟨{ T3 with
        mem := Function.update T3.mem t.brk (some ⟨sn.m_data, sn.m_color, none, none, parent⟩) },
      by simp [RBTree.set_color, RBTree.modify, hn3], rfl, rfl, rfl, rfl⟩
  have st4 : dst.Stored t T4 (some t.brk) :=
    st3.frame hr4 (fun b hb => by rw [hm4, Function.update_noteq (by omega)])
  have ha4 : T4.mem a = some sn := by
    rw [hm4, Function.update_noteq (by omega), ha3]
  refine ⟨T4, by omega, by omega, by rw [hm4, Function.update_same], st4, ?_, ?_⟩
  · intro b hb
    rw [hm4, Function.update_noteq (by omega), hm3, Function.update_noteq (by omega),
      hf2 b (by omega), hm1, Function.update_noteq (by omega)]
  · rw [RBTree.copy_tree]
    simp [e1, e2, load_of_stored hw st2', load_of_stored hw st3, load_of_stored hw st4,
      deref_of_mem ha2, deref_of_mem ha3, deref_of_mem ha4, e3, e4, ok_bind]

/-- `copy_tree` builds, from fresh nodes only, a structure with the shape, the
values and the colours of the source, links it below `parent`, assigns its root
to the destination variable and leaves every older node as it was. -/
theorem copy_tree_spec [Inhabited α] (s : Tree α) :
    ∀ (t : RBTree α) (fuel : Nat) (dst : Node_ptr_ref) (parent spar : Option Nat),
      Rep t.mem spar s → (∀ b ∈ s.addrs, b < t.brk) → s.height < fuel → dst.Writable t →
      (∀ b ∈ s.addrs, dst.cell ≠ some b) →
      ∃ (t' : RBTree α) (c : Tree α),
        RBTree.copy_tree fuel t dst s.ptr parent = .ok t' ∧ c.strip = s.strip ∧
        Rep t'.mem parent c ∧ c.addrs.Nodup ∧ (∀ b ∈ c.addrs, t.brk ≤ b ∧ b < t'.brk) ∧
        t.brk ≤ t'.brk ∧ t'.m_size = t.m_size ∧ dst.Stored t t' c.ptr := by
  induction s with
  | nil =>
    intro t fuel dst parent spar _ _ hf hw _
    obtain ⟨g, rfl⟩ : ∃ g, fuel = g + 1 := ⟨fuel - 1, by omega⟩
    obtain ⟨t', e, st, hb, hs, _⟩ := store_spec hw none
    exact ⟨t', .nil, by simp [RBTree.copy_tree, e], rfl, trivial, by simp [Tree.addrs],
      by simp [Tree.addrs], by omega, hs, st⟩
  | node a c v l r ihl ihr =>
    intro t fuel dst parent spar hr hlt hf hw hcell
    obtain ⟨g, rfl⟩ : ∃ g, fuel = g + 1 := ⟨fuel - 1, by omega⟩
    simp only [Rep] at hr
    simp only [Tree.height] at hf
    simp only [Tree.addrs, List.mem_append, List.mem_cons] at hlt hcell
    obtain ⟨hma, hrl, hrr⟩ := hr
    have ha : a < t.brk := hlt a (Or.inr (Or.inl rfl))
    obtain ⟨T4, hb4, hs4, hn4, st4, hf4, heq⟩ :=
      copy_tree_step g parent hw hma ha (hcell a (Or.inr (Or.inl rfl)))
    have hold4 : ∀ b, b < t.brk → dst.cell ≠ some b → T4.mem b = t.mem b := by
      intro b hb hc
      rw [st4.2 b hb, Node_ptr_ref.upd_of_ne hc]
    -- the left subtree
    have hrl4 : Rep T4.mem (some a) l :=
      Rep_congr (fun b hb => hold4 b (hlt b (Or.inl hb)) (hcell b (Or.inl hb))) hrl
    obtain ⟨T5, cl, e5, hsl, hcl, hndl, hrgl, hb5, hs5, st5⟩ :=
      ihl T4 g (.m_left (some t.brk)) (some t.brk) (some a) hrl4
        (fun b hb => by have := hlt b (Or.inl hb); omega) (by omega)
        ⟨t.brk, _, rfl, by omega, hn4⟩
        (fun b hb => by
          have := hlt b (Or.inl hb)
          simp only [Node_ptr_ref.cell, ne_eq, Option.some.injEq]
          omega)
    have hn5 : T5.mem t.brk = some ⟨v, c, cl.ptr, none, parent⟩ := by
      rw [st5.2 t.brk (by omega)]
      simp [Node_ptr_ref.upd, hn4]
    have hold5 : ∀ b, b < t.brk → T5.mem b = T4.mem b := by
      intro b hb
      rw [st5.2 b (by omega)]
      have : ¬ t.brk = b := by omega
      simp [Node_ptr_ref.upd, this]
    have st5' : dst.Stored t T5 (some t.brk) := st4.frame st5.1 hold5
    have ha5 : T5.mem a = some ⟨v, c, l.ptr, r.ptr, spar⟩ := by
      rw [hold5 a ha, hold4 a ha (hcell a (Or.inr (Or.inl rfl))), hma]
    -- the right subtree
    have hrr5 : Rep T5.mem (some a) r :=
      Rep_congr (fun b hb => by
        rw [hold5 b (hlt b (Or.inr (Or.inr hb))),
          hold4 b (hlt b (Or.inr (Or.inr hb))) (hcell b (Or.inr (Or.inr hb)))]) hrr
    obtain ⟨T6, cr, e6, hsr, hcr, hndr, hrgr, hb6, hs6, st6⟩ :=
      ihr T5 g (.m_right (some t.brk)) (some t.brk) (some a) hrr5
        (fun b hb => by have := hlt b (Or.inr (Or.inr hb)); omega) (by omega)
        ⟨t.brk, _, rfl, by omega, hn5⟩
        (fun b hb => by
          have := hlt b (Or.inr (Or.inr hb))
          simp only [Node_ptr_ref.cell, ne_eq, Option.some.injEq]
          omega)
    have hn6 : T6.mem t.brk = some ⟨v, c, cl.ptr, cr.ptr, parent⟩ := by
      rw [st6.2 t.brk (by omega)]
      simp [Node_ptr_ref.upd, hn5]
    have hold6 : ∀ b, b < T5.brk → b ≠ t.brk → T6.mem b = T5.mem b := by
      intro b hb hne
      rw [st6.2 b hb]
      have : ¬ t.brk = b := fun e => hne e.symm
      simp [Node_ptr_ref.upd, this]
    have st6' : dst.Stored t T6 (some t.brk) :=
      st5'.frame st6.1 (fun b hb => hold6 b (by omega) (by omega))
    have hcl6 : Rep T6.mem (some t.brk) cl :=
      Rep_congr (fun b hb => by
        have := hrgl b hb
        exact hold6 b (by omega) (by omega)) hcl
    refine ⟨T6, .node t.brk c v cl cr, ?_, by simp [Tree.strip, hsl, hsr], ⟨hn6, hcl6, hcr⟩,
      ?_, ?_, by omega, by omega, st6'⟩
    · simp only [Tree.ptr_node]
      rw [heq]
      simp [e5, ok_bind, load_of_stored hw st5', deref_of_mem ha5, e6]
    · simp only [Tree.addrs, List.nodup_append, List.nodup_cons, List.disjoint_cons_right]
      refine ⟨hndl, ⟨?_, hndr⟩, ?_, ?_⟩
      · intro h
        have := hrgr _ h
        omega
      · intro h
        have := hrgl _ h
        omega
      · intro x hxl hxr
        have h1 := hrgl x hxl
        have h2 := hrgr x hxr
        omega
    · intro b hb
      simp only [Tree.addrs, List.mem_append, List.mem_cons] at hb
      rcases hb with hb | hb | hb
      · have := hrgl b hb
        omega
      · omega
      · have := hrgr b hb
        omega

/-- The copy assignment between two different objects of one store: the nodes
the destination held are released, and the destination then holds a fresh copy
of the source's tree, the source being left as it was. -/
theorem copy_assign_spec [Inhabited α] (d : RBTree α) (s : Members) (dtr str : Tree α)
    (fuel : Nat) (hd : d.Holds dtr) (hs : (d.view s).Holds str)
    (hdisj : ∀ b ∈ dtr.addrs, b ∉ str.addrs)
    (hfd : ∀ b ∈ dtr.addrs, b < d.brk) (hfs : ∀ b ∈ str.addrs, b < d.brk)
    (hf1 : dtr.height < fuel) (hf2 : str.height < fuel) :
    ∃ (d' : RBTree α) (c : Tree α), d.copy_assign fuel s = .ok d' ∧ d'.Holds c ∧
      c.strip = str.strip ∧ d'.m_size = s.m_size ∧ (d'.view s).Holds str ∧
      (∀ b ∈ c.addrs, d.brk ≤ b ∧ b < d'.brk) ∧
      (∀ b ∈ dtr.addrs, d'.mem b = none) ∧
      (∀ b, b < d.brk → b ∉ dtr.addrs → d'.mem b = d.mem b) := by
  have hroot : d.m_root = dtr.ptr := hd.root_eq
  have hndd : dtr.addrs.Nodup := by simpa [Path.addrs] using hd.2.2
  have hrd : Rep d.mem none dtr := hd.1
  have hrs : Rep d.mem none str := hs.1
  have hsroot : s.m_root = str.ptr := hs.root_eq
  obtain ⟨D, eD, rD, sD, bD, nD, fD⟩ :=
    destroy_tree_spec dtr { d with m_size := s.m_size } none fuel hrd hndd hf1
  simp only at rD sD bD fD
  have hrsD : Rep D.mem none str :=
    Rep_congr (fun b hb => fD b (fun hbd => hdisj b hbd hb)) hrs
  obtain ⟨T, c, eT, hstrip, hc, hndc, hrg, hbT, hsT, stT⟩ :=
    copy_tree_spec str D fuel .m_root none none hrsD (fun b hb => by rw [bD]; exact hfs b hb) hf2
      trivial (fun b _ => by simp [Node_ptr_ref.cell])
  have holdT : ∀ b, b < d.brk → T.mem b = D.mem b := by
    intro b hb
    rw [stT.2 b (by omega)]
    rfl
  refine ⟨T, c, ?_, ⟨hc, stT.1, by simpa [Path.addrs] using hndc⟩, hstrip, by omega,
    ⟨?_, ?_, hs.2.2⟩, fun b hb => by have := hrg b hb; omega, ?_, ?_⟩
  · simp only [hroot] at eD
    simp only [RBTree.copy_assign, hroot, eD, ok_bind, hsroot, eT]
  · exact Rep_congr (fun b hb => holdT b (hfs b hb)) hrsD
  · exact hs.2.1
  · intro b hb
    rw [holdT b (hfd b hb)]
    exact nD b hb
  · intro b hb hbd
    rw [holdT b hb, fD b hbd]

/-- Self-assignment of a non-empty tree: `destroy_tree(m_root)` releases every
node, and `copy_tree` then reads the released root of the source. -/
theorem copy_assign_self_faults [Inhabited α] (t : RBTree α) (tr : Tree α) (fuel : Nat)
    (hv : t.Valid tr) (hne : tr ≠ .nil) (hf : tr.height < fuel) :
    t.copy_assign fuel t.members = .error .undefined_behaviour := by
  obtain ⟨a, c, v, l, r, rfl⟩ : ∃ a c v l r, tr = .node a c v l r := by
    cases tr with
    | nil => exact absurd rfl hne
    | node a c v l r => exact ⟨a, c, v, l, r, rfl⟩
  have hroot : t.m_root = some a := hv.1.root_eq
  have hnd : (Tree.node a c v l r).addrs.Nodup := by simpa [Path.addrs] using hv.1.2.2
  have hmem : a ∈ (Tree.node a c v l r).addrs := by simp [Tree.addrs]
  have ha : a < t.brk := hv.2.1 a hmem
  obtain ⟨D, eD, rD, sD, bD, nD, fD⟩ :=
    destroy_tree_spec (.node a c v l r) { t with m_size := t.members.m_size } none fuel hv.1.1
      hnd hf
  simp only [Tree.ptr_node, hroot, RBTree.members] at eD
  simp only at bD
  have hDa : D.mem a = none := nD a hmem
  obtain ⟨g, rfl⟩ : ∃ g, fuel = g + 1 := ⟨fuel - 1, by omega⟩
  have hne' : a ≠ D.brk := by omega
  simp only [RBTree.copy_assign, hroot, eD, ok_bind, RBTree.members]
  rw [RBTree.copy_tree]
  simp [RBTree.buy_node, RBTree.store, RBTree.load, RBTree.deref, Function.update_noteq hne',
    hDa, ok_bind, bind, Except.bind, pure, Except.pure]

end jvn

/-! ## The properties of the container
-/

namespace jvn

set_option linter.unusedSectionVars false
set_option linter.unusedVariables false

variable {α : Type}

theorem sample_valid : sample.Valid sampleTree := by
  simp [RBTree.Valid, RBTree.Holds, Foc, Rep, RepPath, sample, sampleTree, Tree.addrs,
    Path.addrs, Tree.size]

theorem sampleTree_redBlack : sampleTree.RedBlack := by
  simp [Tree.RedBlack, Tree.NoRR, Tree.isRed, Tree.UniformBlack, Tree.blackCounts, sampleTree]

theorem sampleTree_bst : sampleTree.BST := by
  simp [Tree.BST, Tree.inorder, sampleTree]

theorem Tree.RedBlack.bal {t : Tree α} (h : t.RedBlack) : t.Bal :=
  (Tree.bal_iff_uniformBlack t).mpr h.2.2

theorem Tree.redBlack_of {t : Tree α} (hB : t.Bal) (hN : t.NoRR) (hR : t.isRed = false) :
    t.RedBlack :=
  ⟨hN, hR, (Tree.bal_iff_uniformBlack t).mp hB⟩

section ordered
variable [LinearOrder α] [Inhabited α]

/-- C1: on a valid tree that satisfies the three colour invariants (no red node
has a red child, the root is black, every path from the root to an absent child
has the same number of black nodes) and the BST order, `insert(v)` returns and
leaves a valid tree that again satisfies the three colour invariants; the same
holds after each insert of every sequence of inserts started on the empty
tree. -/
theorem insert_preserves_colour_invariants :
    (∀ (t : RBTree α) (tr : Tree α) (v : α) (fuel : Nat),
        t.Valid tr → tr.RedBlack → tr.BST → tr.height < fuel →
        ∃ t' tr', t.insert fuel v = .ok t' ∧ t'.Valid tr' ∧
          tr'.NoRR ∧ tr'.isRed = false ∧ tr'.UniformBlack) ∧
    (∀ (vs : List α) (fuel : Nat), vs.length + 2 < fuel →
        ∃ t' tr', RBTree.run fuel (vs.map Op.insert) RBTree.new = .ok t' ∧ t'.Valid tr' ∧
          tr'.NoRR ∧ tr'.isRed = false ∧ tr'.UniformBlack) := by
  constructor
  · intro t tr v fuel hv hrb hbst hf
    by_cases hm : v ∈ tr.inorder
    · exact ⟨t, tr, insert_present hv hrb.1 hrb.2.1 hbst hm hf, hv, hrb⟩
    · obtain ⟨t', tr', e, hv', h1, h2, h3, _⟩ :=
        insert_absent hv hrb.bal hrb.1 hrb.2.1 hbst hm hf
      exact ⟨t', tr', e, hv', Tree.redBlack_of h1 h2 h3⟩
  · intro vs fuel hf
    obtain ⟨t', tr', e, hv', h1, h2, h3, _⟩ :=
      run_invariant (vs.map Op.insert) (RBTree.new : RBTree α) .nil fuel valid_new trivial
        trivial rfl trivial (by simpa [Tree.size] using hf)
    exact ⟨t', tr', e, hv', Tree.redBlack_of h1 h2 h3⟩

/-- C2: on a valid tree that satisfies the colour invariants and the BST order,
`erase(v)` of a stored value returns and leaves a valid tree in which no red
node has a red child, the root (if any) is black, and every path from the root
to an absent child has the same number of black nodes. -/
theorem erase_preserves_colour_invariants (t : RBTree α) (tr : Tree α) (v : α) (fuel : Nat)
    (hv : t.Valid tr) (hrb : tr.RedBlack) (hbst : tr.BST) (hmem : v ∈ tr.inorder)
    (hf : tr.height + 2 < fuel) :
    ∃ t' tr', t.erase fuel v = (.ok (), t') ∧ t'.Valid tr' ∧
      tr'.NoRR ∧ tr'.isRed = false ∧ tr'.UniformBlack := by
  obtain ⟨t', tr', e, hv', h1, h2, h3, _⟩ :=
    erase_present hv hrb.bal hrb.1 hrb.2.1 hbst hmem hf
  exact ⟨t', tr', e, hv', Tree.redBlack_of h1 h2 h3⟩

/-- C3: after every sequence of `insert` and `erase` calls on the empty tree
(an `erase` of an absent value throws and is caught, so on sequences whose
erases are all of present values the run is just the calls) the tree is in BST
order and its in-order sequence of values is strictly ascending. -/
theorem operations_keep_bst_order (ops : List (Op α)) (fuel : Nat)
    (hf : ops.length + 2 < fuel) :
    ∃ t' tr', RBTree.run fuel ops RBTree.new = .ok t' ∧ t'.Valid tr' ∧ tr'.BST ∧
      tr'.inorder.Pairwise (· < ·) := by
  obtain ⟨t', tr', e, hv', _, _, _, h4, _⟩ :=
    run_invariant ops (RBTree.new : RBTree α) .nil fuel valid_new trivial trivial rfl trivial
      (by simpa [Tree.size] using hf)
  exact ⟨t', tr', e, hv', h4, (Tree.bst_iff_sorted tr').mp h4⟩

/-- C4: `insert(v)` of a value that is not stored in a valid tree returns; the
new in-order sequence is the old one with `v` at its sorted position, the stored
values are the old ones and `v`, `find(v)` returned `end()` before and returns a
node iterator afterwards, and `size()` has grown by exactly one. -/
theorem insert_absent_value (t : RBTree α) (tr : Tree α) (v : α) (fuel : Nat)
    (hv : t.Valid tr) (hrb : tr.RedBlack) (hbst : tr.BST) (habs : v ∉ tr.inorder)
    (hf : tr.height < fuel) :
    ∃ t' tr', t.insert fuel v = .ok t' ∧ t'.Valid tr' ∧
      (∃ before after, tr.inorder = before ++ after ∧ tr'.inorder = before ++ v :: after ∧
        (∀ x ∈ before, x < v) ∧ (∀ x ∈ after, v < x)) ∧
      (∀ x, x ∈ tr'.inorder ↔ x = v ∨ x ∈ tr.inorder) ∧
      t.find fuel v = .ok t.end_ ∧
      (∀ fuel', tr'.height < fuel' → ∃ it, t'.find fuel' v = .ok it ∧ it ≠ t'.end_) ∧
      t'.size = t.size + 1 := by
  obtain ⟨t', tr', e, hv', h1, h2, h3, h4, ⟨b, a, hi, hi', hb, ha⟩, h6⟩ :=
    insert_absent hv hrb.bal hrb.1 hrb.2.1 hbst habs hf
  refine ⟨t', tr', e, hv', ⟨b, a, hi, hi', hb, ha⟩, ?_, ?_, ?_, h6⟩
  · intro x
    rw [hi, hi']
    simp only [List.mem_append, List.mem_cons]
    tauto
  · simp [RBTree.find, (find_node_spec v fuel hv.1 hbst hf).2 habs, RBTree.end_, ok_bind, pure,
      Except.pure]
  · intro fuel' hf'
    have hm : v ∈ tr'.inorder := by rw [hi']; simp
    obtain ⟨p, a', c, l, r, e', _⟩ := (find_node_spec v fuel' hv'.1 h4 hf').1 hm
    exact ⟨⟨some a'⟩, by simp [RBTree.find, e', ok_bind, pure, Except.pure],
      by simp [RBTree.end_]⟩

/-- C5: `erase(v)` of a value stored in a valid tree returns; the new in-order
sequence is the old one with `v` removed and nothing else changed, `find(v)`
returns `end()` afterwards, and `size()` has dropped by exactly one. -/
theorem erase_stored_value (t : RBTree α) (tr : Tree α) (v : α) (fuel : Nat)
    (hv : t.Valid tr) (hrb : tr.RedBlack) (hbst : tr.BST) (hmem : v ∈ tr.inorder)
    (hf : tr.height + 2 < fuel) :
    ∃ t' tr', t.erase fuel v = (.ok (), t') ∧ t'.Valid tr' ∧
      (∃ before after, tr.inorder = before ++ v :: after ∧ tr'.inorder = before ++ after) ∧
      tr'.inorder = tr.inorder.erase v ∧
      (∀ fuel', tr'.height < fuel' → t'.find fuel' v = .ok t'.end_) ∧
      t'.size + 1 = t.size := by
  obtain ⟨t', tr', e, hv', h1, h2, h3, h4, ⟨b, a, hi, hi'⟩, h5, h6⟩ :=
    erase_present hv hrb.bal hrb.1 hrb.2.1 hbst hmem hf
  refine ⟨t', tr', e, hv', ⟨b, a, hi, hi'⟩, ?_, ?_, h6⟩
  · have hvb : v ∉ b := by
      intro hm
      exact h5 (by rw [hi']; exact List.mem_append_left _ hm)
    rw [hi, hi', List.erase_append_right _ hvb, List.erase_cons_head]
  · intro fuel' hf'
    simp [RBTree.find, (find_node_spec v fuel' hv'.1 h4 hf').2 h5, RBTree.end_, ok_bind, pure,
      Except.pure]

/-- C6: after every sequence of `insert` and `erase` calls on the empty tree
(erases of absent values throwing without effect) `size()` is the number of
nodes of the tree, which is the number of positions the iteration from
`begin()` to `end()` passes through, and `empty()` holds exactly when that
number is zero. -/
theorem size_counts_nodes (ops : List (Op α)) (fuel : Nat) (hf : ops.length + 2 < fuel) :
    ∃ t' tr', RBTree.run fuel ops RBTree.new = .ok t' ∧ t'.Valid tr' ∧
      t'.size = tr'.size ∧ t'.size = tr'.inorder.length ∧
      (∃ visited, t'.traverse fuel fuel = .ok visited ∧ visited.length = t'.size) ∧
      (t'.empty = true ↔ tr'.size = 0) := by
  obtain ⟨t', tr', e, hv', _, _, _, _, hs⟩ :=
    run_invariant ops (RBTree.new : RBTree α) .nil fuel valid_new trivial trivial rfl trivial
      (by simpa [Tree.size] using hf)
  have hsz : t'.size = tr'.size := hv'.2.2
  have hh := tr'.height_le_size
  simp only [Tree.size, Nat.zero_add] at hs
  refine ⟨t', tr', e, hv', hsz, by rw [hsz, Tree.length_inorder], ?_, ?_⟩
  · obtain ⟨it, hb, _, hcase⟩ := begin_spec t' tr' fuel hv'.1 (by omega)
    rcases hcase with ⟨hnil, hit⟩ | ⟨p, a, c, w, r, hptr, hfoc, hpl, hadd⟩
    · subst hnil
      obtain ⟨g, rfl⟩ : ∃ g, fuel = g + 1 := ⟨fuel - 1, by omega⟩
      refine ⟨[], ?_, by simp [hsz, Tree.size]⟩
      simp [RBTree.traverse, hb, ok_bind, hit, RBTree.traverse_loop, ne_end_end,
        pure, Except.pure]
    · obtain ⟨q⟩ := it
      simp only at hptr
      subst hptr
      have hl := Tree.length_addrs tr'
      rw [← hadd] at hl
      simp only [List.length_cons] at hl
      refine ⟨some a :: (r.addrs ++ p.addrsAfter).map some, ?_, ?_⟩
      · simp only [RBTree.traverse, hb, ok_bind]
        exact traverse_loop_spec t' tr' fuel (by omega) fuel p a c w .nil r hfoc hpl (by omega)
      · simp only [List.length_cons, List.length_map]
        omega
  · simp [RBTree.empty, hv'.2.2]

/-- C7: `insert(v)` of a value already stored in a valid tree returns and leaves
the whole object as it was: the same nodes with the same values, colours and
links, the same root and the same size. -/
theorem insert_stored_value_noop (t : RBTree α) (tr : Tree α) (v : α) (fuel : Nat)
    (hv : t.Valid tr) (hrb : tr.RedBlack) (hbst : tr.BST) (hmem : v ∈ tr.inorder)
    (hf : tr.height < fuel) :
    t.insert fuel v = .ok t :=
  insert_present hv hrb.1 hrb.2.1 hbst hmem hf

/-- C8: `erase(v)` of a value that is not stored in a valid tree throws "Value
has not been inserted" and leaves the object as it was: the same root, nodes,
colours, links and size. -/
theorem erase_absent_value_throws (t : RBTree α) (tr : Tree α) (v : α) (fuel : Nat)
    (hv : t.Valid tr) (hrb : tr.RedBlack) (hbst : tr.BST) (habs : v ∉ tr.inorder)
    (hf : tr.height < fuel) :
    t.erase fuel v = (.error .value_has_not_been_inserted, t) :=
  erase_absent hv.1 hbst habs hf

/-- C9: on a well-formed tree in BST order `find(v)` returns; when `v` is
stored the iterator points to a node of the tree and dereferences to `v`; and it
is `end()` exactly when `v` is not stored.  (`find` is a `const` member: it
yields an iterator and no new state.) -/
theorem find_correct (t : RBTree α) (tr : Tree α) (v : α) (fuel : Nat)
    (hh : t.Holds tr) (hbst : tr.BST) (hf : tr.height < fuel) :
    ∃ it, t.find fuel v = .ok it ∧
      (v ∈ tr.inorder → ∃ a, it.m_pointer = some a ∧ a ∈ tr.addrs ∧
        RBTreeIterator.star t it = .ok v) ∧
      (it = t.end_ ↔ v ∉ tr.inorder) := by
  by_cases hm : v ∈ tr.inorder
  · obtain ⟨p, a, c, l, r, e, hfoc, hpl⟩ := (find_node_spec v fuel hh hbst hf).1 hm
    refine ⟨⟨some a⟩, by simp [RBTree.find, e, ok_bind, pure, Except.pure], ?_, ?_⟩
    · intro _
      refine ⟨a, rfl, ?_, ?_⟩
      · rw [← hpl, Path.mem_addrs_plug]
        exact Or.inl (by simp [Tree.addrs])
      · simp [RBTreeIterator.star, hfoc.deref_root, ok_bind, pure, Except.pure]
    · simp [RBTree.end_, hm]
  · refine ⟨⟨none⟩, ?_, fun h => absurd h hm, ?_⟩
    · simp [RBTree.find, (find_node_spec v fuel hh hbst hf).2 hm, ok_bind, pure, Except.pure]
    · simp [RBTree.end_, hm]

end ordered

/-- C10: on a well-formed tree `begin()` is the leftmost node (the first node in
in-order, which has no left child), it is `end()` when the tree is empty, and
applying `operator++` from `begin()` until `end()` is reached passes through
exactly the nodes of the tree in in-order, each once. -/
theorem iteration_visits_inorder [DecidableEq α] (t : RBTree α) (tr : Tree α) (k fuel : Nat)
    (hh : t.Holds tr) (hk : tr.height ≤ k) (hf : tr.size < fuel) :
    (∃ it, t.begin k = .ok it ∧ it.m_pointer = tr.addrs.head? ∧
      (tr = .nil → it = t.end_) ∧
      (∀ a, it.m_pointer = some a → ∃ n, t.mem a = some n ∧ n.m_left = none)) ∧
    t.traverse k fuel = .ok (tr.addrs.map some) ∧ tr.addrs.Nodup := by
  obtain ⟨it, hb, hhead, hcase⟩ := begin_spec t tr k hh hk
  have hnd : tr.addrs.Nodup := by simpa [Path.addrs] using hh.2.2
  rcases hcase with ⟨hnil, hit⟩ | ⟨p, a, c, w, r, hptr, hfoc, hpl, hadd⟩
  · subst hnil
    obtain ⟨g, rfl⟩ : ∃ g, fuel = g + 1 := ⟨fuel - 1, by omega⟩
    refine ⟨⟨it, hb, hhead, fun _ => hit, ?_⟩, ?_, hnd⟩
    · intro a ha
      rw [hit] at ha
      simp [RBTree.end_] at ha
    · simp [RBTree.traverse, hb, ok_bind, hit, RBTree.traverse_loop, ne_end_end,
        pure, Except.pure, Tree.addrs]
  · obtain ⟨q⟩ := it
    simp only at hptr
    subst hptr
    have hl := Tree.length_addrs tr
    rw [← hadd] at hl
    simp only [List.length_cons] at hl
    refine ⟨⟨⟨some a⟩, hb, hhead, ?_, ?_⟩, ?_, hnd⟩
    · rintro rfl
      simp [Tree.addrs] at hadd
    · intro a' ha'
      simp only [Option.some.injEq] at ha'
      subst ha'
      exact ⟨_, hfoc.mem_root, rfl⟩
    · simp only [RBTree.traverse, hb, ok_bind]
      rw [traverse_loop_spec t tr k hk fuel p a c w .nil r hfoc hpl (by omega), ← hadd]
      rfl

theorem sampleTree_height : sampleTree.height = 2 := by
  simp [sampleTree, Tree.height]

theorem sampleTree_inorder : sampleTree.inorder = [10, 20, 30] := by
  simp [sampleTree, Tree.inorder]

/-- Witness for C1: inserting 25 into the sample tree. -/
theorem insert_preserves_colour_invariants_witness :
    sample.Valid sampleTree ∧ sampleTree.RedBlack ∧ sampleTree.BST ∧ sampleTree.height < 5 ∧
    ∃ t' tr', sample.insert 5 25 = .ok t' ∧ t'.Valid tr' ∧
      tr'.NoRR ∧ tr'.isRed = false ∧ tr'.UniformBlack :=
  ⟨sample_valid, sampleTree_redBlack, sampleTree_bst, by simp [sampleTree_height],
    insert_preserves_colour_invariants.1 sample sampleTree 25 5 sample_valid sampleTree_redBlack
      sampleTree_bst (by simp [sampleTree_height])⟩

/-- Witness for C2: erasing the red leaf 10 from the sample tree. -/
theorem erase_preserves_colour_invariants_witness :
    sample.Valid sampleTree ∧ sampleTree.RedBlack ∧ sampleTree.BST ∧
    10 ∈ sampleTree.inorder ∧ sampleTree.height + 2 < 5 ∧
    ∃ t' tr', sample.erase 5 10 = (.ok (), t') ∧ t'.Valid tr' ∧
      tr'.NoRR ∧ tr'.isRed = false ∧ tr'.UniformBlack :=
  ⟨sample_valid, sampleTree_redBlack, sampleTree_bst, by simp [sampleTree_inorder],
    by simp [sampleTree_height],
    erase_preserves_colour_invariants sample sampleTree 10 5 sample_valid sampleTree_redBlack
      sampleTree_bst (by simp [sampleTree_inorder]) (by simp [sampleTree_height])⟩

/-- Witness for C3: three inserts and one erase on the empty tree. -/
theorem operations_keep_bst_order_witness :
    [Op.insert 2, Op.insert 1, Op.insert 3, Op.erase 2].length + 2 < 7 ∧
    ∃ t' tr', RBTree.run 7 [Op.insert 2, Op.insert 1, Op.insert 3, Op.erase 2]
        (RBTree.new : RBTree Nat) = .ok t' ∧ t'.Valid tr' ∧ tr'.BST ∧
      tr'.inorder.Pairwise (· < ·) :=
  ⟨by decide, operations_keep_bst_order _ 7 (by decide)⟩

/-- Witness for C4: inserting 25 into the sample tree. -/
theorem insert_absent_value_witness :
    sample.Valid sampleTree ∧ sampleTree.RedBlack ∧ sampleTree.BST ∧
    25 ∉ sampleTree.inorder ∧ sampleTree.height < 5 ∧
    ∃ t' tr', sample.insert 5 25 = .ok t' ∧ t'.Valid tr' ∧
      (∃ before after, sampleTree.inorder = before ++ after ∧
        tr'.inorder = before ++ 25 :: after ∧
        (∀ x ∈ before, x < 25) ∧ (∀ x ∈ after, 25 < x)) ∧
      (∀ x, x ∈ tr'.inorder ↔ x = 25 ∨ x ∈ sampleTree.inorder) ∧
      sample.find 5 25 = .ok sample.end_ ∧
      (∀ fuel', tr'.height < fuel' → ∃ it, t'.find fuel' 25 = .ok it ∧ it ≠ t'.end_) ∧
      t'.size = sample.size + 1 :=
  ⟨sample_valid, sampleTree_redBlack, sampleTree_bst, by simp [sampleTree_inorder],
    by simp [sampleTree_height],
    insert_absent_value sample sampleTree 25 5 sample_valid sampleTree_redBlack
      sampleTree_bst (by simp [sampleTree_inorder]) (by simp [sampleTree_height])⟩

/-- Witness for C5: erasing the root 20, which has two children, from the
sample tree. -/
theorem erase_stored_value_witness :
    sample.Valid sampleTree ∧ sampleTree.RedBlack ∧ sampleTree.BST ∧
    20 ∈ sampleTree.inorder ∧ sampleTree.height + 2 < 5 ∧
    ∃ t' tr', sample.erase 5 20 = (.ok (), t') ∧ t'.Valid tr' ∧
      (∃ before after, sampleTree.inorder = before ++ 20 :: after ∧
        tr'.inorder = before ++ after) ∧
      tr'.inorder = sampleTree.inorder.erase 20 ∧
      (∀ fuel', tr'.height < fuel' → t'.find fuel' 20 = .ok t'.end_) ∧
      t'.size + 1 = sample.size :=
  ⟨sample_valid, sampleTree_redBlack, sampleTree_bst, by simp [sampleTree_inorder],
    by simp [sampleTree_height],
    erase_stored_value sample sampleTree 20 5 sample_valid sampleTree_redBlack
      sampleTree_bst (by simp [sampleTree_inorder]) (by simp [sampleTree_height])⟩

/-- Witness for C6: two inserts, an erase of an absent value and an erase of a
present value on the empty tree. -/
theorem size_counts_nodes_witness :
    [Op.insert 5, Op.insert 7, Op.erase 6, Op.erase 5].length + 2 < 7 ∧
    ∃ t' tr', RBTree.run 7 [Op.insert 5, Op.insert 7, Op.erase 6, Op.erase 5]
        (RBTree.new : RBTree Nat) = .ok t' ∧ t'.Valid tr' ∧
      t'.size = tr'.size ∧ t'.size = tr'.inorder.length ∧
      (∃ visited, t'.traverse 7 7 = .ok visited ∧ visited.length = t'.size) ∧
      (t'.empty = true ↔ tr'.size = 0) :=
  ⟨by decide, size_counts_nodes _ 7 (by decide)⟩

/-- Witness for C7: inserting 20 again into the sample tree. -/
theorem insert_stored_value_noop_witness :
    sample.Valid sampleTree ∧ sampleTree.RedBlack ∧ sampleTree.BST ∧
    20 ∈ sampleTree.inorder ∧ sampleTree.height < 5 ∧ sample.insert 5 20 = .ok sample :=
  ⟨sample_valid, sampleTree_redBlack, sampleTree_bst, by simp [sampleTree_inorder],
    by simp [sampleTree_height],
    insert_stored_value_noop sample sampleTree 20 5 sample_valid sampleTree_redBlack
      sampleTree_bst (by simp [sampleTree_inorder]) (by simp [sampleTree_height])⟩

/-- Witness for C8: erasing 25, which is not stored, from the sample tree. -/
theorem erase_absent_value_throws_witness :
    sample.Valid sampleTree ∧ sampleTree.RedBlack ∧ sampleTree.BST ∧
    25 ∉ sampleTree.inorder ∧ sampleTree.height < 5 ∧
    sample.erase 5 25 = (.error .value_has_not_been_inserted, sample) :=
  ⟨sample_valid, sampleTree_redBlack, sampleTree_bst, by simp [sampleTree_inorder],
    by simp [sampleTree_height],
    erase_absent_value_throws sample sampleTree 25 5 sample_valid sampleTree_redBlack
      sampleTree_bst (by simp [sampleTree_inorder]) (by simp [sampleTree_height])⟩

/-- Witness for C9: looking up 30 in the sample tree. -/
theorem find_correct_witness :
    sample.Holds sampleTree ∧ sampleTree.BST ∧ sampleTree.height < 3 ∧
    ∃ it, sample.find 3 30 = .ok it ∧
      (30 ∈ sampleTree.inorder → ∃ a, it.m_pointer = some a ∧ a ∈ sampleTree.addrs ∧
        RBTreeIterator.star sample it = .ok 30) ∧
      (it = sample.end_ ↔ 30 ∉ sampleTree.inorder) :=
  ⟨sample_valid.1, sampleTree_bst, by simp [sampleTree_height],
    find_correct sample sampleTree 30 3 sample_valid.1 sampleTree_bst
      (by simp [sampleTree_height])⟩

/-- Witness for C10: iterating over the sample tree. -/
theorem iteration_visits_inorder_witness :
    sample.Holds sampleTree ∧ sampleTree.height ≤ 2 ∧ sampleTree.size < 4 ∧
    (∃ it, sample.begin 2 = .ok it ∧ it.m_pointer = sampleTree.addrs.head? ∧
      (sampleTree = .nil → it = sample.end_) ∧
      (∀ a, it.m_pointer = some a → ∃ n, sample.mem a = some n ∧ n.m_left = none)) ∧
    sample.traverse 2 4 = .ok (sampleTree.addrs.map some) ∧ sampleTree.addrs.Nodup :=
  ⟨sample_valid.1, by simp [sampleTree_height], by simp [sampleTree, Tree.size],
    iteration_visits_inorder sample sampleTree 2 4 sample_valid.1 (by simp [sampleTree_height])
      (by simp [sampleTree, Tree.size])⟩

end jvn

/-! ## Copying, swapping, iterators at the end, scenarios, termination and height -/

namespace jvn

set_option linter.unusedSectionVars false
set_option linter.unusedVariables false

variable {α : Type}

theorem Tree.eq_nil_of_inorder {t : Tree α} (h : t.inorder = []) : t = .nil := by
  cases t with
  | nil => rfl
  | node a c v l r => simp [Tree.inorder] at h

theorem sampleTree_addrs : sampleTree.addrs = [1, 0, 2] := by
  simp [sampleTree, Tree.addrs]

theorem sampleBlack_focus :
    Foc sampleBlack (.left 0 .m_black 20 .top (.node 2 .m_black 30 .nil .nil))
      (.node 1 .m_black 10 .nil .nil) := by
  simp [Foc, Rep, RepPath, sampleBlack, Tree.addrs, Path.addrs]

theorem sample_focus_left :
    Foc sample (.left 0 .m_black 20 .top (.node 2 .m_red 30 .nil .nil))
      (.node 1 .m_red 10 .nil .nil) := by
  simp [Foc, Rep, RepPath, sample, Tree.addrs, Path.addrs]

/-- C11: self-assignment `t = t` of the sample tree with the values 10, 20, 30.
`operator=` does not test for `this == &t`: `destroy_tree(m_root)` releases all
three nodes, which are the nodes of the source as well, and `copy_tree` then
reads the released root; the call runs into undefined behaviour and, whatever
the recursion budget, does not return a tree that is identical to the
source. -/
theorem copy_assign_self_reads_released_nodes :
    (∃ D : RBTree Nat,
      RBTree.destroy_tree 5 { sample with m_size := sample.members.m_size } sample.m_root
        = .ok D ∧
      D.m_root = some 0 ∧ D.mem 0 = none ∧ D.mem 1 = none ∧ D.mem 2 = none ∧
      sample.members.m_root = some 0 ∧
      D.copy_tree 5 .m_root sample.members.m_root none = .error .undefined_behaviour) ∧
    (∀ fuel, sample.copy_assign (fuel + 3) sample.members = .error .undefined_behaviour) ∧
    (∀ fuel, ∃ e, sample.copy_assign fuel sample.members = .error e) := by
  have h3 : ∀ fuel, sample.copy_assign (fuel + 3) sample.members = .error .undefined_behaviour :=
    fun fuel => copy_assign_self_faults sample sampleTree (fuel + 3) sample_valid
      (by simp [sampleTree]) (by simp [sampleTree_height])
  refine ⟨⟨_, rfl, rfl, rfl, rfl, rfl, rfl, rfl⟩, h3, ?_⟩
  intro fuel
  match fuel with
  | 0 => exact ⟨_, rfl⟩
  | 1 => exact ⟨_, rfl⟩
  | 2 => exact ⟨_, rfl⟩
  | g + 3 => exact ⟨_, h3 g⟩

/-- Copy assignment `d = s` between two different tree objects of one store,
which own disjoint sets of nodes, returns; afterwards `d` holds a well-formed
tree with the shape of the tree of `s` and the same value and colour at every
position, its parent links follow that shape and its root has no parent,
`d.size()` is the size of `s`, the nodes are fresh ones, `s` holds its tree as
before, and iterating over `d` yields the same sequence of values as iterating
over `s`. -/
theorem copy_assign_structurally_identical [Inhabited α] [DecidableEq α]
    (d : RBTree α) (s : Members) (dtr str : Tree α) (fuel k n : Nat)
    (hd : d.Holds dtr) (hs : (d.view s).Holds str)
    (hdisj : List.Disjoint dtr.addrs str.addrs)
    (hbrk : ∀ b ∈ dtr.addrs ++ str.addrs, b < d.brk)
    (hf : max dtr.height str.height < fuel) (hk : str.height ≤ k) (hn : str.size < n) :
    ∃ (d' : RBTree α) (c : Tree α), d.copy_assign fuel s = .ok d' ∧
      d'.Holds c ∧ c.strip = str.strip ∧
      (∀ a, d'.m_root = some a → ∃ x, d'.mem a = some x ∧ x.m_parent = none) ∧
      d'.size = s.m_size ∧ c.size = str.size ∧
      (d'.view s).Holds str ∧ List.Disjoint c.addrs str.addrs ∧
      d'.values k n = .ok str.inorder ∧ (d'.view s).values k n = .ok str.inorder := by
  have hfd : ∀ b ∈ dtr.addrs, b < d.brk := fun b hb => hbrk b (List.mem_append_left _ hb)
  have hfs : ∀ b ∈ str.addrs, b < d.brk := fun b hb => hbrk b (List.mem_append_right _ hb)
  obtain ⟨d', c, e, hc, hstrip, hsz, hs', hrg, _, _⟩ :=
    copy_assign_spec d s dtr str fuel hd hs (fun b hb hbs => hdisj hb hbs) hfd hfs
      (by omega) (by omega)
  have hci : c.inorder = str.inorder := by rw [← c.strip_inorder, hstrip, str.strip_inorder]
  have hcs : c.size = str.size := by rw [← c.strip_size, hstrip, str.strip_size]
  have hch : c.height = str.height := by rw [← c.strip_height, hstrip, str.strip_height]
  refine ⟨d', c, e, hc, hstrip, ?_, hsz, hcs, hs', ?_, ?_, ?_⟩
  · intro a ha
    have hr : d'.m_root = c.ptr := hc.root_eq
    rw [hr] at ha
    cases c with
    | nil => simp at ha
    | node x cc v l r =>
      simp only [Tree.ptr_node, Option.some.injEq] at ha
      subst ha
      exact ⟨_, hc.mem_root, rfl⟩
  · intro x hxc hxs
    have h1 := hrg x hxc
    have h2 := hfs x hxs
    omega
  · rw [← hci]
    exact values_spec d' c k n hc (by omega) (by omega)
  · exact values_spec (d'.view s) str k n hs' hk hn

/-- C12: what `swap(a, b)` does to the members of the two objects.  `a` receives
the former root of `b`, but the last exchange is between `a.m_size` and
`b.m_root`: `a.m_size` becomes the word of `a`'s former root, `b.m_root` the word
of `a`'s former size, and `b.m_size` is never assigned.  With `a` the
three-element sample tree and `b` an empty tree, `b` keeps size 0 and does not
receive size 3; the move constructor and the move assignment, which call
`swap`, behave the same way. -/
theorem swap_exchanges_size_with_root (as_size : Option Nat → Nat)
    (as_ptr : Nat → Option Nat) :
    (∀ lhs rhs : Members,
      swap as_size as_ptr lhs rhs =
        (⟨rhs.m_root, as_size lhs.m_root⟩, ⟨as_ptr lhs.m_size, rhs.m_size⟩)) ∧
    swap as_size as_ptr sample.members (RBTree.new : RBTree Nat).members =
      (⟨none, as_size (some 0)⟩, ⟨as_ptr 3, 0⟩) ∧
    (swap as_size as_ptr sample.members (RBTree.new : RBTree Nat).members).2.m_size
      ≠ sample.members.m_size ∧
    move_construct as_size as_ptr sample.members = (⟨some 0, as_size none⟩, ⟨as_ptr 0, 3⟩) ∧
    move_assign as_size as_ptr (RBTree.new : RBTree Nat).members sample.members =
      (⟨some 0, as_size none⟩, ⟨as_ptr 0, 3⟩) :=
  ⟨fun _ _ => rfl, rfl, by show (0 : Nat) ≠ 3; decide, rfl, rfl⟩

/-- C14: inserting 10, 20, 30 in that order into the empty tree returns a tree
whose root holds 20 and is black, with left child 10 and right child 30, both
red leaves whose parent is the root; `find(20)` returns the iterator at the
root, `find(40)` returns `end()`, the iteration yields 10, 20, 30 and `size()`
is 3. -/
theorem scenario_insert_10_20_30 :
    ∃ t, RBTree.run 4 [Op.insert 10, Op.insert 20, Op.insert 30] (RBTree.new : RBTree Nat)
        = .ok t ∧
      t.m_root = some 1 ∧
      t.mem 1 = some ⟨20, .m_black, some 0, some 2, none⟩ ∧
      t.mem 0 = some ⟨10, .m_red, none, none, some 1⟩ ∧
      t.mem 2 = some ⟨30, .m_red, none, none, some 1⟩ ∧
      t.find 4 20 = .ok ⟨t.m_root⟩ ∧ t.find 4 40 = .ok t.end_ ∧
      t.values 4 4 = .ok [10, 20, 30] ∧ t.size = 3 :=
  ⟨_, rfl, rfl, rfl, rfl, rfl, rfl, rfl, rfl, rfl⟩

/-- C15: inserting 1, 2, ..., 7 in ascending order into the empty tree, then
erasing 1 and erasing 4, returns a tree whose iteration yields 2, 3, 5, 6, 7,
whose `size()` is 5, and in which every path from the root to an absent child
has the same number of black nodes.  When 1 is erased its node is a black leaf
that is not the root and whose sibling is red (the red-sibling case of the
double-black fix-up); when 4 is erased its node has two children. -/
theorem scenario_insert_1_to_7_erase_1_4 :
    ∃ t7 t8 t9,
      RBTree.run 8 ([1, 2, 3, 4, 5, 6, 7].map Op.insert) (RBTree.new : RBTree Nat) = .ok t7 ∧
      t7.erase 8 1 = (.ok (), t8) ∧ t8.erase 8 4 = (.ok (), t9) ∧
      t9.values 8 8 = .ok [2, 3, 5, 6, 7] ∧ t9.size = 5 ∧
      (∃ tr, t9.Valid tr ∧ tr.inorder = [2, 3, 5, 6, 7] ∧ tr.UniformBlack ∧ tr.RedBlack) ∧
      (t7.find_node 8 1 = .ok (some 0) ∧ t7.m_root = some 1 ∧
        t7.mem 0 = some ⟨1, .m_black, none, none, some 1⟩ ∧
        t7.sibling (some 0) = .ok (some 3) ∧
        t7.mem 3 = some ⟨4, .m_red, some 2, some 5, some 1⟩) ∧
      (t8.find_node 8 4 = .ok (some 3) ∧
        t8.mem 3 = some ⟨4, .m_black, some 1, some 5, none⟩) := by
  obtain ⟨t7, t8, t9, h7, h8, h9, hval, hsz, hroot, hbrk, c3, c1, c2, c5, c6, hr, htwo⟩ :
    ∃ t7 t8 t9,
      RBTree.run 8 ([1, 2, 3, 4, 5, 6, 7].map Op.insert) (RBTree.new : RBTree Nat) = .ok t7 ∧
      t7.erase 8 1 = (.ok (), t8) ∧ t8.erase 8 4 = (.ok (), t9) ∧
      t9.values 8 8 = .ok [2, 3, 5, 6, 7] ∧ t9.m_size = 5 ∧ t9.m_root = some 3 ∧ t9.brk = 7 ∧
      t9.mem 3 = some ⟨5, .m_black, some 1, some 5, none⟩ ∧
      t9.mem 1 = some ⟨2, .m_black, none, some 2, some 3⟩ ∧
      t9.mem 2 = some ⟨3, .m_red, none, none, some 1⟩ ∧
      t9.mem 5 = some ⟨6, .m_black, none, some 6, some 3⟩ ∧
      t9.mem 6 = some ⟨7, .m_red, none, none, some 5⟩ ∧
      (t7.find_node 8 1 = .ok (some 0) ∧ t7.m_root = some 1 ∧
        t7.mem 0 = some ⟨1, .m_black, none, none, some 1⟩ ∧
        t7.sibling (some 0) = .ok (some 3) ∧
        t7.mem 3 = some ⟨4, .m_red, some 2, some 5, some 1⟩) ∧
      (t8.find_node 8 4 = .ok (some 3) ∧
        t8.mem 3 = some ⟨4, .m_black, some 1, some 5, none⟩) :=
    ⟨_, _, _, rfl, rfl, rfl, rfl, rfl, rfl, rfl, rfl, rfl, rfl, rfl, rfl,
      ⟨rfl, rfl, rfl, rfl, rfl⟩, ⟨rfl, rfl⟩⟩
  refine ⟨t7, t8, t9, h7, h8, h9, hval, hsz, ⟨.node 3 .m_black 5
      (.node 1 .m_black 2 .nil (.node 2 .m_red 3 .nil .nil))
      (.node 5 .m_black 6 .nil (.node 6 .m_red 7 .nil .nil)), ?_, rfl, ?_, ?_⟩, hr, htwo⟩
  · simp [RBTree.Valid, RBTree.Holds, Foc, Rep, RepPath, Tree.addrs, Path.addrs, Tree.size,
      hsz, hroot, hbrk, c1, c2, c3, c5, c6]
  · simp [Tree.UniformBlack, Tree.blackCounts]
  · simp [Tree.RedBlack, Tree.NoRR, Tree.isRed, Tree.UniformBlack, Tree.blackCounts]

/-- C16: inserting a value into the empty tree and then erasing it leaves the
empty tree: both calls return, the root is absent, `size()` is 0, `empty()` is
true and `begin() == end()`. -/
theorem insert_then_erase_is_empty [LinearOrder α] [Inhabited α] (v : α) (fuel : Nat)
    (hf : 3 < fuel) :
    ∃ t1 t2, (RBTree.new : RBTree α).insert fuel v = .ok t1 ∧
      t1.erase fuel v = (.ok (), t2) ∧
      t2.m_root = none ∧ t2.size = 0 ∧ t2.empty = true ∧ t2.Valid .nil ∧
      ∀ k, ∃ b, t2.begin k = .ok b ∧ RBTreeIterator.eq t2 b t2.end_ = .ok true := by
  obtain ⟨t1, tr1, e1, hv1, hB1, hN1, hR1, hbst1, ⟨b, a, hi, hi', _, _⟩, _⟩ :=
    insert_absent (valid_new : (RBTree.new : RBTree α).Valid .nil) trivial trivial rfl trivial
      (by simp [Tree.inorder] : v ∉ (Tree.nil : Tree α).inorder)
      (by simp only [Tree.height]; omega : (Tree.nil : Tree α).height < fuel)
  simp only [Tree.inorder, List.nil_eq, List.append_eq_nil] at hi
  obtain ⟨rfl, rfl⟩ := hi
  simp only [List.nil_append] at hi'
  have hs1 : tr1.size = 1 := by rw [← Tree.length_inorder, hi']; rfl
  have hh1 := tr1.height_le_size
  obtain ⟨t2, tr2, e2, hv2, _, _, _, _, ⟨b', a', hj, hj'⟩, _, _⟩ :=
    erase_present hv1 hB1 hN1 hR1 hbst1 (by rw [hi']; simp : v ∈ tr1.inorder)
      (by omega : tr1.height + 2 < fuel)
  have hnil : tr2 = .nil := by
    apply Tree.eq_nil_of_inorder
    rw [hi'] at hj
    have hlen := congrArg List.length hj
    simp only [List.length_cons, List.length_nil, List.length_append] at hlen
    have hb : b' = [] := List.eq_nil_of_length_eq_zero (by omega)
    have ha : a' = [] := List.eq_nil_of_length_eq_zero (by omega)
    rw [hj', hb, ha]
    rfl
  subst hnil
  have hroot : t2.m_root = none := hv2.1.root_eq
  have hsize : t2.m_size = 0 := hv2.2.2
  refine ⟨t1, t2, e1, e2, hroot, hsize, by simp [RBTree.empty, hsize], hv2, ?_⟩
  intro k
  refine ⟨t2.end_, by simp [RBTree.begin, hroot, pure, Except.pure], ?_⟩
  simp [RBTreeIterator.eq, RBTree.end_, pure, Except.pure]

/-- C17: `erase` of a stored value on a valid red-black tree terminates: with a
recursion budget of the height of the tree plus three it returns normally.  A
call of `delete_node` on a node with two children makes its one nested call on
the in-order successor, a node without left child, for which the test
`node->m_left == nullptr || node->m_right == nullptr` holds, so that the nested
call does not call `delete_node` again.  Every chain of `double_black_fix`
calls started at depth `d` on a tree that lacks one black node below the
starting node ends within `d + 2` calls, the retry after the red-sibling
rotation included. -/
theorem erase_terminates [LinearOrder α] [Inhabited α] :
    (∀ (t : RBTree α) (tr : Tree α) (v : α) (fuel : Nat),
      t.Valid tr → tr.RedBlack → tr.BST → v ∈ tr.inorder → tr.height + 2 < fuel →
      ∃ t', t.erase fuel v = (.ok (), t')) ∧
    (∀ (t : RBTree α) (p : Path α) (a : Nat) (c : m_RB) (v : α) (l r : Tree α) (f : Nat),
      Foc t p (.node a c v l r) → l ≠ .nil → r ≠ .nil → r.height ≤ f →
      ∃ (y : Nat) (yn yn2 : RBTreeNode α) (t2 : RBTree α),
        t.BST_replace f (some a) = .ok (some y) ∧ y ≠ a ∧
        t.mem y = some yn ∧ yn.m_left = none ∧
        t2.mem y = some yn2 ∧ yn2.m_left = none ∧ yn2.m_data = v ∧
        RBTree.delete_node (f + 1) t (some a) = RBTree.delete_node f t2 (some y)) ∧
    (∀ (t : RBTree α) (p : Path α) (x : Nat) (c : m_RB) (v : α) (l r : Tree α) (k : Nat),
      Foc t p (.node x c v l r) → p.Bal (k + 1) → p.NoRR → (p.plug .nil).isRed = false →
      ∃ t', RBTree.double_black_fix (p.depth + 2) t (some x) = .ok t') := by
  refine ⟨?_, ?_, ?_⟩
  · intro t tr v fuel hv hrb hbst hmem hf
    obtain ⟨t', tr', e, _⟩ := erase_present hv hrb.bal hrb.1 hrb.2.1 hbst hmem hf
    exact ⟨t', e⟩
  · intro t p a c v l r f h hl hr hf
    exact delete_node_two_children f h hl hr hf
  · intro t p x c v l r k h hB hN hR
    obtain ⟨t', p', e, _⟩ :=
      double_black_fix_spec p.depth t p x c v l r k (p.depth + 2) (le_refl _) (le_refl _) h hB
        hN hR
    exact ⟨t', e⟩

/-- C18: in `delete_node` on a tree that satisfies the colour invariants, when
the removed node is a red leaf that is not the root, its sibling is absent or is
a red leaf, the assignment `node->sibling()->m_color = Node::m_red` leaves the
store exactly as it was, and the call returns the store in which the leaf has
been unlinked from its parent and released, with `m_size` one less. -/
theorem red_leaf_removal_only_detaches (t : RBTree α) (p : Path α) (a : Nat) (v : α)
    (f : Nat) (h : Foc t p (.node a .m_red v .nil .nil)) (hp : p ≠ .top)
    (hB : (p.plug (.node a .m_red v .nil .nil)).Bal)
    (hN : (p.plug (.node a .m_red v .nil .nil)).NoRR) :
    ∃ s, t.sibling (some a) = .ok s ∧
      (∀ y, s = some y →
        (∃ yv, t.mem y = some ⟨yv, .m_red, none, none, p.ptr⟩) ∧
        t.set_color (some y) .m_red = .ok t) ∧
      ∃ pn t2 t3, t.deref p.ptr = .ok pn ∧
        (if pn.m_left = some a then t.set_left p.ptr none else t.set_right p.ptr none)
          = .ok t2 ∧
        t2.destroy_node (some a) = .ok t3 ∧
        RBTree.delete_node (f + 1) t (some a) = .ok { t3 with m_size := t3.m_size - 1 } ∧
        Foc t3 p .nil := by
  rcases p with _ | ⟨pa, pc, pv, up, S⟩ | ⟨pa, pc, pv, S, up⟩
  · exact absurd rfl hp
  · obtain ⟨hs, hy, t2, t3, e2, e3, e4, f3⟩ :=
      delete_red_leaf_left_exact f h (Path.sibling_red_leaf_left hB hN)
    refine ⟨_, hs, hy, _, t2, t3, (Foc_left.mp h).deref_root, ?_, e3, e4, f3⟩
    simpa using e2
  · obtain ⟨hs, hy, t2, t3, e2, e3, e4, f3⟩ :=
      delete_red_leaf_right_exact f h (Path.sibling_red_leaf_right hB hN)
    have hn := h.nodup_facts_right
    refine ⟨_, hs, hy, _, t2, t3, (Foc_right.mp h).deref_root, ?_, e3, e4, f3⟩
    simpa [ptr_eq_false hn.1] using e2

/-- C19: every tree reached from the empty tree by `insert` and `erase` calls
has height (nodes on the longest path from the root to a leaf) at most
`2 * log2 (size + 1)`, with `log2` rounded down and hence also with the real
logarithm; the descent loops of `find_node` and of `BST_insert` therefore return
within that many iterations (one more unit of fuel pays for the final test of
the loop condition). -/
theorem height_at_most_twice_log [LinearOrder α] [Inhabited α] (ops : List (Op α))
    (fuel : Nat)
    (hf : ops.length + 2 < fuel) :
    ∃ t' tr', RBTree.run fuel ops RBTree.new = .ok t' ∧ t'.Valid tr' ∧
      tr'.height ≤ 2 * Nat.log 2 (t'.size + 1) ∧
      (tr'.height : ℝ) ≤ 2 * Real.logb 2 (t'.size + 1) ∧
      ∀ v, (∃ r, t'.find_node (2 * Nat.log 2 (t'.size + 1) + 1) v = .ok r) ∧
        (∃ r, t'.BST_insert_loop v (2 * Nat.log 2 (t'.size + 1) + 1) none t'.m_root
          = .ok r) := by
  obtain ⟨t', tr', e, hv', hB, hN, hR, hbst, _⟩ :=
    run_invariant ops (RBTree.new : RBTree α) .nil fuel valid_new trivial trivial rfl trivial
      (by simpa [Tree.size] using hf)
  have hsz : t'.size = tr'.size := hv'.2.2
  have hlog := Tree.height_le_log hB hN hR
  have hlogb := Tree.height_le_logb hB hN hR
  rw [← hsz] at hlog
  refine ⟨t', tr', e, hv', hlog, by rw [hsz]; exact hlogb, ?_⟩
  intro v
  constructor
  · by_cases hm : v ∈ tr'.inorder
    · obtain ⟨p, a, c, l, r, e', _⟩ :=
        (find_node_spec v (2 * Nat.log 2 (t'.size + 1) + 1) hv'.1 hbst (by omega)).1 hm
      exact ⟨_, e'⟩
    · exact ⟨_, (find_node_spec v (2 * Nat.log 2 (t'.size + 1) + 1) hv'.1 hbst
        (by omega)).2 hm⟩
  · have hroot : t'.m_root = tr'.ptr := hv'.1.root_eq
    have hspec := BST_insert_loop_spec t' v tr' .top (2 * Nat.log 2 (t'.size + 1) + 1) hv'.1
      hbst (by omega) (by simp [Path.before]) (by simp [Path.after])
    rw [hroot]
    by_cases hm : v ∈ tr'.inorder
    · obtain ⟨p', a, c, l, r, e', _⟩ := hspec.1 hm
      exact ⟨_, e'⟩
    · obtain ⟨p', e', _⟩ := hspec.2 hm
      exact ⟨_, e'⟩

/-- C20: in a well-formed tree in strict BST order, `operator==` on two
iterators, each at a node of the tree or at `end()`, returns true exactly when
both are at the same position; two iterators at different nodes never compare
equal, and an iterator at a node never compares equal to `end()`. -/
theorem iterator_eq_iff_same_position [LinearOrder α] (t : RBTree α) (tr : Tree α)
    (i j : RBTreeIterator)
    (hh : t.Holds tr) (hbst : tr.BST)
    (hi : i = t.end_ ∨ ∃ a ∈ tr.addrs, i.m_pointer = some a)
    (hj : j = t.end_ ∨ ∃ b ∈ tr.addrs, j.m_pointer = some b) :
    RBTreeIterator.eq t i j = .ok (decide (i = j)) ∧
    (∀ a, i.m_pointer = some a → RBTreeIterator.eq t i t.end_ = .ok false) := by
  obtain ⟨pi⟩ := i
  obtain ⟨pj⟩ := j
  refine ⟨?_, fun a ha => by
    simp only at ha
    subst ha
    simp [RBTreeIterator.eq, RBTree.end_, pure, Except.pure, ok_bind, bind, Except.bind]⟩
  rcases hi with hi | ⟨a, ha, hi⟩ <;> rcases hj with hj | ⟨b, hb, hj⟩
  · simp only [RBTree.end_, RBTreeIterator.mk.injEq] at hi hj
    subst hi hj
    simp [RBTreeIterator.eq, pure, Except.pure, ok_bind, bind, Except.bind]
  · simp only [RBTree.end_, RBTreeIterator.mk.injEq] at hi hj
    subst hi hj
    simp [RBTreeIterator.eq, pure, Except.pure, ok_bind, bind, Except.bind]
  · simp only [RBTree.end_, RBTreeIterator.mk.injEq] at hi hj
    subst hi hj
    simp [RBTreeIterator.eq, pure, Except.pure, ok_bind, bind, Except.bind]
  · simp only at hi hj
    subst hi hj
    obtain ⟨na, ea, _⟩ := hh.1.value_mem ha
    obtain ⟨nb, eb, _⟩ := hh.1.value_mem hb
    by_cases hab : a = b
    · subst hab
      simp [RBTreeIterator.eq, pure, Except.pure, ok_bind, bind, Except.bind]
    · have hd : na.m_data ≠ nb.m_data := fun hd => hab (hh.1.data_inj hbst ha hb ea eb hd)
      simp [RBTreeIterator.eq, pure, Except.pure, hab, deref_of_mem ea, deref_of_mem eb,
        ok_bind, hd]

/-- The sample tree copy-assigned to an empty object of the same store. -/
theorem copy_assign_structurally_identical_witness :
    (sample.view ⟨none, 0⟩).Holds .nil ∧
    ((sample.view ⟨none, 0⟩).view sample.members).Holds sampleTree ∧
    List.Disjoint (Tree.nil : Tree Nat).addrs sampleTree.addrs ∧
    (∀ b ∈ (Tree.nil : Tree Nat).addrs ++ sampleTree.addrs, b < (sample.view ⟨none, 0⟩).brk) ∧
    max (Tree.nil : Tree Nat).height sampleTree.height < 3 ∧ sampleTree.height ≤ 2 ∧
    sampleTree.size < 4 ∧
    ∃ (d' : RBTree Nat) (c : Tree Nat),
      (sample.view ⟨none, 0⟩).copy_assign 3 sample.members = .ok d' ∧
      d'.Holds c ∧ c.strip = sampleTree.strip ∧
      (∀ a, d'.m_root = some a → ∃ x, d'.mem a = some x ∧ x.m_parent = none) ∧
      d'.size = sample.members.m_size ∧ c.size = sampleTree.size ∧
      (d'.view sample.members).Holds sampleTree ∧ List.Disjoint c.addrs sampleTree.addrs ∧
      d'.values 2 4 = .ok sampleTree.inorder ∧
      (d'.view sample.members).values 2 4 = .ok sampleTree.inorder :=
  have h1 : (sample.view ⟨none, 0⟩).Holds .nil := by
    simp [RBTree.Holds, Foc, Rep, RepPath, RBTree.view, Tree.addrs, Path.addrs]
  have h2 : ((sample.view ⟨none, 0⟩).view sample.members).Holds sampleTree := sample_valid.1
  have h3 : List.Disjoint (Tree.nil : Tree Nat).addrs sampleTree.addrs := by simp [Tree.addrs]
  have h4 : ∀ b ∈ (Tree.nil : Tree Nat).addrs ++ sampleTree.addrs,
      b < (sample.view ⟨none, 0⟩).brk := by
    simp [Tree.addrs, sampleTree, RBTree.view, sample]
  have h5 : max (Tree.nil : Tree Nat).height sampleTree.height < 3 := by
    simp [sampleTree_height, Tree.height]
  have h6 : sampleTree.height ≤ 2 := by simp [sampleTree_height]
  have h7 : sampleTree.size < 4 := by simp [sampleTree, Tree.size]
  ⟨h1, h2, h3, h4, h5, h6, h7,
    copy_assign_structurally_identical (sample.view ⟨none, 0⟩) sample.members .nil sampleTree
      3 2 4 h1 h2 h3 h4 h5 h6 h7⟩

/-- Witness for C16: inserting 7 into the empty tree and erasing it again. -/
theorem insert_then_erase_is_empty_witness :
    3 < 4 ∧
    ∃ t1 t2, (RBTree.new : RBTree Nat).insert 4 7 = .ok t1 ∧
      t1.erase 4 7 = (.ok (), t2) ∧
      t2.m_root = none ∧ t2.size = 0 ∧ t2.empty = true ∧ t2.Valid .nil ∧
      ∀ k, ∃ b, t2.begin k = .ok b ∧ RBTreeIterator.eq t2 b t2.end_ = .ok true :=
  ⟨by decide, insert_then_erase_is_empty 7 4 (by decide)⟩

/-- Witness for C17: erasing the root 20 of the sample tree, which has two
children, and the fix-up for the black leaf 10 of the all-black sample tree. -/
theorem erase_terminates_witness :
    (sample.Valid sampleTree ∧ sampleTree.RedBlack ∧ sampleTree.BST ∧
      20 ∈ sampleTree.inorder ∧ sampleTree.height + 2 < 5 ∧
      ∃ t', sample.erase 5 20 = (.ok (), t')) ∧
    (Foc sample .top sampleTree ∧
      ∃ (y : Nat) (yn yn2 : RBTreeNode Nat) (t2 : RBTree Nat),
        sample.BST_replace 1 (some 0) = .ok (some y) ∧ y ≠ 0 ∧
        sample.mem y = some yn ∧ yn.m_left = none ∧
        t2.mem y = some yn2 ∧ yn2.m_left = none ∧ yn2.m_data = 20 ∧
        RBTree.delete_node (1 + 1) sample (some 0) = RBTree.delete_node 1 t2 (some y)) ∧
    (Foc sampleBlack (.left 0 .m_black 20 .top (.node 2 .m_black 30 .nil .nil))
        (.node 1 .m_black 10 .nil .nil) ∧
      ∃ t', RBTree.double_black_fix
        ((Path.left 0 .m_black 20 .top (.node 2 .m_black 30 .nil .nil)).depth + 2)
        sampleBlack (some 1) = .ok t') :=
  ⟨⟨sample_valid, sampleTree_redBlack, sampleTree_bst, by simp [sampleTree_inorder],
      by simp [sampleTree_height],
      (@erase_terminates Nat _ _).1 sample sampleTree 20 5 sample_valid sampleTree_redBlack
        sampleTree_bst (by simp [sampleTree_inorder]) (by simp [sampleTree_height])⟩,
    ⟨sample_valid.1,
      (@erase_terminates Nat _ _).2.1 sample .top 0 .m_black 20 (.node 1 .m_red 10 .nil .nil)
        (.node 2 .m_red 30 .nil .nil) 1 sample_valid.1 (by simp) (by simp)
        (by simp [Tree.height])⟩,
    ⟨sampleBlack_focus,
      (@erase_terminates Nat _ _).2.2 sampleBlack
        (.left 0 .m_black 20 .top (.node 2 .m_black 30 .nil .nil)) 1 .m_black 10 .nil .nil 0
        sampleBlack_focus (by simp [Path.Bal, Tree.bh, Tree.Bal]) (by simp [Path.NoRR, Tree.NoRR])
        (by simp [Path.plug, Tree.isRed])⟩⟩

/-- Witness for C18: removing the red leaf 10 of the sample tree, whose sibling
30 is a red leaf. -/
theorem red_leaf_removal_only_detaches_witness :
    Foc sample (.left 0 .m_black 20 .top (.node 2 .m_red 30 .nil .nil))
      (.node 1 .m_red 10 .nil .nil) ∧
    ∃ s, sample.sibling (some 1) = .ok s ∧
      (∀ y, s = some y →
        (∃ yv, sample.mem y = some ⟨yv, .m_red, none, none,
          (Path.left 0 .m_black 20 .top (.node 2 .m_red 30 .nil .nil)).ptr⟩) ∧
        sample.set_color (some y) .m_red = .ok sample) ∧
      ∃ pn t2 t3,
        sample.deref (Path.left 0 .m_black 20 .top (.node 2 .m_red 30 .nil .nil)).ptr = .ok pn ∧
        (if pn.m_left = some 1
          then sample.set_left (Path.left 0 .m_black 20 .top (.node 2 .m_red 30 .nil .nil)).ptr
            none
          else sample.set_right (Path.left 0 .m_black 20 .top (.node 2 .m_red 30 .nil .nil)).ptr
            none) = .ok t2 ∧
        t2.destroy_node (some 1) = .ok t3 ∧
        RBTree.delete_node (3 + 1) sample (some 1) = .ok { t3 with m_size := t3.m_size - 1 } ∧
        Foc t3 (.left 0 .m_black 20 .top (.node 2 .m_red 30 .nil .nil)) .nil :=
  ⟨sample_focus_left,
    red_leaf_removal_only_detaches sample _ 1 10 3 sample_focus_left (by simp)
      (by simp [Path.plug, Tree.Bal, Tree.bh]) (by simp [Path.plug, Tree.NoRR, Tree.isRed])⟩

/-- Witness for C19: three inserts and one erase on the empty tree. -/
theorem height_at_most_twice_log_witness :
    [Op.insert 2, Op.insert 1, Op.insert 3, Op.erase 2].length + 2 < 7 ∧
    ∃ t' tr', RBTree.run 7 [Op.insert 2, Op.insert 1, Op.insert 3, Op.erase 2]
        (RBTree.new : RBTree Nat) = .ok t' ∧ t'.Valid tr' ∧
      tr'.height ≤ 2 * Nat.log 2 (t'.size + 1) ∧
      (tr'.height : ℝ) ≤ 2 * Real.logb 2 (t'.size + 1) ∧
      ∀ v, (∃ r, t'.find_node (2 * Nat.log 2 (t'.size + 1) + 1) v = .ok r) ∧
        (∃ r, t'.BST_insert_loop v (2 * Nat.log 2 (t'.size + 1) + 1) none t'.m_root
          = .ok r) :=
  ⟨by decide, height_at_most_twice_log _ 7 (by decide)⟩

/-- Witness for C20: the iterators at the nodes 10 and 30 of the sample tree. -/
theorem iterator_eq_iff_same_position_witness :
    sample.Holds sampleTree ∧ sampleTree.BST ∧
    ((⟨some 1⟩ : RBTreeIterator) = sample.end_ ∨
      ∃ a ∈ sampleTree.addrs, (⟨some 1⟩ : RBTreeIterator).m_pointer = some a) ∧
    ((⟨some 2⟩ : RBTreeIterator) = sample.end_ ∨
      ∃ b ∈ sampleTree.addrs, (⟨some 2⟩ : RBTreeIterator).m_pointer = some b) ∧
    RBTreeIterator.eq sample ⟨some 1⟩ ⟨some 2⟩
      = .ok (decide ((⟨some 1⟩ : RBTreeIterator) = ⟨some 2⟩)) ∧
    (∀ a, (⟨some 1⟩ : RBTreeIterator).m_pointer = some a →
      RBTreeIterator.eq sample ⟨some 1⟩ sample.end_ = .ok false) :=
  ⟨sample_valid.1, sampleTree_bst, Or.inr ⟨1, by simp [sampleTree_addrs], rfl⟩,
    Or.inr ⟨2, by simp [sampleTree_addrs], rfl⟩,
    iterator_eq_iff_same_position sample sampleTree ⟨some 1⟩ ⟨some 2⟩ sample_valid.1
      sampleTree_bst (Or.inr ⟨1, by simp [sampleTree_addrs], rfl⟩)
      (Or.inr ⟨2, by simp [sampleTree_addrs], rfl⟩)⟩

end jvn
